import Mathlib

/-!
# Truechain: miner lifecycle, pack relay and synchroniser

A shallow embedding of `miner/miner.go`, `etrue/sync.go` and the block model of
`core/types/block.go`.

* The `Miner` record carries the four `int32` flags of the Go struct as
  integers.  The worker lives outside `miner.go`; it is represented by the
  list of calls the miner has issued to it, oldest first.
* Goroutines are represented by their handlers: one handled event is one
  function application.
* The send step of the pack relay is a function on the peer's queue, for any
  item type with a size.  The relay loop is a step function on its variables,
  one step per received event.
* `synchronise` runs against collaborators (chain readers, the two downloaders)
  given as functions on an environment state that every call may change; it
  returns the flags, the environment and the list of its events.  Its two nested
  `for` loops take fuel; when the fuel runs out the events so far are returned
  and the attempt is marked as not returned.  Heights are unsigned 64-bit
  integers: natural numbers with explicit reduction modulo `2 ^ 64`.
* A block is a value with its two caches as optional fields; a method that
  writes a cache returns the block after the call.  Functions of other
  packages (`rlpHash`, `DeriveSha`, `CalcUncleHash`, `CreateBloom`,
  `params.MaximumExtraDataSize`) are parameters; `sort.Sort` of the Go
  library is its insertion sort, run on the slice through `Less` and `Swap`.
* Where sharing matters, headers and blocks lie in a heap of big integers,
  backing arrays and header structs; pointers are addresses, allocation
  appends, and an in-place mutation is a `Write`.
-/

namespace Truechain

/-! ## miner/miner.go -/

/-- An account address (`common.Address`), kept as the number its 20 bytes encode. -/
structure Address where
  val : Nat
  deriving DecidableEq, Repr

/-- The calls `miner.go` issues to its `worker`, in the order of the source. -/
inductive WorkerCall where
  | register (agent : Nat)
  | unregister (agent : Nat)
  | start
  | stop
  | commitNewWork
  | setEtherbase (a : Address)
  | setExtra (extra : List Nat)
  | setElection (toElect : Bool) (pubkey : List Nat)
  | setFruitOnly (b : Bool)
  deriving DecidableEq, Repr

/-- Go struct `Miner`: the fields `miner.go` reads or writes.  `worker` is the
log of calls made on `self.worker`. -/
structure Miner where
  toElect : Bool
  publickey : List Nat
  FruitOnly : Bool
  singleNode : Bool
  coinbase : Address
  mining : Int
  canStart : Int
  shouldStart : Int
  commitFlag : Int
  worker : List WorkerCall
  deriving DecidableEq, Repr

/-- The agent id standing for `NewCpuAgent(...)` in `New`. -/
def cpuAgent : Nat := 0

/-- Go `New`, up to the goroutines it spawns: `canStart` and `commitFlag` are 1,
every other flag has its zero value, and the CPU agent is registered (the miner
is not mining, so `Register` only forwards to the worker). -/
def New (mineFruit singleNode : Bool) : Miner :=
  { toElect := false
    publickey := []
    FruitOnly := mineFruit
    singleNode := singleNode
    coinbase := ⟨0⟩
    mining := 0
    canStart := 1
    shouldStart := 0
    commitFlag := 1
    worker := [WorkerCall.register cpuAgent] }

/-- Go `Miner.Mining`: `atomic.LoadInt32(&self.mining) > 0`. -/
def Mining (self : Miner) : Bool := decide (self.mining > 0)

/-- Go `Miner.SetEtherbase`. -/
def SetEtherbase (self : Miner) (addr : Address) : Miner :=
  { self with coinbase := addr, worker := self.worker ++ [WorkerCall.setEtherbase addr] }

/-- Go `Miner.Start`. -/
def Start (self : Miner) (coinbase : Address) : Miner :=
  let s1 := { self with shouldStart := 1 }
  let s2 := SetEtherbase s1 coinbase
  if s2.canStart = 0 ∨ s2.commitFlag = 0 then
    s2
  else
    { s2 with mining := 1, worker := s2.worker ++ [WorkerCall.start, WorkerCall.commitNewWork] }

/-- Go `Miner.Stop`. -/
def Stop (self : Miner) : Miner :=
  { self with worker := self.worker ++ [WorkerCall.stop], mining := 0, shouldStart := 0 }

/-- The `Option` field of `types.ElectionEvent`; `loop` has a case for two of
its values and ignores the rest. -/
inductive ElectionOption where
  | CommitteeStart
  | CommitteeStop
  | other (code : Nat)
  deriving DecidableEq, Repr

/-- The fields of `types.ElectionEvent` that `loop` reads. -/
structure ElectionEvent where
  Option : ElectionOption
  CommitteeMembers : List Nat
  deriving DecidableEq, Repr

/-- The part of the `CommitteeElection` interface that `loop` calls. -/
structure CommitteeElection where
  IsCommitteeMember : List Nat → List Nat → Bool

/-- One iteration of Go `Miner.loop` on a received election event. -/
def loopEvent (election : CommitteeElection) (self : Miner) (ch : ElectionEvent) : Miner :=
  match ch.Option with
  | ElectionOption.CommitteeStart =>
    if election.IsCommitteeMember ch.CommitteeMembers self.publickey then
      let s1 := if Mining self then Stop { self with commitFlag := 0 } else self
      { s1 with commitFlag := 0 }
    else
      let s1 := { self with commitFlag := 1 }
      Start s1 s1.coinbase
  | ElectionOption.CommitteeStop =>
    let s1 := { self with commitFlag := 1 }
    Start s1 s1.coinbase
  | ElectionOption.other _ => self

/-- The event types `update` subscribes to.  `election` is subscribed but has
no case in the switch. -/
inductive MuxEvent where
  | StartEvent
  | DoneEvent
  | FailedEvent
  | election
  deriving DecidableEq, Repr

/-- One iteration of Go `Miner.update` on a received event.  The Boolean is
false when the iteration ends with `break out` (the listener has unsubscribed). -/
def updateEvent (self : Miner) (ev : MuxEvent) : Miner × Bool :=
  match ev with
  | MuxEvent.StartEvent =>
    let s1 := { self with canStart := 0 }
    if Mining s1 then
      ({ Stop s1 with shouldStart := 1 }, true)
    else
      (s1, true)
  | MuxEvent.DoneEvent | MuxEvent.FailedEvent =>
    let shouldStart := decide (self.shouldStart = 1)
    let s1 := { self with canStart := 1, shouldStart := 0 }
    if shouldStart then
      (Start s1 s1.coinbase, false)
    else
      (s1, false)
  | MuxEvent.election => (self, true)

/-- A miner together with the state of its `update` goroutine: `listening` is
true until `update` has left its loop. -/
structure MinerSys where
  miner : Miner
  listening : Bool
  deriving DecidableEq, Repr

/-- What can happen to a miner: a call of `Start` or `Stop`, an event posted on
the mux, an event sent on the election channel. -/
inductive Action where
  | start (coinbase : Address)
  | stop
  | mux (ev : MuxEvent)
  | elect (ev : ElectionEvent)
  deriving DecidableEq, Repr

/-- One handler run to completion.  Mux events reach the miner only while
`update` is listening; election events only when `loop` was spawned
(`!singleNode`). -/
def step (election : CommitteeElection) (s : MinerSys) : Action → MinerSys
  | Action.start a => { s with miner := Start s.miner a }
  | Action.stop => { s with miner := Stop s.miner }
  | Action.mux ev =>
    if s.listening then
      let r := updateEvent s.miner ev
      { miner := r.1, listening := r.2 }
    else s
  | Action.elect ev =>
    if s.miner.singleNode then s
    else { s with miner := loopEvent election s.miner ev }

/-- The system right after `New`. -/
def initSys (mineFruit singleNode : Bool) : MinerSys :=
  { miner := New mineFruit singleNode, listening := true }

/-- Run a list of actions from a state. -/
def run (election : CommitteeElection) (s : MinerSys) (acts : List Action) : MinerSys :=
  acts.foldl (step election) s

/-- The states a miner built by `New` can be in. -/
inductive Reachable (election : CommitteeElection) (mineFruit singleNode : Bool) : MinerSys → Prop where
  | init : Reachable election mineFruit singleNode (initSys mineFruit singleNode)
  | next {s : MinerSys} (a : Action) :
      Reachable election mineFruit singleNode s →
      Reachable election mineFruit singleNode (step election s a)

/-- A flag holds one of the two values the package stores in it. -/
def isFlag (x : Int) : Prop := x = 0 ∨ x = 1

instance (x : Int) : Decidable (isFlag x) := by unfold isFlag; infer_instance

/-- The two gates are open. -/
def gatesOpen (m : Miner) : Prop := m.canStart = 1 ∧ m.commitFlag = 1

instance (m : Miner) : Decidable (gatesOpen m) := by unfold gatesOpen; infer_instance

/-- The invariant of the flag machine: every flag is 0 or 1, and a mining
miner has both gates open. -/
def MinerInv (m : Miner) : Prop :=
  isFlag m.mining ∧ isFlag m.canStart ∧ isFlag m.commitFlag ∧ isFlag m.shouldStart ∧
    (m.mining = 1 → gatesOpen m)

/-! ## etrue/sync.go: the pack relay -/

/-- Go `txsyncPackSize`. -/
def txsyncPackSize : Nat := 100 * 1024

/-- Go `fruitsyncPackSize`. -/
def fruitsyncPackSize : Nat := 100 * 1024

/-- Go `maxheight`. -/
def maxheight : Nat := 600

/-- The fill loop of `send`:
`for i := 0; i < len(s.txs) && size < cap; i++ { pack = append(pack, s.txs[i]); size += s.txs[i].Size() }`,
started with `size = acc` on the items not yet visited.  `sz` is the item's
`Size()`: a whole number of bytes, which the source carries in a
`common.StorageSize`. -/
def fillPack {α : Type} (sz : α → Nat) (cap : Nat) : List α → Nat → List α
  | [], _ => []
  | x :: xs, acc => if acc < cap then x :: fillPack sz cap xs (acc + sz x) else []

/-- The pack built by `send` from a peer queue (`pack.txs` after the loop). -/
def sendPack {α : Type} (sz : α → Nat) (cap : Nat) (q : List α) : List α :=
  fillPack sz cap q 0

/-- The queue left by `send`: `s.txs[:copy(s.txs, s.txs[len(pack.txs):])]`. -/
def sendRest {α : Type} (sz : α → Nat) (cap : Nat) (q : List α) : List α :=
  q.drop (sendPack sz cap q).length

/-- Total size of a list of items. -/
def totalSize {α : Type} (sz : α → Nat) (q : List α) : Nat := (q.map sz).sum

/-! ## etrue/sync.go: synchronise -/

/-- Truncation to an unsigned 64-bit integer. -/
def u64 (n : Nat) : Nat := n % 2 ^ 64

/-- Subtraction of unsigned 64-bit integers, as Go computes it. -/
def sub64 (a b : Nat) : Nat := (u64 a + (2 ^ 64 - u64 b)) % 2 ^ 64

/-- Addition of unsigned 64-bit integers, as Go computes it. -/
def add64 (a b : Nat) : Nat := (a + b) % 2 ^ 64

/-- The sync modes given to the two downloaders
(`downloader.FullSync`, `downloader.FastSync`, `fastdownloader.FullSync`). -/
inductive SyncMode where
  | FullSync
  | FastSync
  deriving DecidableEq, Repr

/-- What `synchronise` uses of a block: its hash and its header number. -/
structure BlockRef where
  hash : Nat
  number : Nat
  deriving DecidableEq, Repr

/-- Go `NumberU64`: `header.Number.Uint64()`. -/
def NumberU64 (b : BlockRef) : Nat := u64 b.number

/-- What `synchronise` uses of a peer: `peer.id` and the pair returned by `peer.Head()`. -/
structure Peer where
  id : Nat
  head : Nat
  td : Int
  deriving DecidableEq, Repr

/-- The flags of `ProtocolManager` that `synchronise` touches (each a `uint32`). -/
structure ProtocolManager where
  fastSync : Nat
  acceptTxs : Nat
  acceptFruits : Nat
  deriving DecidableEq, Repr

/-- The collaborators of `synchronise` over an environment state `σ`.  Every
call may change the environment, reads included: other goroutines import blocks
while an attempt runs. `err = true` stands for a non-nil error; the header
returned by `FetchHeight` is `none` when nil, else its `Number`. -/
structure Collab (σ : Type) where
  snailCurrentBlock : σ → BlockRef × σ
  snailGetTd : Nat → Nat → σ → Int × σ
  snailCurrentFastBlock : σ → BlockRef × σ
  snailGetTdByHash : Nat → σ → Int × σ
  fastGetBlockNumber : σ → Nat × σ
  fastCurrentBlock : σ → BlockRef × σ
  fetchHeight : Nat → Nat → σ → (Bool × Option Nat) × σ
  fastSynchronise : Nat → Nat → Int → SyncMode → Nat → Nat → σ → Bool × σ
  snailSynchronise : Nat → Nat → Int → SyncMode → σ → Bool × σ

/-- What an attempt does that the claims speak of: downloader calls with their
result, measurements of the local fast height (`GetBlockNumber`), and broadcasts. -/
inductive Event where
  | fetchHeight (peer hint : Nat) (err : Bool) (header : Option Nat)
  | blockNumber (n : Nat)
  | fastSynchronise (peer head : Nat) (td : Int) (mode : SyncMode) (origin height : Nat) (err : Bool)
  | snailSynchronise (peer head : Nat) (td : Int) (mode : SyncMode) (err : Bool)
  | broadcastSnailBlock (head : BlockRef) (propagate : Bool)
  | broadcastFastBlock (head : BlockRef) (propagate : Bool)
  deriving DecidableEq, Repr

/-- How a loop was left: by `return`, by `break`, or because the fuel of the
model ran out while the loop was still running. -/
inductive Exit where
  | ret
  | brk
  | fuel
  deriving DecidableEq, Repr

/-- What a run of a catch-up loop leaves: its events, oldest first, the
environment, and how the loop was left. -/
structure LoopRun (σ : Type) where
  events : List Event
  env : σ
  exit : Exit

/-- The inner `for` of the fast catch-up (lines 303-320): request the window
`[fbNum, fbNum + height)` and, as long as the local height has not reached its
end, request the rest of it. -/
def windowLoop {σ : Type} (c : Collab σ) (p : Peer) : Nat → Nat → Nat → σ → LoopRun σ
  | 0, _, _, env => { events := [], env := env, exit := Exit.fuel }
  | fuel + 1, fbNum, height, env =>
    let r := c.fastSynchronise p.id 0 0 SyncMode.FullSync fbNum height env
    let call := Event.fastSynchronise p.id 0 0 SyncMode.FullSync fbNum height r.1
    if r.1 then { events := [call], env := r.2, exit := Exit.ret }
    else
      let m := c.fastGetBlockNumber r.2
      let fbNumLast := u64 m.1
      if add64 fbNum height > fbNumLast then
        let rest := windowLoop c p fuel fbNumLast (sub64 (add64 fbNum height) fbNumLast) m.2
        { rest with events := call :: Event.blockNumber fbNumLast :: rest.events }
      else { events := [call, Event.blockNumber fbNumLast], env := m.2, exit := Exit.brk }

/-- The cap on a window (lines 298-300): `if height > maxheight { height = maxheight }`. -/
def capHeight (height : Nat) : Nat := if height > maxheight then maxheight else height

/-- The outer `for` of the fast catch-up (lines 288-324), for the target height
`target = header.Number.Uint64()`. -/
def catchUpLoop {σ : Type} (c : Collab σ) (p : Peer) (target : Nat) : Nat → σ → LoopRun σ
  | 0, env => { events := [], env := env, exit := Exit.fuel }
  | fuel + 1, env =>
    let m := c.fastGetBlockNumber env
    let fbNum := u64 m.1
    let height := sub64 target fbNum
    if height > 0 then
      let r := windowLoop c p fuel fbNum (capHeight height) m.2
      match r.exit with
      | Exit.brk =>
        let rest := catchUpLoop c p target fuel r.env
        { rest with events := Event.blockNumber fbNum :: (r.events ++ rest.events) }
      | Exit.ret => { r with events := Event.blockNumber fbNum :: r.events }
      | Exit.fuel => { r with events := Event.blockNumber fbNum :: r.events }
    else { events := [Event.blockNumber fbNum], env := m.2, exit := Exit.brk }

/-- The state an attempt starts in: the manager's flags and the environment. -/
structure World (σ : Type) where
  pm : ProtocolManager
  env : σ

/-- What an attempt leaves: the flags, the environment, its events, oldest
first, and whether it has returned (false: the fuel of the model ran out inside
the catch-up loops, and the rest is what was reached so far). -/
structure Attempt (σ : Type) where
  pm : ProtocolManager
  env : σ
  events : List Event
  returned : Bool

/-- The branch of `synchronise` taken when the peer is not ahead (lines 277-327). -/
def fastCatchUp {σ : Type} (c : Collab σ) (fuel : Nat) (p : Peer) (w : World σ) : Attempt σ :=
  let f := c.fetchHeight p.id 0 w.env
  let fetch := Event.fetchHeight p.id 0 f.1.1 f.1.2
  if f.1.1 then { pm := w.pm, env := f.2, events := [fetch], returned := true }
  else
    match f.1.2 with
    | none => { pm := w.pm, env := f.2, events := [fetch], returned := true }
    | some number =>
      let m := c.fastGetBlockNumber f.2
      let gate := Event.blockNumber (u64 m.1)
      if u64 number > u64 m.1 then
        let r := catchUpLoop c p (u64 number) fuel m.2
        { pm := w.pm, env := r.env, events := fetch :: gate :: r.events,
          returned := decide (r.exit ≠ Exit.fuel) }
      else { pm := w.pm, env := m.2, events := [fetch, gate], returned := true }

/-- The choice of the sync mode (lines 330-342): the mode, the flags and the
environment after it. -/
def selectMode {σ : Type} (c : Collab σ) (currentBlock : BlockRef) (w : World σ) :
    SyncMode × World σ :=
  if w.pm.fastSync = 1 then (SyncMode.FastSync, w)
  else if NumberU64 currentBlock = 0 then
    let f := c.snailCurrentFastBlock w.env
    if NumberU64 f.1 > 0 then
      (SyncMode.FastSync, { pm := { w.pm with fastSync := 1 }, env := f.2 })
    else (SyncMode.FullSync, { w with env := f.2 })
  else (SyncMode.FullSync, w)

/-- The end of a successful attempt (lines 358-383), after the events `evs`. -/
def afterSync {σ : Type} (c : Collab σ) (w : World σ) (evs : List Event) : Attempt σ :=
  let pm1 := if w.pm.fastSync = 1 then { w.pm with fastSync := 0 } else w.pm
  let pm2 := { pm1 with acceptTxs := 1, acceptFruits := 1 }
  let h := c.snailCurrentBlock w.env
  let e1 := if NumberU64 h.1 > 0 then evs ++ [Event.broadcastSnailBlock h.1 false] else evs
  let fh := c.fastCurrentBlock h.2
  let e2 := if NumberU64 fh.1 > 0 then e1 ++ [Event.broadcastFastBlock fh.1 false] else e1
  { pm := pm2, env := fh.2, events := e2, returned := true }

/-- The call of the snail downloader and what follows it (lines 353-384). -/
def runDownloader {σ : Type} (c : Collab σ) (p : Peer) (mode : SyncMode) (w : World σ) : Attempt σ :=
  let r := c.snailSynchronise p.id p.head p.td mode w.env
  let call := Event.snailSynchronise p.id p.head p.td mode r.1
  if r.1 then { pm := w.pm, env := r.2, events := [call], returned := true }
  else afterSync c { w with env := r.2 } [call]

/-- The branch of `synchronise` taken when the peer is ahead (lines 329-384). -/
def snailSync {σ : Type} (c : Collab σ) (p : Peer) (currentBlock : BlockRef) (w : World σ) :
    Attempt σ :=
  let sel := selectMode c currentBlock w
  if sel.1 = SyncMode.FastSync then
    let f := c.snailCurrentFastBlock sel.2.env
    let t := c.snailGetTdByHash f.1.hash f.2
    if t.1 ≥ p.td then { pm := sel.2.pm, env := t.2, events := [], returned := true }
    else runDownloader c p sel.1 { sel.2 with env := t.2 }
  else runDownloader c p sel.1 sel.2

/-- The local snail head an attempt reads first (`pm.snailchain.CurrentBlock()`). -/
def localHead {σ : Type} (c : Collab σ) (w : World σ) : BlockRef := (c.snailCurrentBlock w.env).1

/-- The local total difficulty an attempt compares the peer's with, and the
environment after it was read. -/
def localTd {σ : Type} (c : Collab σ) (w : World σ) : Int × σ :=
  c.snailGetTd (localHead c w).hash (NumberU64 (localHead c w)) (c.snailCurrentBlock w.env).2

/-- Go `ProtocolManager.synchronise`.  Calls made only to fill a log line are
left out. -/
def synchronise {σ : Type} (c : Collab σ) (fuel : Nat) (peer : Option Peer) (w : World σ) :
    Attempt σ :=
  match peer with
  | none => { pm := w.pm, env := w.env, events := [], returned := true }
  | some p =>
    let currentBlock := localHead c w
    let td := localTd c w
    if p.td ≤ td.1 then fastCatchUp c fuel p { w with env := td.2 }
    else snailSync c p currentBlock { w with env := td.2 }

/-- A `Synchronise` call on the fast downloader. -/
def Event.isFastSync : Event → Bool
  | Event.fastSynchronise _ _ _ _ _ _ _ => true
  | _ => false

/-- A `Synchronise` call on the snail downloader. -/
def Event.isSnailSync : Event → Bool
  | Event.snailSynchronise _ _ _ _ _ => true
  | _ => false

/-- A broadcast of a head. -/
def Event.isBroadcast : Event → Bool
  | Event.broadcastSnailBlock _ _ => true
  | Event.broadcastFastBlock _ _ => true
  | _ => false

/-- A downloader call that failed: `FetchHeight` with an error or a nil header,
or a `Synchronise` with an error. -/
def Event.failed : Event → Bool
  | Event.fetchHeight _ _ err header => err || header.isNone
  | Event.fastSynchronise _ _ _ _ _ _ err => err
  | Event.snailSynchronise _ _ _ _ err => err
  | _ => false

/-- The local fast heights measured during an attempt, in order. -/
def measured : List Event → List Nat
  | [] => []
  | Event.blockNumber n :: rest => n :: measured rest
  | _ :: rest => measured rest

/-- Check of the windows requested in a list of events, given the height
measured by the event just before the list (if that event was a measurement):
every fast `Synchronise` starts at the height measured immediately before it and
asks for between 1 and `maxheight` blocks. -/
def windowsOk : Option Nat → List Event → Bool
  | _, [] => true
  | last, Event.fastSynchronise _ _ _ _ origin height _ :: rest =>
    decide (last = some origin) && decide (1 ≤ height) && decide (height ≤ maxheight) &&
      windowsOk none rest
  | _, Event.blockNumber n :: rest => windowsOk (some n) rest
  | _, _ :: rest => windowsOk none rest

/-- The answer of `FetchHeight` in an attempt against a peer that is not ahead,
and the environment after it. -/
def fetched {σ : Type} (c : Collab σ) (p : Peer) (w : World σ) : (Bool × Option Nat) × σ :=
  c.fetchHeight p.id 0 (localTd c w).2

/-- The local fast height the attempt compares the fetched height with
(`pm.blockchain.GetBlockNumber()` at line 286). -/
def gateHeight {σ : Type} (c : Collab σ) (p : Peer) (w : World σ) : Nat :=
  u64 (c.fastGetBlockNumber (fetched c p w).2).1

/-- The mode chosen in an attempt against a peer that is ahead, with the flags
and the environment after the choice. -/
def chosen {σ : Type} (c : Collab σ) (w : World σ) : SyncMode × World σ :=
  selectMode c (localHead c w) { w with env := (localTd c w).2 }

/-- The number of the local fast head (`pm.snailchain.CurrentFastBlock()`) as read
during the choice of the mode. -/
def localFastNumber {σ : Type} (c : Collab σ) (w : World σ) : Nat :=
  NumberU64 (c.snailCurrentFastBlock (localTd c w).2).1

/-- The total difficulty of the local fast head as read at line 346. -/
def fastHeadTd {σ : Type} (c : Collab σ) (w : World σ) : Int :=
  (c.snailGetTdByHash (c.snailCurrentFastBlock (chosen c w).2.env).1.hash
    (c.snailCurrentFastBlock (chosen c w).2.env).2).1

/-- No event of the list is a failed downloader call. -/
def NoFail (evs : List Event) : Prop := ∀ e ∈ evs, Event.failed e = false

/-- A failed downloader call, if there is one, is the last event of the list. -/
def FailLast (evs : List Event) : Prop :=
  ∀ pre ev post, evs = pre ++ ev :: post → Event.failed ev = true → post = []

/-! ### Scripted environments

Environments whose answers are fixed in advance, to run the model on. -/

/-- A scripted environment: the successive answers of `GetBlockNumber` and of
the fast downloader's `Synchronise` are consumed from lists (0 and success once
a list is used up); every other answer is fixed. -/
structure Script where
  snailHead : BlockRef
  snailTd : Int
  snailFastHead : BlockRef
  snailFastTd : Int
  fastHead : BlockRef
  fetchErr : Bool
  fetchHeader : Option Nat
  heights : List Nat
  fastErrs : List Bool
  snailErr : Bool
  snailHeadAfter : BlockRef
  deriving DecidableEq, Repr

/-- The collaborators reading a `Script`.  After the snail downloader has run,
the snail head is `snailHeadAfter`. -/
def scripted : Collab Script where
  snailCurrentBlock s := (s.snailHead, s)
  snailGetTd _ _ s := (s.snailTd, s)
  snailCurrentFastBlock s := (s.snailFastHead, s)
  snailGetTdByHash _ s := (s.snailFastTd, s)
  fastGetBlockNumber s := (s.heights.headD 0, { s with heights := s.heights.tail })
  fastCurrentBlock s := (s.fastHead, s)
  fetchHeight _ _ s := ((s.fetchErr, s.fetchHeader), s)
  fastSynchronise _ _ _ _ _ _ s := (s.fastErrs.headD false, { s with fastErrs := s.fastErrs.tail })
  snailSynchronise _ _ _ _ s := (s.snailErr, { s with snailHead := s.snailHeadAfter })

/-- A script for a node whose snail head is block 10 with total difficulty 5,
facing a peer whose fast head is at height 1000. -/
def script (heights : List Nat) (fastErrs : List Bool) : Script :=
  { snailHead := ⟨1, 10⟩
    snailTd := 5
    snailFastHead := ⟨2, 3⟩
    snailFastTd := 4
    fastHead := ⟨3, 400⟩
    fetchErr := false
    fetchHeader := some 1000
    heights := heights
    fastErrs := fastErrs
    snailErr := false
    snailHeadAfter := ⟨5, 11⟩ }

/-- The local chain of an environment whose fast downloader always succeeds and
imports exactly the window it is asked for. -/
structure Ideal where
  snailHead : BlockRef
  snailTd : Int
  peerFastHeight : Nat
  fastHeight : Nat
  deriving DecidableEq, Repr

/-- The collaborators of the ideal environment: a successful
`Synchronise(origin, height)` on the fast downloader leaves the local fast
height at `origin + height`, and nothing else moves it. -/
def ideal : Collab Ideal where
  snailCurrentBlock s := (s.snailHead, s)
  snailGetTd _ _ s := (s.snailTd, s)
  snailCurrentFastBlock s := (s.snailHead, s)
  snailGetTdByHash _ s := (s.snailTd, s)
  fastGetBlockNumber s := (s.fastHeight, s)
  fastCurrentBlock s := (⟨0, s.fastHeight⟩, s)
  fetchHeight _ _ s := ((false, some s.peerFastHeight), s)
  fastSynchronise _ _ _ _ origin height s := (false, { s with fastHeight := origin + height })
  snailSynchronise _ _ _ _ s := (false, s)

/-- The number a public key encodes, big-endian. -/
def keyId (pubkey : List Nat) : Nat := pubkey.foldl (fun acc b => 256 * acc + b) 0

/-- A concrete election to run the miner against: committee members are listed
by the number of their public key. -/
def listElection : CommitteeElection where
  IsCommitteeMember members pubkey := decide (keyId pubkey ∈ members)

/-- A miner that was mining, was stopped by a `CommitteeStart` naming it as a
member, and was then asked to start again: `shouldStart = 1`, `commitFlag = 0`. -/
def blockedMiner : Miner :=
  (run listElection (initSys false false)
    [Action.start ⟨7⟩, Action.elect ⟨ElectionOption.CommitteeStart, [0]⟩, Action.start ⟨7⟩]).miner

/-! ## etrue/sync.go: the pack relay loops

`txsyncLoop` and `fruitsyncLoop` are the same loop over two item types; the
model is generic in the item type, its size function and the pack size.  The
`pending` map is an association list (a peer id has at most the entries written
for it last), and the random pick is driven by a number given with the event. -/

/-- Go `delete(pending, id)`. -/
def removePeer {α : Type} (id : Nat) (m : List (Nat × List α)) : List (Nat × List α) :=
  m.filter (fun e => decide (e.1 ≠ id))

/-- Go `pending[id] = s`: the entry of `id` is replaced. -/
def putPeer {α : Type} (id : Nat) (q : List α) (m : List (Nat × List α)) : List (Nat × List α) :=
  removePeer id m ++ [(id, q)]

/-- The variables of a relay loop (`pending`, `sending`, `pack`), with two
records kept for the proofs: `dispatched`, the packs handed to a sending
goroutine, oldest first, and `outstanding`, the number of those whose result has
not been received from `done` yet. -/
structure Relay (α : Type) where
  pending : List (Nat × List α)
  sending : Bool
  packPeer : Option Nat
  packItems : List α
  dispatched : List (Nat × List α)
  outstanding : Nat

/-- The variables as the loop declares them. -/
def Relay.init {α : Type} : Relay α :=
  { pending := [], sending := false, packPeer := none, packItems := [],
    dispatched := [], outstanding := 0 }

/-- The closure `send` of the loop, applied to the entry of peer `id` with queue
`q`: fill the pack, cut it off the queue, drop the entry when nothing is left,
and hand the pack to a goroutine. -/
def relaySend {α : Type} (sz : α → Nat) (cap : Nat) (st : Relay α) (id : Nat) (q : List α) :
    Relay α :=
  { pending :=
      if (sendRest sz cap q).length = 0 then removePeer id st.pending
      else putPeer id (sendRest sz cap q) st.pending
    sending := true
    packPeer := some id
    packItems := sendPack sz cap q
    dispatched := st.dispatched ++ [(id, sendPack sz cap q)]
    outstanding := st.outstanding + 1 }

/-- The closure `pick` of the loop: `nil` on an empty map, else one of the
entries; `r` stands for the random number and the iteration order of the map. -/
def relayPick {α : Type} (r : Nat) (m : List (Nat × List α)) : Option (Nat × List α) :=
  if m.length = 0 then none else m.get? (r % m.length)

/-- The case `s := <-pm.txsyncCh` of the loop. -/
def onNewPeer {α : Type} (sz : α → Nat) (cap : Nat) (st : Relay α) (id : Nat) (txs : List α) :
    Relay α :=
  let st1 := { st with pending := putPeer id txs st.pending }
  if st1.sending then st1 else relaySend sz cap st1 id txs

/-- The first part of the case `err := <-done` of the loop (lines 141-146): the
flag is cleared, and on an error the peer of the pack is dropped from the map. -/
def afterResult {α : Type} (st : Relay α) (err : Bool) : Relay α :=
  let st1 := { st with sending := false, outstanding := st.outstanding - 1 }
  if err then
    match st1.packPeer with
    | some id => { st1 with pending := removePeer id st1.pending }
    | none => st1
  else st1

/-- The second part of the case `err := <-done` (lines 148-150):
`if s := pick(); s != nil { send(s) }`. -/
def scheduleNext {α : Type} (sz : α → Nat) (cap : Nat) (st : Relay α) (r : Nat) : Relay α :=
  match relayPick r st.pending with
  | some s => relaySend sz cap st s.1 s.2
  | none => st

/-- The case `err := <-done` of the loop. -/
def onDone {α : Type} (sz : α → Nat) (cap : Nat) (st : Relay α) (err : Bool) (r : Nat) : Relay α :=
  scheduleNext sz cap (afterResult st err) r

/-- What a relay loop receives: a peer with its pending snapshot, or the result
of a send together with the number that drives the next pick. -/
inductive RelayEvent (α : Type) where
  | newPeer (id : Nat) (txs : List α)
  | done (err : Bool) (r : Nat)

/-- One iteration of the loop. -/
def relayStep {α : Type} (sz : α → Nat) (cap : Nat) (st : Relay α) : RelayEvent α → Relay α
  | RelayEvent.newPeer id txs => onNewPeer sz cap st id txs
  | RelayEvent.done err r => onDone sz cap st err r

/-- Run a list of events through the loop. -/
def relayRun {α : Type} (sz : α → Nat) (cap : Nat) (st : Relay α) (evs : List (RelayEvent α)) :
    Relay α :=
  evs.foldl (relayStep sz cap) st

/-- The states a relay loop can be in: a result is received from `done` only
when a send is outstanding, and `syncTransactions` / `syncFruits` never enqueue
an empty snapshot. -/
inductive RelayReachable {α : Type} (sz : α → Nat) (cap : Nat) : Relay α → Prop where
  | init : RelayReachable sz cap Relay.init
  | newPeer {st : Relay α} (id : Nat) (txs : List α) :
      RelayReachable sz cap st → txs ≠ [] → RelayReachable sz cap (onNewPeer sz cap st id txs)
  | done {st : Relay α} (err : Bool) (r : Nat) :
      RelayReachable sz cap st → 0 < st.outstanding → RelayReachable sz cap (onDone sz cap st err r)

/-- An event that does not enqueue peer `id`. -/
def RelayEvent.spares {α : Type} (id : Nat) : RelayEvent α → Prop
  | RelayEvent.newPeer k _ => k ≠ id
  | RelayEvent.done _ _ => True

/-- The packs dispatched to peer `id`, in send order. -/
def packsTo {α : Type} (id : Nat) (log : List (Nat × List α)) : List (List α) :=
  (log.filter (fun e => decide (e.1 = id))).map (fun e => e.2)

/-- Peer `id` has no entry in the pending map. -/
def Absent {α : Type} (id : Nat) (st : Relay α) : Prop := ∀ q, (id, q) ∉ st.pending

/-- The packs dispatched to peer `id` so far are non-empty and make up, in send
order, an initial part of `snap`; any queue the pending map holds for `id` is
non-empty and is the rest of `snap`. -/
def Tracks {α : Type} (id : Nat) (snap : List α) (st : Relay α) : Prop :=
  (packsTo id st.dispatched).flatten <+: snap ∧
  (∀ p ∈ packsTo id st.dispatched, p ≠ []) ∧
  ∀ q, (id, q) ∈ st.pending → (packsTo id st.dispatched).flatten ++ q = snap ∧ q ≠ []

/-! ## core/types/block.go

Hashes are kept as numbers, big integers as optional integers (`none` for a nil
pointer), byte slices as lists of bytes.  The RLP encoder and Keccak live
outside `block.go`; what the claims need of them is taken as a parameter. -/

/-- Go struct `Header`. -/
structure Header where
  ParentHash : Nat
  PointerHash : Nat
  FruitsHash : Nat
  RecordHash : Nat
  RecordNumber : Option Int
  Fruit : Bool
  UncleHash : Nat
  Coinbase : Address
  Root : Nat
  TxHash : Nat
  ReceiptHash : Nat
  Bloom : Nat
  Difficulty : Option Int
  Number : Option Int
  GasLimit : Nat
  GasUsed : Nat
  Time : Option Int
  Extra : List Nat
  MixDigest : Nat
  Nonce : List Nat
  deriving DecidableEq, Repr

/-- Go `CopyHeader`: the four big integers are fresh ones, zero when the source
has nil, and `Extra` is a fresh slice with the same bytes. -/
def CopyHeader (h : Header) : Header :=
  { h with
    Time := some (h.Time.getD 0)
    Difficulty := some (h.Difficulty.getD 0)
    Number := some (h.Number.getD 0)
    RecordNumber := some (h.RecordNumber.getD 0) }

/-- Go struct `Block`: header, uncles, fruits, transactions, the two caches
`hash` and `size` (`none` while nothing is stored) and `td`.  Transactions are
kept as numbers.  `ReceivedAt` and `ReceivedFrom` are left out. -/
inductive Block where
  | mk (header : Header) (uncles : List Header) (fruits : List Block) (transactions : List Nat)
      (hash : Option Nat) (size : Option Nat) (td : Option Int)

/-- Field `header`. -/
def Block.header : Block → Header
  | Block.mk h _ _ _ _ _ _ => h

/-- Field `uncles`. -/
def Block.uncles : Block → List Header
  | Block.mk _ u _ _ _ _ _ => u

/-- Field `fruits`. -/
def Block.fruits : Block → List Block
  | Block.mk _ _ f _ _ _ _ => f

/-- Field `transactions`. -/
def Block.transactions : Block → List Nat
  | Block.mk _ _ _ t _ _ _ => t

/-- The cache `hash`. -/
def Block.hashCache : Block → Option Nat
  | Block.mk _ _ _ _ c _ _ => c

/-- The cache `size`. -/
def Block.sizeCache : Block → Option Nat
  | Block.mk _ _ _ _ _ c _ => c

/-- Field `td`. -/
def Block.td : Block → Option Int
  | Block.mk _ _ _ _ _ _ t => t

/-- Go `NewBlockWithHeader`. -/
def NewBlockWithHeader (header : Header) : Block :=
  Block.mk (CopyHeader header) [] [] [] none none none

/-- Go `Block.Hash`, with `rlpHash` standing for `Header.Hash`: the cached value
when there is one, else the hash of the header, which is then stored.  Returns
the hash and the block after the call. -/
def Block.Hash (rlpHash : Header → Nat) : Block → Nat × Block
  | Block.mk h u f t (some v) sz td => (v, Block.mk h u f t (some v) sz td)
  | Block.mk h u f t none sz td => (rlpHash h, Block.mk h u f t (some (rlpHash h)) sz td)

/-- Go `Block.Size`, with `encodedSize` standing for the length of the RLP
encoding of the block (its header, transactions and uncles). -/
def Block.Size (encodedSize : Header → List Nat → List Header → Nat) : Block → Nat × Block
  | Block.mk h u f t c (some v) td => (v, Block.mk h u f t c (some v) td)
  | Block.mk h u f t c none td =>
    (encodedSize h t u, Block.mk h u f t c (some (encodedSize h t u)) td)

/-- Go struct `extblock`. -/
structure ExtBlock where
  Header : Truechain.Header
  Txs : List Nat
  Uncles : List Truechain.Header
  deriving DecidableEq, Repr

/-- Go `Block.DecodeRLP`.  `decoded` is what `s.Decode(&eb)` yields, `none` for
an error, together with `rlp.ListSize(size)`.  Returns the block after the call
and whether an error is returned. -/
def Block.DecodeRLP (b : Block) (decoded : Option (ExtBlock × Nat)) : Block × Bool :=
  match decoded with
  | none => (b, true)
  | some (eb, listSize) =>
    (Block.mk eb.Header eb.Uncles b.fruits eb.Txs b.hashCache (some listSize) b.td, false)

/-- Go `CopyFruit`: a block with a copy of the header and of the transactions
of `f`, a zero `td`, and nothing else. -/
def CopyFruit (f : Block) : Block :=
  Block.mk (CopyHeader f.header) [] [] f.transactions none none (some 0)

/-- The functions of other files that `NewBlock` calls.  `DeriveSha` reads a
`DerivableList` through `Len` and `GetRlp`: it is a function of the list of the
encodings of the items.  Receipts are kept as numbers. -/
structure Roots where
  DeriveSha : List (List Nat) → Nat
  txRlp : Nat → List Nat
  receiptRlp : Nat → List Nat
  fruitRlp : Block → List Nat
  CalcUncleHash : List Header → Nat
  CreateBloom : List Nat → Nat

/-- Go `EmptyRootHash = DeriveSha(Transactions{})`. -/
def EmptyRootHash (k : Roots) : Nat := k.DeriveSha []

/-- Go `EmptyUncleHash = CalcUncleHash(nil)`. -/
def EmptyUncleHash (k : Roots) : Nat := k.CalcUncleHash []

/-- Go `NewBlock`. -/
def NewBlock (k : Roots) (header : Header) (txs : List Nat) (uncles : List Header)
    (receipts : List Nat) (fruits : List Block) : Block :=
  let h0 := CopyHeader header
  let h1 :=
    if txs.length = 0 then { h0 with TxHash := EmptyRootHash k }
    else { h0 with TxHash := k.DeriveSha (txs.map k.txRlp) }
  let h2 :=
    if receipts.length = 0 then { h1 with ReceiptHash := EmptyRootHash k }
    else { h1 with ReceiptHash := k.DeriveSha (receipts.map k.receiptRlp)
                   Bloom := k.CreateBloom receipts }
  let h3 :=
    if fruits.length = 0 then { h2 with FruitsHash := EmptyRootHash k }
    else { h2 with FruitsHash := k.DeriveSha (fruits.map k.fruitRlp) }
  let h4 :=
    if uncles.length = 0 then { h3 with UncleHash := EmptyUncleHash k }
    else { h3 with UncleHash := k.CalcUncleHash uncles }
  Block.mk h4 (uncles.map CopyHeader) (fruits.map CopyFruit) txs none none (some 0)

/-- Go `Block.WithSeal`: `cpy := *header`, and a block literal with `cpy` and
part of the body of `b`. -/
def Block.WithSeal (b : Block) (header : Header) : Block :=
  if header.Fruit then Block.mk header [] [] b.transactions none none none
  else Block.mk header b.uncles b.fruits [] none none none

/-- Go `Block.WithBody`. -/
def Block.WithBody (b : Block) (transactions : List Nat) (uncles : List Header) : Block :=
  Block.mk (CopyHeader b.header) (uncles.map CopyHeader) [] transactions none none none

/-- A header whose four big integers are set (no nil pointer). -/
def Header.bigsSet (h : Header) : Prop :=
  h.Time ≠ none ∧ h.Difficulty ≠ none ∧ h.Number ≠ none ∧ h.RecordNumber ≠ none

/-- A value handed to the RLP encoder by `HashNoNonce`: a hash, a big integer
(`none` for nil), an address, a bloom filter, a `uint64` or a byte slice. -/
inductive RlpItem where
  | hash (v : Nat)
  | big (v : Option Int)
  | address (a : Address)
  | bloom (v : Nat)
  | uint (v : Nat)
  | bytes (v : List Nat)
  deriving DecidableEq, Repr

/-- Go `Header.HashNoNonce`, with `rlpHash` standing for the hash of the RLP
encoding of a list of values. -/
def Header.HashNoNonce (rlpHash : List RlpItem → Nat) (h : Header) : Nat :=
  rlpHash
    [RlpItem.hash h.ParentHash, RlpItem.hash h.PointerHash, RlpItem.hash h.FruitsHash,
      RlpItem.hash h.RecordHash, RlpItem.big h.RecordNumber, RlpItem.hash h.UncleHash,
      RlpItem.address h.Coinbase, RlpItem.hash h.Root, RlpItem.hash h.TxHash,
      RlpItem.hash h.ReceiptHash, RlpItem.bloom h.Bloom, RlpItem.big h.Difficulty,
      RlpItem.big h.Number, RlpItem.uint h.GasLimit, RlpItem.uint h.GasUsed,
      RlpItem.big h.Time, RlpItem.bytes h.Extra]

/-- Go `Block.HashNoNonce`. -/
def Block.HashNoNonce (rlpHash : List RlpItem → Nat) (b : Block) : Nat :=
  Header.HashNoNonce rlpHash b.header

/-- A `BlockNonce`: 8 bytes. -/
def isBlockNonce (n : List Nat) : Prop := n.length = 8 ∧ ∀ b ∈ n, b < 256

/-- Go `EncodeNonce`: `binary.BigEndian.PutUint64(n[:], i)`, the byte at index
`k` being `byte(i >> (56 - 8k))`. -/
def EncodeNonce (i : Nat) : List Nat :=
  [i / 2 ^ 56 % 256, i / 2 ^ 48 % 256, i / 2 ^ 40 % 256, i / 2 ^ 32 % 256,
    i / 2 ^ 24 % 256, i / 2 ^ 16 % 256, i / 2 ^ 8 % 256, i % 256]

/-- Go `BlockNonce.Uint64`: `binary.BigEndian.Uint64(n[:])`. -/
def BlockNonce.Uint64 (n : List Nat) : Nat :=
  n.foldl (fun acc b => acc * 256 + b) 0

/-- Go `Block.Nonce`: `binary.BigEndian.Uint64(b.header.Nonce[:])`. -/
def Block.Nonce (b : Block) : Nat :=
  b.header.Nonce.foldl (fun acc x => acc * 256 + x) 0

/-- Go `Block.Header`: `return CopyHeader(b.header)`. -/
def Block.Header (b : Block) : Truechain.Header := CopyHeader b.header

/-- Go `Number`: `b1.header.Number.Cmp(b2.header.Number) < 0`; `none` when one
of the two numbers is nil. -/
def Number (b1 b2 : Block) : Option Bool :=
  match b1.header.Number, b2.header.Number with
  | some x, some y => some (decide (x < y))
  | _, _ => none

/-- Go `blockSorter.Len`. -/
def blockSorter.Len (blocks : List Block) : Nat := blocks.length

/-- Go `blockSorter.Swap`; the slice after the call. -/
def blockSorter.Swap (blocks : List Block) (i j : Nat) : List Block :=
  match blocks.get? i, blocks.get? j with
  | some x, some y => (blocks.set i y).set j x
  | _, _ => blocks

/-- Go `blockSorter.Less`. -/
def blockSorter.Less (lessBy : Block → Block → Option Bool) (blocks : List Block) (i j : Nat) :
    Option Bool :=
  match blocks.get? i, blocks.get? j with
  | some x, some y => lessBy x y
  | _, _ => none

/-- Go `insertionSort` of package `sort`, the inner loop
`for j := i; j > a && data.Less(j, j-1); j-- { data.Swap(j, j-1) }` from `j`
on; `none` when a call of `Less` panics. -/
def sort.insertionInner (lessBy : Block → Block → Option Bool) (a : Nat) :
    Nat → List Block → Option (List Block)
  | 0, blocks => some blocks
  | j + 1, blocks =>
    if j + 1 > a then
      match blockSorter.Less lessBy blocks (j + 1) j with
      | none => none
      | some true => sort.insertionInner lessBy a j (blockSorter.Swap blocks (j + 1) j)
      | some false => some blocks
    else some blocks

/-- Go `insertionSort` of package `sort`, the outer loop
`for i := a + 1; i < b; i++` from `i` on, with `n` rounds left. -/
def sort.insertionOuter (lessBy : Block → Block → Option Bool) (a : Nat) :
    Nat → Nat → List Block → Option (List Block)
  | 0, _, blocks => some blocks
  | n + 1, i, blocks =>
    match sort.insertionInner lessBy a i blocks with
    | none => none
    | some bs => sort.insertionOuter lessBy a n (i + 1) bs

/-- Go `insertionSort(data, a, b)` of package `sort`. -/
def sort.insertionSort (lessBy : Block → Block → Option Bool) (blocks : List Block)
    (a b : Nat) : Option (List Block) :=
  sort.insertionOuter lessBy a (b - (a + 1)) (a + 1) blocks

/-- Go `sort.Sort(data)` of the standard library, which is not part of the
repository.  It sorts `data[0:n]`, `n := data.Len()`, reading the data through
`Less` and changing it through `Swap` alone; it is represented by the library's
`insertionSort(data, 0, n)`, the routine it runs on short slices. -/
def sort.Sort (lessBy : Block → Block → Option Bool) (blocks : List Block) :
    Option (List Block) :=
  sort.insertionSort lessBy blocks 0 (blockSorter.Len blocks)

/-- Go `BlockBy.Sort`: `sort.Sort(blockSorter{blocks, self})`; the slice after
the call, `none` when the ordering panics on a nil number. -/
def BlockBy.Sort (self : Block → Block → Option Bool) (blocks : List Block) :
    Option (List Block) :=
  sort.Sort self blocks

/-- The height of a block: the number of its header, 0 for nil. -/
def heightOf (b : Block) : Int := ((Block.header b).Number).getD 0

/-- Three blocks to try the sort on, of heights 3, 1 and 2. -/
def sampleBlocks : List Block :=
  [NewBlockWithHeader ⟨1, 2, 3, 4, some 5, false, 6, ⟨7⟩, 8, 9, 10, 11, some 12, some 3, 14,
      15, some 16, [17], 18, [0, 0, 0, 0, 0, 0, 0, 1]⟩,
    NewBlockWithHeader ⟨1, 2, 3, 4, some 5, false, 6, ⟨7⟩, 8, 9, 10, 11, some 12, some 1, 14,
      15, some 16, [17], 18, [0, 0, 0, 0, 0, 0, 0, 1]⟩,
    NewBlockWithHeader ⟨1, 2, 3, 4, some 5, false, 6, ⟨7⟩, 8, 9, 10, 11, some 12, some 2, 14,
      15, some 16, [17], 18, [0, 0, 0, 0, 0, 0, 0, 1]⟩]

/-- Go `Miner.SetElection`: an empty key is refused; otherwise the flag and a
copy of the key are stored and handed to the worker. -/
def SetElection (self : Miner) (toElect : Bool) (pubkey : List Nat) : Miner :=
  if pubkey.length ≤ 0 then self
  else
    { self with
      toElect := toElect
      publickey := pubkey
      worker := self.worker ++ [WorkerCall.setElection toElect pubkey] }

/-- Go `Miner.SetExtra`, with `maximumExtraDataSize` standing for
`params.MaximumExtraDataSize`.  Returns the miner after the call and whether an
error is returned. -/
def SetExtra (maximumExtraDataSize : Nat) (self : Miner) (extra : List Nat) : Miner × Bool :=
  if extra.length > maximumExtraDataSize then (self, true)
  else ({ self with worker := self.worker ++ [WorkerCall.setExtra extra] }, false)

/-! ## core/types/block.go: headers and blocks in memory

The claims on sharing need pointers.  A heap holds the big integers, the backing
arrays of slices (of bytes, or of pointers) and the header structs; a pointer is
an index into one of the three stores, `none` for nil.  A slice is the whole of
its backing array. -/

/-- Go struct `Header` as it lies in memory: the four `*big.Int` fields and the
slice `Extra` are pointers into the heap. -/
structure HeaderMem where
  ParentHash : Nat
  PointerHash : Nat
  FruitsHash : Nat
  RecordHash : Nat
  RecordNumber : Option Nat
  Fruit : Bool
  UncleHash : Nat
  Coinbase : Address
  Root : Nat
  TxHash : Nat
  ReceiptHash : Nat
  Bloom : Nat
  Difficulty : Option Nat
  Number : Option Nat
  GasLimit : Nat
  GasUsed : Nat
  Time : Option Nat
  Extra : Option Nat
  MixDigest : Nat
  Nonce : List Nat
  deriving DecidableEq, Repr

/-- The heap: big integers, backing arrays, header structs. -/
structure Heap where
  bigs : List Int
  arrays : List (List Nat)
  headers : List HeaderMem
  deriving DecidableEq, Repr

/-- The big integer a pointer leads to. -/
def Heap.big (g : Heap) (p : Option Nat) : Option Int := p.bind (fun a => g.bigs.get? a)

/-- The elements of a slice. -/
def Heap.slice (g : Heap) (p : Option Nat) : List Nat :=
  match p with
  | none => []
  | some a => (g.arrays.get? a).getD []

/-- The header a struct stands for, its pointers followed. -/
def Heap.readHeader (g : Heap) (hm : HeaderMem) : Header :=
  { ParentHash := hm.ParentHash
    PointerHash := hm.PointerHash
    FruitsHash := hm.FruitsHash
    RecordHash := hm.RecordHash
    RecordNumber := g.big hm.RecordNumber
    Fruit := hm.Fruit
    UncleHash := hm.UncleHash
    Coinbase := hm.Coinbase
    Root := hm.Root
    TxHash := hm.TxHash
    ReceiptHash := hm.ReceiptHash
    Bloom := hm.Bloom
    Difficulty := g.big hm.Difficulty
    Number := g.big hm.Number
    GasLimit := hm.GasLimit
    GasUsed := hm.GasUsed
    Time := g.big hm.Time
    Extra := g.slice hm.Extra
    MixDigest := hm.MixDigest
    Nonce := hm.Nonce }

/-- The header a `*Header` leads to. -/
def Heap.headerAt (g : Heap) (a : Nat) : Option Header := (g.headers.get? a).map g.readHeader

/-- Go struct `Block` as it lies in memory: a `*Header`, three slices, the two
caches and `td`. -/
structure BlockMem where
  header : Nat
  uncles : Option Nat
  fruits : Option Nat
  transactions : Option Nat
  hash : Option Nat
  size : Option Nat
  td : Option Nat
  deriving DecidableEq, Repr

/-- What a block in memory holds, its pointers followed: the header, the uncle
headers, the pointers to the fruits, the transactions. -/
structure BlockView where
  header : Option Header
  uncles : List (Option Header)
  fruits : List Nat
  transactions : List Nat
  deriving DecidableEq, Repr

/-- The content of a block in memory. -/
def Heap.readBlock (g : Heap) (b : BlockMem) : BlockView :=
  { header := g.headerAt b.header
    uncles := (g.slice b.uncles).map g.headerAt
    fruits := g.slice b.fruits
    transactions := g.slice b.transactions }

/-- Go `new(big.Int)` followed by `Set`: a fresh big integer; its address and the heap. -/
def Heap.newBig (g : Heap) (v : Int) : Nat × Heap :=
  (g.bigs.length, { g with bigs := g.bigs ++ [v] })

/-- Go `make` followed by `copy`: a fresh backing array with the given elements. -/
def Heap.newArray (g : Heap) (xs : List Nat) : Nat × Heap :=
  (g.arrays.length, { g with arrays := g.arrays ++ [xs] })

/-- A fresh header struct (a local `cpy` whose address is taken). -/
def Heap.newHeader (g : Heap) (hm : HeaderMem) : Nat × Heap :=
  (g.headers.length, { g with headers := g.headers ++ [hm] })

/-- Go `CopyHeader` on the heap; `none` when `h` is not a live pointer. -/
def CopyHeaderMem (g : Heap) (h : Nat) : Option (Nat × Heap) :=
  match g.headers.get? h with
  | none => none
  | some hm =>
    let t := g.newBig ((g.big hm.Time).getD 0)
    let d := t.2.newBig ((g.big hm.Difficulty).getD 0)
    let n := d.2.newBig ((g.big hm.Number).getD 0)
    let r := n.2.newBig ((g.big hm.RecordNumber).getD 0)
    let cpy : HeaderMem :=
      { hm with Time := some t.1, Difficulty := some d.1, Number := some n.1,
                RecordNumber := some r.1 }
    if (g.slice hm.Extra).length > 0 then
      let e := r.2.newArray (g.slice hm.Extra)
      some (e.2.newHeader { cpy with Extra := some e.1 })
    else some (r.2.newHeader cpy)

/-- The loop `for i := range uncles { block.uncles[i] = CopyHeader(uncles[i]) }`:
the pointers to the copies, and the heap. -/
def copyHeaders (g : Heap) : List Nat → Option (List Nat × Heap)
  | [] => some ([], g)
  | u :: us =>
    match CopyHeaderMem g u with
    | none => none
    | some c =>
      match copyHeaders c.2 us with
      | none => none
      | some cs => some (c.1 :: cs.1, cs.2)

/-- Go `Block.WithSeal` on the heap: `cpy := *header` is a fresh struct with the
fields of `*header`, pointers included, and the slices are those of `b`. -/
def WithSealMem (g : Heap) (b : BlockMem) (header : Nat) : Option (BlockMem × Heap) :=
  match g.headers.get? header with
  | none => none
  | some hm =>
    let c := g.newHeader hm
    if hm.Fruit then
      some ({ header := c.1, uncles := none, fruits := none, transactions := b.transactions,
              hash := none, size := none, td := none }, c.2)
    else
      some ({ header := c.1, uncles := b.uncles, fruits := b.fruits, transactions := none,
              hash := none, size := none, td := none }, c.2)

/-- Go `Block.WithBody` on the heap.  The array of the uncles is allocated with
the pointers to the copies in it. -/
def WithBodyMem (g : Heap) (b : BlockMem) (transactions uncles : Option Nat) :
    Option (BlockMem × Heap) :=
  match CopyHeaderMem g b.header with
  | none => none
  | some c =>
    let ta := c.2.newArray (c.2.slice transactions)
    match copyHeaders ta.2 (ta.2.slice uncles) with
    | none => none
    | some cs =>
      let ua := cs.2.newArray cs.1
      some ({ header := c.1, uncles := some ua.1, fruits := none, transactions := some ta.1,
              hash := none, size := none, td := none }, ua.2)

/-- An in-place mutation: of a big integer (`x.Set(v)`), of an element of a
backing array (`s[i] = v`), or of the fields of a header struct (`*h = hm`). -/
inductive Write where
  | big (addr : Nat) (v : Int)
  | elem (array index v : Nat)
  | header (addr : Nat) (hm : HeaderMem)
  deriving DecidableEq, Repr

/-- The heap after a mutation. -/
def Heap.write (g : Heap) : Write → Heap
  | Write.big a v => { g with bigs := g.bigs.set a v }
  | Write.elem a i v => { g with arrays := g.arrays.set a ((g.slice (some a)).set i v) }
  | Write.header a hm => { g with headers := g.headers.set a hm }

/-- The heap after a list of mutations. -/
def Heap.writes (g : Heap) (ws : List Write) : Heap := ws.foldl Heap.write g

/-- A mutation of storage that exists in the heap `base`. -/
def Write.old (base : Heap) : Write → Prop
  | Write.big a _ => a < base.bigs.length
  | Write.elem a _ _ => a < base.arrays.length
  | Write.header a _ => a < base.headers.length

/-- A mutation of one of the big integers, or of a byte of `Extra`, of a header. -/
def HeaderMem.owns (hm : HeaderMem) : Write → Prop
  | Write.big a _ =>
    hm.Time = some a ∨ hm.Difficulty = some a ∨ hm.Number = some a ∨ hm.RecordNumber = some a
  | Write.elem a _ _ => hm.Extra = some a
  | Write.header _ _ => False

/-- The pointers of a header struct are live in the heap. -/
def HeaderMem.live (g : Heap) (hm : HeaderMem) : Prop :=
  (∀ a, hm.Time = some a → a < g.bigs.length) ∧
  (∀ a, hm.Difficulty = some a → a < g.bigs.length) ∧
  (∀ a, hm.Number = some a → a < g.bigs.length) ∧
  (∀ a, hm.RecordNumber = some a → a < g.bigs.length) ∧
  (∀ a, hm.Extra = some a → a < g.arrays.length)

/-- Every header struct of the heap has live pointers. -/
def Heap.wf (g : Heap) : Prop := ∀ hm ∈ g.headers, HeaderMem.live g hm

/-- A slice that is nil or whose backing array is live in the heap. -/
def liveSlice (g : Heap) (p : Option Nat) : Prop := ∀ a, p = some a → a < g.arrays.length

/-- Heap `g2` holds all of `g1`, at the same addresses. -/
def Heap.extends (g1 g2 : Heap) : Prop :=
  g1.bigs <+: g2.bigs ∧ g1.arrays <+: g2.arrays ∧ g1.headers <+: g2.headers

/-- Two heaps hold the same at every address that `base` does not have, and
arrays of the same lengths. -/
def SameFresh (base g1 g2 : Heap) : Prop :=
  (∀ a, base.bigs.length ≤ a → g1.bigs.get? a = g2.bigs.get? a) ∧
  (∀ a, base.arrays.length ≤ a → g1.slice (some a) = g2.slice (some a)) ∧
  (∀ a, base.headers.length ≤ a → g1.headers.get? a = g2.headers.get? a) ∧
  ∀ a, (g1.slice (some a)).length = (g2.slice (some a)).length

/-- Two heaps hold the same at every address that `base` has. -/
def SameOld (base g1 g2 : Heap) : Prop :=
  (∀ a, a < base.bigs.length → g1.bigs.get? a = g2.bigs.get? a) ∧
  (∀ a, a < base.arrays.length → g1.slice (some a) = g2.slice (some a)) ∧
  (∀ a, a < base.headers.length → g1.headers.get? a = g2.headers.get? a) ∧
  ∀ a, (g1.slice (some a)).length = (g2.slice (some a)).length

/-- A big-integer pointer that is nil or leads outside `base`. -/
def isoBig (base : Heap) (p : Option Nat) : Prop := ∀ a, p = some a → base.bigs.length ≤ a

/-- A slice that is nil, or whose backing array is outside `base`, or empty. -/
def isoSlice (base g : Heap) (p : Option Nat) : Prop :=
  ∀ a, p = some a → base.arrays.length ≤ a ∨ g.slice (some a) = []

/-- A header struct none of whose big integers or bytes lie in `base`. -/
def HeaderMem.isolated (base g : Heap) (hm : HeaderMem) : Prop :=
  isoBig base hm.Time ∧ isoBig base hm.Difficulty ∧ isoBig base hm.Number ∧
  isoBig base hm.RecordNumber ∧ isoSlice base g hm.Extra

/-- A header pointer that leads outside `base`, to an isolated struct. -/
def isoHeader (base g : Heap) (a : Nat) : Prop :=
  base.headers.length ≤ a ∧ ∀ hm, g.headers.get? a = some hm → HeaderMem.isolated base g hm

/-- A block none of whose header, uncle headers and slices lie in `base`. -/
def BlockMem.isolated (base g : Heap) (b : BlockMem) : Prop :=
  isoHeader base g b.header ∧
  isoSlice base g b.uncles ∧ (∀ x ∈ g.slice b.uncles, isoHeader base g x) ∧
  isoSlice base g b.fruits ∧ isoSlice base g b.transactions

/-- A header struct to try the operations on; its pointers are live in
`sampleHeap`. -/
def sampleHeader : HeaderMem :=
  { ParentHash := 1, PointerHash := 2, FruitsHash := 3, RecordHash := 4,
    RecordNumber := some 3, Fruit := false, UncleHash := 6, Coinbase := ⟨7⟩, Root := 8,
    TxHash := 9, ReceiptHash := 10, Bloom := 11, Difficulty := some 0, Number := some 1,
    GasLimit := 14, GasUsed := 15, Time := some 2, Extra := some 0, MixDigest := 18,
    Nonce := [0, 0, 0, 0, 0, 0, 0, 1] }

/-- A heap to try the operations on: the struct `sampleHeader`, with its number
5 at address 1 and two bytes of `Extra` in array 0; array 1 holds two
transactions, array 2 a pointer to the header. -/
def sampleHeap : Heap :=
  { bigs := [12, 5, 16, 4]
    arrays := [[17, 18], [100, 101], [0]]
    headers := [sampleHeader] }

/-- A block in `sampleHeap`: header 0, the uncles of array 2, no fruits, the
transactions of array 1. -/
def sampleBlock : BlockMem :=
  { header := 0, uncles := some 2, fruits := none, transactions := some 1,
    hash := none, size := none, td := none }

/-! ### Lemmas on the miner handlers -/

theorem Start_inv (m : Miner) (a : Address) (h : MinerInv m) : MinerInv (Start m a) := by
  obtain ⟨hm, hc, hf, _, hg⟩ := h
  unfold Start SetEtherbase
  simp only
  split
  · exact ⟨hm, hc, hf, Or.inr rfl, hg⟩
  · rename_i hn
    push_neg at hn
    refine ⟨Or.inr rfl, hc, hf, Or.inr rfl, fun _ => ?_⟩
    constructor
    · rcases hc with h0 | h1
      · exact absurd h0 hn.1
      · exact h1
    · rcases hf with h0 | h1
      · exact absurd h0 hn.2
      · exact h1

theorem Stop_inv (m : Miner) (h : MinerInv m) : MinerInv (Stop m) := by
  obtain ⟨_, hc, hf, _, _⟩ := h
  refine ⟨Or.inl rfl, hc, hf, Or.inl rfl, fun h1 => ?_⟩
  simp [Stop] at h1

theorem not_Mining_flag (m : Miner) (hm : isFlag m.mining) (h : Mining m = false) :
    m.mining = 0 := by
  rcases hm with h0 | h1
  · exact h0
  · simp [Mining, h1] at h

theorem updateEvent_inv (m : Miner) (ev : MuxEvent) (h : MinerInv m) :
    MinerInv (updateEvent m ev).1 := by
  obtain ⟨hm, hc, hf, hs, hg⟩ := h
  cases ev with
  | StartEvent =>
    unfold updateEvent
    simp only
    split
    · refine ⟨Or.inl rfl, Or.inl rfl, hf, Or.inr rfl, fun h1 => ?_⟩
      simp [Stop] at h1
    · rename_i hnm
      have h0 : m.mining = 0 := by
        apply not_Mining_flag { m with canStart := 0 } hm
        simpa using hnm
      refine ⟨hm, Or.inl rfl, hf, hs, fun h1 => ?_⟩
      have h2 : m.mining = 1 := h1
      omega
  | DoneEvent =>
    have hi : MinerInv { m with canStart := 1, shouldStart := 0 } :=
      ⟨hm, Or.inr rfl, hf, Or.inl rfl, fun h1 => ⟨rfl, (hg h1).2⟩⟩
    unfold updateEvent
    simp only
    split
    · exact Start_inv _ _ hi
    · exact hi
  | FailedEvent =>
    have hi : MinerInv { m with canStart := 1, shouldStart := 0 } :=
      ⟨hm, Or.inr rfl, hf, Or.inl rfl, fun h1 => ⟨rfl, (hg h1).2⟩⟩
    unfold updateEvent
    simp only
    split
    · exact Start_inv _ _ hi
    · exact hi
  | election => exact ⟨hm, hc, hf, hs, hg⟩

theorem loopEvent_inv (el : CommitteeElection) (m : Miner) (ev : ElectionEvent)
    (h : MinerInv m) : MinerInv (loopEvent el m ev) := by
  obtain ⟨hm, hc, hf, hs, hg⟩ := h
  have hopen : MinerInv { m with commitFlag := 1 } :=
    ⟨hm, hc, Or.inr rfl, hs, fun h1 => ⟨(hg h1).1, rfl⟩⟩
  unfold loopEvent
  split
  · split
    · by_cases hmi : Mining m = true
      · simp only [hmi, if_true]
        refine ⟨Or.inl rfl, hc, Or.inl rfl, Or.inl rfl, fun h1 => ?_⟩
        simp [Stop] at h1
      · simp only [hmi]
        have h0 : m.mining = 0 := not_Mining_flag m hm (by simpa using hmi)
        refine ⟨hm, hc, Or.inl rfl, hs, fun h1 => ?_⟩
        have h2 : m.mining = 1 := h1
        omega
    · exact Start_inv _ _ hopen
  · exact Start_inv _ _ hopen
  · exact ⟨hm, hc, hf, hs, hg⟩

theorem New_inv (mineFruit singleNode : Bool) : MinerInv (New mineFruit singleNode) := by
  refine ⟨Or.inl rfl, Or.inr rfl, Or.inr rfl, Or.inl rfl, fun h => ?_⟩
  simp [New] at h

theorem SetElection_inv (m : Miner) (toElect : Bool) (pubkey : List Nat) (h : MinerInv m) :
    MinerInv (SetElection m toElect pubkey) := by
  unfold SetElection
  split
  · exact h
  · exact h

theorem step_inv (el : CommitteeElection) (s : MinerSys) (a : Action)
    (h : MinerInv s.miner) : MinerInv (step el s a).miner := by
  cases a with
  | start c => exact Start_inv _ _ h
  | stop => exact Stop_inv _ h
  | mux ev =>
    simp only [step]
    split
    · exact updateEvent_inv _ _ h
    · exact h
  | elect ev =>
    simp only [step]
    split
    · exact h
    · exact loopEvent_inv _ _ _ h

theorem Reachable_inv (el : CommitteeElection) (mf sn : Bool) (s : MinerSys)
    (h : Reachable el mf sn s) : MinerInv s.miner := by
  induction h with
  | init => exact New_inv mf sn
  | next a _ ih => exact step_inv el _ a ih

/-! ### Lemmas on the fill loop -/

theorem fillPack_full {α : Type} (sz : α → Nat) (cap : Nat) (q : List α) (acc : Nat)
    (h : ¬ acc < cap) : fillPack sz cap q acc = [] := by
  cases q with
  | nil => rfl
  | cons x xs => simp [fillPack, h]

theorem fillPack_initial {α : Type} (sz : α → Nat) (cap : Nat) (q : List α) (acc : Nat) :
    fillPack sz cap q acc <+: q := by
  induction q generalizing acc with
  | nil => simp [fillPack]
  | cons x xs ih =>
    unfold fillPack
    split
    · exact (List.prefix_cons_inj x).mpr (ih (acc + sz x))
    · exact List.nil_prefix

theorem fillPack_ne_nil {α : Type} (sz : α → Nat) (cap : Nat) (q : List α) (acc : Nat)
    (hq : q ≠ []) (h : acc < cap) : fillPack sz cap q acc ≠ [] := by
  cases q with
  | nil => exact absurd rfl hq
  | cons x xs => simp [fillPack, h]

theorem fillPack_dropLast_lt {α : Type} (sz : α → Nat) (cap : Nat) (q : List α) (acc : Nat)
    (h : acc < cap) : acc + totalSize sz (fillPack sz cap q acc).dropLast < cap := by
  induction q generalizing acc with
  | nil => simpa [fillPack, totalSize] using h
  | cons x xs ih =>
    simp only [fillPack, h, if_true]
    by_cases hx : acc + sz x < cap
    · cases hr : fillPack sz cap xs (acc + sz x) with
      | nil => simpa [totalSize] using h
      | cons y ys =>
        have := ih (acc + sz x) hx
        rw [hr] at this
        simp only [List.dropLast_cons₂, totalSize, List.map_cons, List.sum_cons] at this ⊢
        omega
    · rw [fillPack_full sz cap xs _ hx]
      simpa [totalSize] using h

theorem fillPack_reaches {α : Type} (sz : α → Nat) (cap : Nat) (q : List α) (acc : Nat)
    (h : cap ≤ acc + totalSize sz q) : cap ≤ acc + totalSize sz (fillPack sz cap q acc) := by
  induction q generalizing acc with
  | nil => simpa [fillPack, totalSize] using h
  | cons x xs ih =>
    unfold fillPack
    split
    · have := ih (acc + sz x) (by simp only [totalSize, List.map_cons, List.sum_cons] at h ⊢; omega)
      simp only [totalSize, List.map_cons, List.sum_cons] at this ⊢
      omega
    · simp only [totalSize, List.map_nil, List.sum_nil]
      omega

theorem sendPack_append_rest {α : Type} (sz : α → Nat) (cap : Nat) (q : List α) :
    sendPack sz cap q ++ sendRest sz cap q = q := by
  have h := List.prefix_iff_eq_take.mp (fillPack_initial sz cap q 0)
  unfold sendRest sendPack
  calc fillPack sz cap q 0 ++ q.drop (fillPack sz cap q 0).length
      = q.take (fillPack sz cap q 0).length ++ q.drop (fillPack sz cap q 0).length := by
        rw [← h]
    _ = q := List.take_append_drop _ _

theorem sendPack_target {α : Type} (sz : α → Nat) (cap : Nat) (q : List α)
    (hcap : 0 < cap) (h : cap < totalSize sz q) :
    sendPack sz cap q ++ sendRest sz cap q = q ∧ sendPack sz cap q ≠ [] ∧
      totalSize sz (sendPack sz cap q).dropLast < cap ∧ cap ≤ totalSize sz (sendPack sz cap q) := by
  have hq : q ≠ [] := by
    rintro rfl
    simp [totalSize] at h
  refine ⟨sendPack_append_rest sz cap q, fillPack_ne_nil sz cap q 0 hq hcap, ?_, ?_⟩
  · simpa using fillPack_dropLast_lt sz cap q 0 hcap
  · simpa using fillPack_reaches sz cap q 0 (by omega)

/-! ### Claims on the miner -/

/-- C1: for every miner state whose `canStart` and `commitFlag` hold 0 or 1 (the
only values the package stores in them) and every address `a`, `Start a` sets
`shouldStart = 1` and the coinbase to `a` (forwarding it to the worker) and
leaves `canStart` and `commitFlag` alone; when both gates are 1 it sets
`mining = 1` and calls `worker.start` and `worker.commitNewWork`; otherwise
`mining` keeps its value and the worker receives no call but the new coinbase. -/
theorem Start_contract (s : Miner) (a : Address)
    (hc : isFlag s.canStart) (hf : isFlag s.commitFlag) :
    (Start s a).shouldStart = 1 ∧ (Start s a).coinbase = a ∧
    (Start s a).canStart = s.canStart ∧ (Start s a).commitFlag = s.commitFlag ∧
    (s.canStart = 1 ∧ s.commitFlag = 1 →
      (Start s a).mining = 1 ∧
      (Start s a).worker =
        s.worker ++ [WorkerCall.setEtherbase a] ++ [WorkerCall.start, WorkerCall.commitNewWork]) ∧
    (¬ (s.canStart = 1 ∧ s.commitFlag = 1) →
      (Start s a).mining = s.mining ∧
      (Start s a).worker = s.worker ++ [WorkerCall.setEtherbase a]) := by
  unfold Start SetEtherbase
  rcases hc with hc | hc <;> rcases hf with hf | hf <;> simp [hc, hf]

/-- Witness of C1: a fresh miner, both gates open. -/
theorem Start_contract_witness :
    (Start (New false false) ⟨7⟩).shouldStart = 1 ∧ (Start (New false false) ⟨7⟩).mining = 1 ∧
    (Start (New false false) ⟨7⟩).coinbase = ⟨7⟩ :=
  have h := Start_contract (New false false) ⟨7⟩ (Or.inr rfl) (Or.inr rfl)
  ⟨h.1, (h.2.2.2.2.1 ⟨rfl, rfl⟩).1, h.2.1⟩

/-- C2: in every state reachable from `New` by the handlers taken as atomic
steps (`Start`, `Stop`, the downloader events while `update` listens, the
election events), a mining miner (`mining = 1`, equivalently `Mining()`) has
`canStart = 1` and `commitFlag = 1`. -/
theorem mining_requires_gates (election : CommitteeElection) (mineFruit singleNode : Bool)
    (s : MinerSys) (h : Reachable election mineFruit singleNode s) :
    (s.miner.mining = 1 → s.miner.canStart = 1 ∧ s.miner.commitFlag = 1) ∧
    (Mining s.miner = true → s.miner.canStart = 1 ∧ s.miner.commitFlag = 1) := by
  obtain ⟨hm, _, _, _, hg⟩ := Reachable_inv election mineFruit singleNode s h
  refine ⟨hg, fun hmi => hg ?_⟩
  rcases hm with h0 | h1
  · simp [Mining, h0] at hmi
  · exact h1

/-- Witness of C2: the state after `Start` on a fresh miner is reachable and mining. -/
theorem mining_requires_gates_witness :
    (step listElection (initSys false false) (Action.start ⟨7⟩)).miner.mining = 1 ∧
    (step listElection (initSys false false) (Action.start ⟨7⟩)).miner.canStart = 1 ∧
    (step listElection (initSys false false) (Action.start ⟨7⟩)).miner.commitFlag = 1 :=
  ⟨by decide,
    (mining_requires_gates listElection false false _
      (Reachable.next (Action.start ⟨7⟩) Reachable.init)).1 (by decide)⟩

/-! ### Claims on the pack relay -/

/-- C3, as stated, fails: on a queue of three items of 61440 bytes (180 KiB in
all, above the cap of 100 KiB) the pack holds the first two items, 122880 bytes:
more than the cap, in a pack of more than one item. -/
theorem sendPack_exceeds_cap :
    txsyncPackSize < totalSize id [61440, 61440, 61440] ∧
    sendPack id txsyncPackSize [61440, 61440, 61440] = [61440, 61440] ∧
    ¬ (totalSize id (sendPack id txsyncPackSize [61440, 61440, 61440]) ≤ txsyncPackSize ∨
        (sendPack id txsyncPackSize [61440, 61440, 61440]).length = 1) := by
  decide

/-- C3, amended: with the cap of 100*1024 bytes of either loop, for every peer
queue whose cumulative size exceeds the cap, the pack is a non-empty prefix of
the queue (the rest of the queue follows it in the original order), the items of
the pack before its last one sum to less than the cap, and the pack as a whole
sums to at least the cap. -/
theorem sendPack_reaches_cap {α : Type} (sz : α → Nat) (q : List α)
    (h : txsyncPackSize < totalSize sz q) :
    (sendPack sz txsyncPackSize q ++ sendRest sz txsyncPackSize q = q ∧
      sendPack sz txsyncPackSize q ≠ [] ∧
      totalSize sz (sendPack sz txsyncPackSize q).dropLast < txsyncPackSize ∧
      txsyncPackSize ≤ totalSize sz (sendPack sz txsyncPackSize q)) ∧
    (sendPack sz fruitsyncPackSize q ++ sendRest sz fruitsyncPackSize q = q ∧
      sendPack sz fruitsyncPackSize q ≠ [] ∧
      totalSize sz (sendPack sz fruitsyncPackSize q).dropLast < fruitsyncPackSize ∧
      fruitsyncPackSize ≤ totalSize sz (sendPack sz fruitsyncPackSize q)) :=
  ⟨sendPack_target sz txsyncPackSize q (by decide) h,
    sendPack_target sz fruitsyncPackSize q (by decide) h⟩

/-- Witness of C3, amended: a queue of three items of 61440 bytes. -/
theorem sendPack_reaches_cap_witness :
    txsyncPackSize < totalSize id [61440, 61440, 61440] ∧
    sendPack id txsyncPackSize [61440, 61440, 61440] ≠ [] ∧
    txsyncPackSize ≤ totalSize id (sendPack id txsyncPackSize [61440, 61440, 61440]) :=
  have h := (sendPack_reaches_cap id [61440, 61440, 61440] (by decide)).1
  ⟨by decide, h.2.1, h.2.2.2⟩

/-! ### Lemmas on the snail branch of synchronise -/

theorem selectMode_pm {σ : Type} (c : Collab σ) (cb : BlockRef) (w : World σ) :
    (selectMode c cb w).2.pm.acceptTxs = w.pm.acceptTxs ∧
    (selectMode c cb w).2.pm.acceptFruits = w.pm.acceptFruits ∧
    ((selectMode c cb w).1 = SyncMode.FastSync → (selectMode c cb w).2.pm.fastSync = 1) ∧
    ((selectMode c cb w).1 = SyncMode.FullSync → (selectMode c cb w).2.pm.fastSync = w.pm.fastSync ∧
      w.pm.fastSync ≠ 1) := by
  simp only [selectMode]
  split_ifs <;> simp_all

theorem afterSync_pm {σ : Type} (c : Collab σ) (w : World σ) (evs : List Event) :
    (afterSync c w evs).pm.acceptTxs = 1 ∧ (afterSync c w evs).pm.acceptFruits = 1 ∧
    (w.pm.fastSync = 0 ∨ w.pm.fastSync = 1 → (afterSync c w evs).pm.fastSync = 0) := by
  unfold afterSync
  refine ⟨rfl, rfl, fun h => ?_⟩
  rcases h with h | h <;> simp [h]

theorem afterSync_events {σ : Type} (c : Collab σ) (w : World σ) (evs : List Event) :
    ∃ bs, (afterSync c w evs).events = evs ++ bs ∧ ∀ b ∈ bs, Event.isBroadcast b = true := by
  simp only [afterSync]
  split_ifs
  · exact ⟨[Event.broadcastSnailBlock (c.snailCurrentBlock w.env).1 false,
        Event.broadcastFastBlock (c.fastCurrentBlock (c.snailCurrentBlock w.env).2).1 false],
      by simp, by simp [Event.isBroadcast]⟩
  · exact ⟨[Event.broadcastFastBlock (c.fastCurrentBlock (c.snailCurrentBlock w.env).2).1 false],
      by simp, by simp [Event.isBroadcast]⟩
  · exact ⟨[Event.broadcastSnailBlock (c.snailCurrentBlock w.env).1 false],
      by simp, by simp [Event.isBroadcast]⟩
  · exact ⟨[], by simp, by simp⟩

/-- What `runDownloader` leaves, by the answer of the snail downloader. -/
theorem runDownloader_cases {σ : Type} (c : Collab σ) (p : Peer) (mode : SyncMode) (w : World σ) :
    ((c.snailSynchronise p.id p.head p.td mode w.env).1 = true ∧
      (runDownloader c p mode w).pm = w.pm ∧
      (runDownloader c p mode w).events = [Event.snailSynchronise p.id p.head p.td mode true]) ∨
    ((c.snailSynchronise p.id p.head p.td mode w.env).1 = false ∧
      (runDownloader c p mode w).pm.acceptTxs = 1 ∧
      (runDownloader c p mode w).pm.acceptFruits = 1 ∧
      (w.pm.fastSync = 0 ∨ w.pm.fastSync = 1 → (runDownloader c p mode w).pm.fastSync = 0) ∧
      ∃ bs, (runDownloader c p mode w).events =
          Event.snailSynchronise p.id p.head p.td mode false :: bs ∧
        ∀ b ∈ bs, Event.isBroadcast b = true) := by
  cases h : (c.snailSynchronise p.id p.head p.td mode w.env).1
  · right
    simp only [runDownloader, h, Bool.false_eq_true, if_false, true_and]
    obtain ⟨bs, hbs, hb⟩ := afterSync_events c { w with env := (c.snailSynchronise p.id p.head p.td mode w.env).2 }
      [Event.snailSynchronise p.id p.head p.td mode false]
    have hp := afterSync_pm c { w with env := (c.snailSynchronise p.id p.head p.td mode w.env).2 }
      [Event.snailSynchronise p.id p.head p.td mode false]
    exact ⟨hp.1, hp.2.1, hp.2.2, bs, by simpa using hbs, hb⟩
  · left
    simp [runDownloader, h]

theorem runDownloader_returned {σ : Type} (c : Collab σ) (p : Peer) (mode : SyncMode) (w : World σ) :
    (runDownloader c p mode w).returned = true := by
  simp only [runDownloader, afterSync]
  split_ifs <;> rfl

theorem synchronise_ahead {σ : Type} (c : Collab σ) (fuel : Nat) (p : Peer) (w : World σ)
    (h : (localTd c w).1 < p.td) :
    synchronise c fuel (some p) w = snailSync c p (localHead c w) { w with env := (localTd c w).2 } := by
  simp only [synchronise, not_le.mpr h, if_false]

theorem synchronise_behind {σ : Type} (c : Collab σ) (fuel : Nat) (p : Peer) (w : World σ)
    (h : p.td ≤ (localTd c w).1) :
    synchronise c fuel (some p) w = fastCatchUp c fuel p { w with env := (localTd c w).2 } := by
  simp only [synchronise, h, if_true]

/-- What `snailSync` leaves, by the mode chosen and the answers of the collaborators. -/
theorem snailSync_cases {σ : Type} (c : Collab σ) (p : Peer) (cb : BlockRef) (w : World σ) :
    (snailSync c p cb w).returned = true ∧
    (((snailSync c p cb w).events = [] ∧ (snailSync c p cb w).pm = (selectMode c cb w).2.pm ∧
        (selectMode c cb w).1 = SyncMode.FastSync) ∨
      ((snailSync c p cb w).events =
          [Event.snailSynchronise p.id p.head p.td (selectMode c cb w).1 true] ∧
        (snailSync c p cb w).pm = (selectMode c cb w).2.pm) ∨
      ((snailSync c p cb w).pm.acceptTxs = 1 ∧ (snailSync c p cb w).pm.acceptFruits = 1 ∧
        (w.pm.fastSync = 0 ∨ w.pm.fastSync = 1 → (snailSync c p cb w).pm.fastSync = 0) ∧
        ∃ bs, (snailSync c p cb w).events =
            Event.snailSynchronise p.id p.head p.td (selectMode c cb w).1 false :: bs ∧
          ∀ b ∈ bs, Event.isBroadcast b = true)) := by
  have hsel := selectMode_pm c cb w
  have hflag : w.pm.fastSync = 0 ∨ w.pm.fastSync = 1 →
      (selectMode c cb w).2.pm.fastSync = 0 ∨ (selectMode c cb w).2.pm.fastSync = 1 := by
    intro h
    cases hm : (selectMode c cb w).1
    · rw [(hsel.2.2.2 hm).1]; exact h
    · exact Or.inr (hsel.2.2.1 hm)
  simp only [snailSync]
  split_ifs with hm ht
  · exact ⟨rfl, Or.inl ⟨rfl, rfl, hm⟩⟩
  · refine ⟨runDownloader_returned _ _ _ _, Or.inr ?_⟩
    rcases runDownloader_cases c p (selectMode c cb w).1
      { (selectMode c cb w).2 with env := (c.snailGetTdByHash
          (c.snailCurrentFastBlock (selectMode c cb w).2.env).1.hash
          (c.snailCurrentFastBlock (selectMode c cb w).2.env).2).2 } with h | h
    · exact Or.inl ⟨h.2.2, h.2.1⟩
    · exact Or.inr ⟨h.2.1, h.2.2.1, fun hf => h.2.2.2.1 (hflag hf), h.2.2.2.2⟩
  · refine ⟨runDownloader_returned _ _ _ _, Or.inr ?_⟩
    rcases runDownloader_cases c p (selectMode c cb w).1 (selectMode c cb w).2 with h | h
    · exact Or.inl ⟨h.2.2, h.2.1⟩
    · exact Or.inr ⟨h.2.1, h.2.2.1, fun hf => h.2.2.2.1 (hflag hf), h.2.2.2.2⟩

/-! ### Claims on the snail branch of synchronise -/

/-- C4: for every attempt in which the peer is ahead (its total difficulty
exceeds the local one) and the snail downloader's `Synchronise` was called and
returned no error: afterwards `acceptTxs = 1`, `acceptFruits = 1` and
`fastSync = 0`, whatever `acceptTxs` and `acceptFruits` held before and whether
the `fastSync` flag was 0 or 1. -/
theorem sync_success_flags {σ : Type} (c : Collab σ) (fuel : Nat) (p : Peer) (w : World σ)
    (hflag : w.pm.fastSync = 0 ∨ w.pm.fastSync = 1)
    (hahead : (localTd c w).1 < p.td)
    (e : Event) (he : e ∈ (synchronise c fuel (some p) w).events)
    (hcall : e.isSnailSync = true) (hok : e.failed = false) :
    (synchronise c fuel (some p) w).pm.acceptTxs = 1 ∧
    (synchronise c fuel (some p) w).pm.acceptFruits = 1 ∧
    (synchronise c fuel (some p) w).pm.fastSync = 0 ∧
    (synchronise c fuel (some p) w).returned = true := by
  rw [synchronise_ahead c fuel p w hahead] at he ⊢
  obtain ⟨hret, h | h | h⟩ := snailSync_cases c p (localHead c w) { w with env := (localTd c w).2 }
  · rw [h.1] at he
    simp at he
  · rw [h.1] at he
    simp only [List.mem_singleton] at he
    subst he
    simp [Event.failed] at hok
  · exact ⟨h.1, h.2.1, h.2.2.1 hflag, hret⟩

/-- Witness of C4: a node with `fastSync = 1` whose snail downloader succeeds
against a peer of higher total difficulty. -/
theorem sync_success_flags_witness :
    (synchronise scripted 1 (some ⟨7, 99, 6⟩) ⟨⟨1, 0, 0⟩, script [] []⟩).pm.acceptTxs = 1 ∧
    (synchronise scripted 1 (some ⟨7, 99, 6⟩) ⟨⟨1, 0, 0⟩, script [] []⟩).pm.acceptFruits = 1 ∧
    (synchronise scripted 1 (some ⟨7, 99, 6⟩) ⟨⟨1, 0, 0⟩, script [] []⟩).pm.fastSync = 0 ∧
    (synchronise scripted 1 (some ⟨7, 99, 6⟩) ⟨⟨1, 0, 0⟩, script [] []⟩).returned = true :=
  sync_success_flags scripted 1 ⟨7, 99, 6⟩ ⟨⟨1, 0, 0⟩, script [] []⟩ (Or.inr rfl) (by decide)
    (Event.snailSynchronise 7 99 6 SyncMode.FastSync false) (by decide) rfl rfl

/-- C6: for every attempt against a peer that is ahead, fast sync is chosen
exactly when the `fastSync` flag is 1, or the local snail head number is 0 while
the local fast head number is above 0, and in that second case the flag is set
to 1; otherwise full sync is chosen.  With fast sync chosen, the snail downloader
is called, once and with `FastSync`, when the peer's total difficulty exceeds
that of the local fast head, and the attempt ends without any call (the flag
left at 1) when it does not.  With full sync chosen the downloader is called,
once and with `FullSync`.  What follows the call in the events are broadcasts. -/
theorem sync_mode_decision {σ : Type} (c : Collab σ) (fuel : Nat) (p : Peer) (w : World σ)
    (hahead : (localTd c w).1 < p.td) :
    ((chosen c w).1 = SyncMode.FastSync ↔
      (w.pm.fastSync = 1 ∨ (NumberU64 (localHead c w) = 0 ∧ localFastNumber c w > 0))) ∧
    ((chosen c w).1 = SyncMode.FullSync ↔
      ¬ (w.pm.fastSync = 1 ∨ (NumberU64 (localHead c w) = 0 ∧ localFastNumber c w > 0))) ∧
    ((chosen c w).1 = SyncMode.FastSync → (chosen c w).2.pm.fastSync = 1) ∧
    ((chosen c w).1 = SyncMode.FastSync → fastHeadTd c w < p.td →
      ∃ err bs, (synchronise c fuel (some p) w).events =
          Event.snailSynchronise p.id p.head p.td SyncMode.FastSync err :: bs ∧
        ∀ b ∈ bs, Event.isBroadcast b = true) ∧
    ((chosen c w).1 = SyncMode.FastSync → p.td ≤ fastHeadTd c w →
      (synchronise c fuel (some p) w).events = [] ∧
      (synchronise c fuel (some p) w).pm.fastSync = 1) ∧
    ((chosen c w).1 = SyncMode.FullSync →
      ∃ err bs, (synchronise c fuel (some p) w).events =
          Event.snailSynchronise p.id p.head p.td SyncMode.FullSync err :: bs ∧
        ∀ b ∈ bs, Event.isBroadcast b = true) := by
  have hrun : ∀ (mode : SyncMode) (w1 : World σ),
      ∃ err bs, (runDownloader c p mode w1).events =
          Event.snailSynchronise p.id p.head p.td mode err :: bs ∧
        ∀ b ∈ bs, Event.isBroadcast b = true := by
    intro mode w1
    rcases runDownloader_cases c p mode w1 with h | h
    · exact ⟨true, [], h.2.2, by simp⟩
    · obtain ⟨bs, hbs, hb⟩ := h.2.2.2.2
      exact ⟨false, bs, hbs, hb⟩
  rw [synchronise_ahead c fuel p w hahead]
  refine ⟨?_, ?_, ?_, ?_, ?_, ?_⟩
  · simp only [chosen, selectMode, localFastNumber]
    split_ifs <;> simp_all
  · simp only [chosen, selectMode, localFastNumber]
    split_ifs <;> simp_all
  · exact (selectMode_pm c (localHead c w) _).2.2.1
  · intro hm ht
    have hm2 : (selectMode c (localHead c w) { w with env := (localTd c w).2 }).1
        = SyncMode.FastSync := hm
    have ht2 : ¬ (c.snailGetTdByHash
        (c.snailCurrentFastBlock (selectMode c (localHead c w)
          { w with env := (localTd c w).2 }).2.env).1.hash
        (c.snailCurrentFastBlock (selectMode c (localHead c w)
          { w with env := (localTd c w).2 }).2.env).2).1 ≥ p.td := not_le.mpr ht
    simp only [snailSync, hm2, if_true, ht2, if_false]
    exact hrun _ _
  · intro hm ht
    have hm2 : (selectMode c (localHead c w) { w with env := (localTd c w).2 }).1
        = SyncMode.FastSync := hm
    have ht2 : (c.snailGetTdByHash
        (c.snailCurrentFastBlock (selectMode c (localHead c w)
          { w with env := (localTd c w).2 }).2.env).1.hash
        (c.snailCurrentFastBlock (selectMode c (localHead c w)
          { w with env := (localTd c w).2 }).2.env).2).1 ≥ p.td := ht
    simp only [snailSync, hm2, if_true, ht2]
    exact ⟨trivial, (selectMode_pm c (localHead c w) _).2.2.1 hm2⟩
  · intro hm
    have hm2 : (selectMode c (localHead c w) { w with env := (localTd c w).2 }).1
        = SyncMode.FullSync := hm
    have hne : ¬ (SyncMode.FullSync = SyncMode.FastSync) := by decide
    simp only [snailSync, hm2, hne, if_false]
    exact hrun _ _

/-- Witness of C6: a node at snail block 10 with `fastSync = 0` chooses full sync
against a peer of higher total difficulty. -/
theorem sync_mode_decision_witness :
    (localTd scripted ⟨⟨0, 0, 0⟩, script [] []⟩).1 < (6 : Int) ∧
    (chosen scripted ⟨⟨0, 0, 0⟩, script [] []⟩).1 = SyncMode.FullSync ∧
    ∃ err bs, (synchronise scripted 1 (some ⟨7, 99, 6⟩) ⟨⟨0, 0, 0⟩, script [] []⟩).events =
        Event.snailSynchronise 7 99 6 SyncMode.FullSync err :: bs ∧
      ∀ b ∈ bs, Event.isBroadcast b = true :=
  ⟨by decide, by decide,
    (sync_mode_decision scripted 1 ⟨7, 99, 6⟩ ⟨⟨0, 0, 0⟩, script [] []⟩ (by decide)).2.2.2.2.2
      (by decide)⟩

/-! ### Lemmas on the catch-up loops -/

theorem u64_lt (n : Nat) : u64 n < 2 ^ 64 := by
  unfold u64
  omega

theorem measured_append (xs ys : List Event) : measured (xs ++ ys) = measured xs ++ measured ys := by
  induction xs with
  | nil => rfl
  | cons e rest ih => cases e <;> simp [measured, ih]

theorem windowsOk_append (xs ys : List Event) (a : Option Nat)
    (hx : windowsOk a xs = true) (hy : ∀ b, windowsOk b ys = true) :
    windowsOk a (xs ++ ys) = true := by
  induction xs generalizing a with
  | nil => exact hy a
  | cons e rest ih =>
    cases e <;> simp only [windowsOk, List.cons_append, Bool.and_eq_true] at hx ⊢
    · exact ih _ hx
    · exact ih _ hx
    · exact ⟨hx.1, ih _ hx.2⟩
    · exact ih _ hx
    · exact ih _ hx
    · exact ih _ hx

theorem windowsOk_of_no_fastSync (evs : List Event) (a : Option Nat)
    (h : ∀ e ∈ evs, Event.isFastSync e = false) : windowsOk a evs = true := by
  induction evs generalizing a with
  | nil => rfl
  | cons e rest ih =>
    have hr : ∀ e ∈ rest, Event.isFastSync e = false := fun x hx => h x (List.mem_cons_of_mem _ hx)
    have he := h e (List.mem_cons_self _ _)
    cases e <;> simp only [windowsOk]
    · exact ih _ hr
    · exact ih _ hr
    · simp [Event.isFastSync] at he
    · exact ih _ hr
    · exact ih _ hr
    · exact ih _ hr

theorem windowLoop_windowsOk {σ : Type} (c : Collab σ) (p : Peer) (fuel fbNum height : Nat) (env : σ)
    (hf : fbNum < 2 ^ 64) (h1 : 1 ≤ height) (h2 : height ≤ maxheight)
    (hm : List.Chain' (· ≤ ·) (fbNum :: measured (windowLoop c p fuel fbNum height env).events)) :
    windowsOk (some fbNum) (windowLoop c p fuel fbNum height env).events = true := by
  induction fuel generalizing fbNum height env with
  | zero => rfl
  | succ n ih =>
    simp only [windowLoop] at hm ⊢
    split_ifs at hm ⊢ with herr hgt
    · simp [windowsOk, h1, h2]
    · simp only [measured, List.chain'_cons] at hm
      have hb : 1 ≤ sub64 (add64 fbNum height) (u64 (c.fastGetBlockNumber
            (c.fastSynchronise p.id 0 0 SyncMode.FullSync fbNum height env).2).1) ∧
          sub64 (add64 fbNum height) (u64 (c.fastGetBlockNumber
            (c.fastSynchronise p.id 0 0 SyncMode.FullSync fbNum height env).2).1) ≤ maxheight := by
        have hl := u64_lt (c.fastGetBlockNumber
            (c.fastSynchronise p.id 0 0 SyncMode.FullSync fbNum height env).2).1
        have hle := hm.1
        revert hgt hl hle
        generalize u64 (c.fastGetBlockNumber
            (c.fastSynchronise p.id 0 0 SyncMode.FullSync fbNum height env).2).1 = last
        intro hgt hl hle
        unfold maxheight at h2 ⊢
        unfold sub64 add64 u64 at *
        omega
      simp only [windowsOk, h1, h2, decide_True, Bool.and_self, Bool.true_and]
      exact ih _ _ _ (u64_lt _) hb.1 hb.2 hm.2
    · simp [windowsOk, h1, h2]

theorem capHeight_bounds (h : Nat) (hpos : h > 0) : 1 ≤ capHeight h ∧ capHeight h ≤ maxheight := by
  unfold capHeight maxheight
  split_ifs <;> omega

theorem catchUpLoop_windowsOk {σ : Type} (c : Collab σ) (p : Peer) (target fuel : Nat) (env : σ)
    (hm : List.Chain' (· ≤ ·) (measured (catchUpLoop c p target fuel env).events)) (a : Option Nat) :
    windowsOk a (catchUpLoop c p target fuel env).events = true := by
  induction fuel generalizing env a with
  | zero => rfl
  | succ n ih =>
    simp only [catchUpLoop] at hm ⊢
    by_cases hpos : sub64 target (u64 (c.fastGetBlockNumber env).1) > 0
    · have hb := capHeight_bounds _ hpos
      have hw := windowLoop_windowsOk c p n (u64 (c.fastGetBlockNumber env).1)
        (capHeight (sub64 target (u64 (c.fastGetBlockNumber env).1))) (c.fastGetBlockNumber env).2
        (u64_lt _) hb.1 hb.2
      simp only [hpos, if_true] at hm ⊢
      generalize windowLoop c p n (u64 (c.fastGetBlockNumber env).1)
        (capHeight (sub64 target (u64 (c.fastGetBlockNumber env).1)))
        (c.fastGetBlockNumber env).2 = r at hw hm ⊢
      cases hex : r.exit <;> simp only [hex, measured, measured_append, windowsOk] at hm ⊢
      · exact hw hm
      · have hsplit : List.Chain' (· ≤ ·)
            ((u64 (c.fastGetBlockNumber env).1 :: measured r.events) ++
              measured (catchUpLoop c p target n r.env).events) := hm
        apply windowsOk_append
        · exact hw hsplit.left_of_append
        · intro b
          exact ih _ hsplit.right_of_append b
      · exact hw hm
    · simp only [hpos, if_false]
      rfl

theorem windowsOk_tail (e : Event) (l : List Event) (a : Option Nat)
    (h : windowsOk a (e :: l) = true) :
    ∃ b, windowsOk b l = true ∧ ∀ n, b = some n → e = Event.blockNumber n := by
  cases e <;> simp only [windowsOk, Bool.and_eq_true] at h
  · exact ⟨none, h, by simp⟩
  · exact ⟨some _, h, by simp⟩
  · exact ⟨none, h.2, by simp⟩
  · exact ⟨none, h, by simp⟩
  · exact ⟨none, h, by simp⟩
  · exact ⟨none, h, by simp⟩

theorem windowsOk_split (pre post : List Event) (a : Option Nat)
    (peer head : Nat) (td : Int) (mode : SyncMode) (origin height : Nat) (err : Bool)
    (h : windowsOk a (pre ++ Event.fastSynchronise peer head td mode origin height err :: post) = true) :
    1 ≤ height ∧ height ≤ maxheight ∧
      (pre = [] → a = some origin) ∧
      (pre ≠ [] → pre.getLast? = some (Event.blockNumber origin)) := by
  induction pre generalizing a with
  | nil =>
    simp only [List.nil_append, windowsOk, Bool.and_eq_true, decide_eq_true_eq] at h
    exact ⟨h.1.1.2, h.1.2, fun _ => h.1.1.1, fun hne => absurd rfl hne⟩
  | cons e rest ih =>
    obtain ⟨b, hb, hbn⟩ := windowsOk_tail e _ a h
    have hi := ih b hb
    refine ⟨hi.1, hi.2.1, fun hnil => absurd hnil (List.cons_ne_nil _ _), fun _ => ?_⟩
    cases rest with
    | nil =>
      have he := hbn origin (hi.2.2.1 rfl)
      simp [he]
    | cons x xs =>
      have := hi.2.2.2 (List.cons_ne_nil _ _)
      simpa [List.getLast?_cons_cons] using this

theorem fastCatchUp_windowsOk {σ : Type} (c : Collab σ) (fuel : Nat) (p : Peer) (w : World σ)
    (hm : List.Chain' (· ≤ ·) (measured (fastCatchUp c fuel p w).events)) :
    windowsOk none (fastCatchUp c fuel p w).events = true := by
  simp only [fastCatchUp] at hm ⊢
  cases herr : (c.fetchHeight p.id 0 w.env).1.1
  · cases hh : (c.fetchHeight p.id 0 w.env).1.2 with
    | none => simp [herr, hh, windowsOk]
    | some number =>
      simp only [herr, hh, Bool.false_eq_true, if_false] at hm ⊢
      split_ifs at hm ⊢ with hgt
      · simp only [measured] at hm
        simp only [windowsOk]
        exact catchUpLoop_windowsOk c p _ fuel _ hm.tail _
      · rfl
  · simp [herr, windowsOk]

theorem snailSync_no_fastSync {σ : Type} (c : Collab σ) (p : Peer) (cb : BlockRef) (w : World σ) :
    ∀ e ∈ (snailSync c p cb w).events, Event.isFastSync e = false := by
  intro e he
  obtain ⟨_, h | h | h⟩ := snailSync_cases c p cb w
  · rw [h.1] at he
    simp at he
  · rw [h.1] at he
    simp only [List.mem_singleton] at he
    subst he
    rfl
  · obtain ⟨bs, hbs, hb⟩ := h.2.2.2
    rw [hbs] at he
    rcases List.mem_cons.mp he with rfl | hin
    · rfl
    · have := hb e hin
      cases e <;> simp_all [Event.isBroadcast, Event.isFastSync]

theorem synchronise_windowsOk {σ : Type} (c : Collab σ) (fuel : Nat) (peer : Option Peer)
    (w : World σ)
    (hm : List.Chain' (· ≤ ·) (measured (synchronise c fuel peer w).events)) :
    windowsOk none (synchronise c fuel peer w).events = true := by
  cases peer with
  | none => rfl
  | some p =>
    by_cases h : p.td ≤ (localTd c w).1
    · rw [synchronise_behind c fuel p w h] at hm ⊢
      exact fastCatchUp_windowsOk c fuel p _ hm
    · rw [synchronise_ahead c fuel p w (not_le.mp h)]
      exact windowsOk_of_no_fastSync _ _ (snailSync_no_fastSync c p _ _)

/-! ### Claims on the fast catch-up -/

/-- C9, as stated, fails: when the local fast height drops during an attempt
(here from 400 to 300 after the first window), the next request asks for the
window `[300, 1000)` of 700 blocks, above `maxheight`. -/
theorem window_exceeds_maxheight :
    (synchronise scripted 5 (some ⟨7, 99, 5⟩) ⟨⟨0, 0, 0⟩, script [400, 400, 300] [false, true]⟩).events =
      [Event.fetchHeight 7 0 false (some 1000), Event.blockNumber 400, Event.blockNumber 400,
        Event.fastSynchronise 7 0 0 SyncMode.FullSync 400 600 false, Event.blockNumber 300,
        Event.fastSynchronise 7 0 0 SyncMode.FullSync 300 700 true] ∧
    ¬ (700 ≤ maxheight) := by
  decide

/-- C9, amended: in every attempt in which the measured local fast height never
decreases from one measurement to the next, every call of the fast downloader's
`Synchronise` asks for between 1 and `maxheight` (600) blocks and starts at the
local fast height measured immediately before the call (the event just before
it is that measurement), for every target height and every such sequence of
heights. -/
theorem windows_within_maxheight {σ : Type} (c : Collab σ) (fuel : Nat) (peer : Option Peer)
    (w : World σ)
    (hmono : List.Chain' (· ≤ ·) (measured (synchronise c fuel peer w).events))
    (pre post : List Event) (pid head : Nat) (td : Int) (mode : SyncMode)
    (origin height : Nat) (err : Bool)
    (hcall : (synchronise c fuel peer w).events =
      pre ++ Event.fastSynchronise pid head td mode origin height err :: post) :
    1 ≤ height ∧ height ≤ maxheight ∧ pre.getLast? = some (Event.blockNumber origin) := by
  have hok := synchronise_windowsOk c fuel peer w hmono
  rw [hcall] at hok
  have h := windowsOk_split pre post none pid head td mode origin height err hok
  refine ⟨h.1, h.2.1, h.2.2.2 ?_⟩
  intro hnil
  exact absurd (h.2.2.1 hnil) (by simp)

/-- Witness of C9, amended: the ideal environment from height 400 to a peer at
1001, second call. -/
theorem windows_within_maxheight_witness :
    (1 : Nat) ≤ 1 ∧ 1 ≤ maxheight ∧
    [Event.fetchHeight 7 0 false (some 1001), Event.blockNumber 400, Event.blockNumber 400,
      Event.fastSynchronise 7 0 0 SyncMode.FullSync 400 600 false, Event.blockNumber 1000,
      Event.blockNumber 1000].getLast? = some (Event.blockNumber 1000) :=
  windows_within_maxheight ideal 5 (some ⟨7, 99, 5⟩) ⟨⟨0, 0, 0⟩, ⟨⟨1, 10⟩, 5, 1001, 400⟩⟩
    (by
      have hev : (synchronise ideal 5 (some ⟨7, 99, 5⟩) ⟨⟨0, 0, 0⟩, ⟨⟨1, 10⟩, 5, 1001, 400⟩⟩).events =
          [Event.fetchHeight 7 0 false (some 1001), Event.blockNumber 400, Event.blockNumber 400,
            Event.fastSynchronise 7 0 0 SyncMode.FullSync 400 600 false, Event.blockNumber 1000,
            Event.blockNumber 1000, Event.fastSynchronise 7 0 0 SyncMode.FullSync 1000 1 false,
            Event.blockNumber 1001, Event.blockNumber 1001] := by decide
      rw [hev]
      simp [measured])
    [Event.fetchHeight 7 0 false (some 1001), Event.blockNumber 400, Event.blockNumber 400,
      Event.fastSynchronise 7 0 0 SyncMode.FullSync 400 600 false, Event.blockNumber 1000,
      Event.blockNumber 1000]
    [Event.blockNumber 1001, Event.blockNumber 1001] 7 0 0 SyncMode.FullSync 1000 1 false
    (by decide)

/-- C8, evaluated where the code departs from it: with target 1000 fetched while
the local fast height was 400, and the local height at 1001 when the loop
measures it, `1000 - 1001` wraps around as an unsigned 64-bit integer and a
window of `maxheight` blocks is requested from height 1001, past the target. -/
theorem catch_up_past_target :
    (synchronise scripted 5 (some ⟨7, 99, 5⟩) ⟨⟨0, 0, 0⟩, script [400, 1001] [true]⟩).events =
      [Event.fetchHeight 7 0 false (some 1000), Event.blockNumber 400, Event.blockNumber 1001,
        Event.fastSynchronise 7 0 0 SyncMode.FullSync 1001 600 true] ∧
    sub64 1000 1001 = 2 ^ 64 - 1 := by
  decide

/-! ### Lemmas on failed downloader calls -/

theorem FailLast_nil : FailLast [] := by
  intro pre ev post h
  simp at h

theorem FailLast_single (e : Event) : FailLast [e] := by
  intro pre ev post h _
  cases pre with
  | nil =>
    simp only [List.nil_append, List.cons.injEq] at h
    exact h.2.symm
  | cons x xs =>
    simp at h

theorem FailLast_cons (e : Event) (evs : List Event) (he : Event.failed e = false)
    (h : FailLast evs) : FailLast (e :: evs) := by
  intro pre ev post hdec hf
  cases pre with
  | nil =>
    simp only [List.nil_append, List.cons.injEq] at hdec
    rw [← hdec.1, he] at hf
    exact absurd hf (by simp)
  | cons x xs =>
    simp only [List.cons_append, List.cons.injEq] at hdec
    exact h xs ev post hdec.2 hf

theorem FailLast_append (xs ys : List Event) (hx : NoFail xs) (hy : FailLast ys) :
    FailLast (xs ++ ys) := by
  induction xs with
  | nil => exact hy
  | cons e rest ih =>
    exact FailLast_cons e _ (hx e (List.mem_cons_self _ _))
      (ih (fun x hin => hx x (List.mem_cons_of_mem _ hin)))

theorem windowLoop_fail {σ : Type} (c : Collab σ) (p : Peer) (fuel fbNum height : Nat) (env : σ) :
    FailLast (windowLoop c p fuel fbNum height env).events ∧
    ((windowLoop c p fuel fbNum height env).exit ≠ Exit.ret →
      NoFail (windowLoop c p fuel fbNum height env).events) ∧
    ∀ e ∈ (windowLoop c p fuel fbNum height env).events, Event.isBroadcast e = false := by
  induction fuel generalizing fbNum height env with
  | zero =>
    refine ⟨FailLast_nil, fun _ e he => ?_, fun e he => ?_⟩ <;> simp [windowLoop] at he
  | succ n ih =>
    simp only [windowLoop]
    cases herr : (c.fastSynchronise p.id 0 0 SyncMode.FullSync fbNum height env).1
    · simp only [Bool.false_eq_true, if_false]
      split_ifs with hgt
      · obtain ⟨h1, h2, h3⟩ := ih (u64 (c.fastGetBlockNumber
            (c.fastSynchronise p.id 0 0 SyncMode.FullSync fbNum height env).2).1)
          (sub64 (add64 fbNum height) (u64 (c.fastGetBlockNumber
            (c.fastSynchronise p.id 0 0 SyncMode.FullSync fbNum height env).2).1))
          (c.fastGetBlockNumber (c.fastSynchronise p.id 0 0 SyncMode.FullSync fbNum height env).2).2
        refine ⟨FailLast_cons _ _ rfl (FailLast_cons _ _ rfl h1), fun hex e he => ?_, fun e he => ?_⟩
        · rcases List.mem_cons.mp he with rfl | he
          · rfl
          · rcases List.mem_cons.mp he with rfl | he
            · rfl
            · exact h2 hex e he
        · rcases List.mem_cons.mp he with rfl | he
          · rfl
          · rcases List.mem_cons.mp he with rfl | he
            · rfl
            · exact h3 e he
      · refine ⟨FailLast_cons _ _ rfl (FailLast_single _), fun _ e he => ?_, fun e he => ?_⟩
        · rcases List.mem_cons.mp he with rfl | he
          · rfl
          · rw [List.mem_singleton.mp he]; rfl
        · rcases List.mem_cons.mp he with rfl | he
          · rfl
          · rw [List.mem_singleton.mp he]; rfl
    · simp only [if_true]
      refine ⟨FailLast_single _, fun hex => absurd rfl hex, fun e he => ?_⟩
      rw [List.mem_singleton.mp he]; rfl

theorem catchUpLoop_fail {σ : Type} (c : Collab σ) (p : Peer) (target fuel : Nat) (env : σ) :
    FailLast (catchUpLoop c p target fuel env).events ∧
    ((catchUpLoop c p target fuel env).exit ≠ Exit.ret →
      NoFail (catchUpLoop c p target fuel env).events) ∧
    ∀ e ∈ (catchUpLoop c p target fuel env).events, Event.isBroadcast e = false := by
  induction fuel generalizing env with
  | zero =>
    refine ⟨FailLast_nil, fun _ e he => ?_, fun e he => ?_⟩ <;> simp [catchUpLoop] at he
  | succ n ih =>
    simp only [catchUpLoop]
    by_cases hpos : sub64 target (u64 (c.fastGetBlockNumber env).1) > 0
    · simp only [hpos, if_true]
      have hw := windowLoop_fail c p n (u64 (c.fastGetBlockNumber env).1)
        (capHeight (sub64 target (u64 (c.fastGetBlockNumber env).1))) (c.fastGetBlockNumber env).2
      generalize windowLoop c p n (u64 (c.fastGetBlockNumber env).1)
        (capHeight (sub64 target (u64 (c.fastGetBlockNumber env).1)))
        (c.fastGetBlockNumber env).2 = r at hw ⊢
      obtain ⟨h1, h2, h3⟩ := hw
      cases hex : r.exit <;> simp only [hex]
      · refine ⟨FailLast_cons _ _ rfl h1, fun hne => absurd rfl hne, fun e he => ?_⟩
        rcases List.mem_cons.mp he with rfl | he
        · rfl
        · exact h3 e he
      · obtain ⟨g1, g2, g3⟩ := ih r.env
        have hnf : NoFail r.events := h2 (by rw [hex]; decide)
        refine ⟨FailLast_cons _ _ rfl (FailLast_append _ _ hnf g1), fun hne e he => ?_,
          fun e he => ?_⟩
        · rcases List.mem_cons.mp he with rfl | he
          · rfl
          · rcases List.mem_append.mp he with he | he
            · exact hnf e he
            · exact g2 hne e he
        · rcases List.mem_cons.mp he with rfl | he
          · rfl
          · rcases List.mem_append.mp he with he | he
            · exact h3 e he
            · exact g3 e he
      · refine ⟨FailLast_cons _ _ rfl h1, fun _ e he => ?_, fun e he => ?_⟩
        · rcases List.mem_cons.mp he with rfl | he
          · rfl
          · exact h2 (by rw [hex]; decide) e he
        · rcases List.mem_cons.mp he with rfl | he
          · rfl
          · exact h3 e he
    · simp only [hpos, if_false]
      refine ⟨FailLast_single _, fun _ e he => ?_, fun e he => ?_⟩
      · rw [List.mem_singleton.mp he]; rfl
      · rw [List.mem_singleton.mp he]; rfl

theorem fastCatchUp_fail {σ : Type} (c : Collab σ) (fuel : Nat) (p : Peer) (w : World σ) :
    FailLast (fastCatchUp c fuel p w).events ∧
    ((fastCatchUp c fuel p w).returned = false → NoFail (fastCatchUp c fuel p w).events) ∧
    (fastCatchUp c fuel p w).pm = w.pm ∧
    ∀ e ∈ (fastCatchUp c fuel p w).events, Event.isBroadcast e = false := by
  simp only [fastCatchUp]
  cases herr : (c.fetchHeight p.id 0 w.env).1.1
  · cases hh : (c.fetchHeight p.id 0 w.env).1.2 with
    | none =>
      simp only [Bool.false_eq_true, if_false]
      refine ⟨FailLast_single _, fun hr => absurd hr (by simp), by first | rfl | trivial,
        fun e he => ?_⟩
      rw [List.mem_singleton.mp he]; rfl
    | some number =>
      simp only [Bool.false_eq_true, if_false]
      split_ifs with hgt
      · obtain ⟨g1, g2, g3⟩ := catchUpLoop_fail c p (u64 number) fuel
          (c.fastGetBlockNumber (c.fetchHeight p.id 0 w.env).2).2
        refine ⟨FailLast_cons _ _ rfl (FailLast_cons _ _ rfl g1), fun hr e he => ?_, rfl,
          fun e he => ?_⟩
        · have hex : (catchUpLoop c p (u64 number) fuel
              (c.fastGetBlockNumber (c.fetchHeight p.id 0 w.env).2).2).exit ≠ Exit.ret := by
            intro heq
            simp only [heq] at hr
            exact absurd hr (by decide)
          rcases List.mem_cons.mp he with rfl | he
          · rfl
          · rcases List.mem_cons.mp he with rfl | he
            · rfl
            · exact g2 hex e he
        · rcases List.mem_cons.mp he with rfl | he
          · rfl
          · rcases List.mem_cons.mp he with rfl | he
            · rfl
            · exact g3 e he
      · refine ⟨FailLast_cons _ _ rfl (FailLast_single _), fun hr => absurd hr (by simp), rfl,
          fun e he => ?_⟩
        rcases List.mem_cons.mp he with rfl | he
        · rfl
        · rw [List.mem_singleton.mp he]; rfl
  · simp only [if_true]
    refine ⟨FailLast_single _, fun hr => absurd hr (by simp), by first | rfl | trivial,
        fun e he => ?_⟩
    rw [List.mem_singleton.mp he]; rfl

/-! ### Claims on failed attempts and on attempts with nothing to fetch -/

/-- C10: in every attempt, a failed downloader call (`FetchHeight` with an error
or a nil header, or a `Synchronise` of either downloader with an error) is the
last event of the attempt: no downloader call follows it, the attempt has
returned, `acceptTxs` and `acceptFruits` hold what they held before, a `fastSync`
flag that was 1 is still 1, and no head is broadcast. -/
theorem failure_ends_attempt {σ : Type} (c : Collab σ) (fuel : Nat) (peer : Option Peer)
    (w : World σ) (pre post : List Event) (ev : Event)
    (hev : (synchronise c fuel peer w).events = pre ++ ev :: post)
    (hfail : Event.failed ev = true) :
    post = [] ∧ (synchronise c fuel peer w).returned = true ∧
    (synchronise c fuel peer w).pm.acceptTxs = w.pm.acceptTxs ∧
    (synchronise c fuel peer w).pm.acceptFruits = w.pm.acceptFruits ∧
    (w.pm.fastSync = 1 → (synchronise c fuel peer w).pm.fastSync = 1) ∧
    ∀ e ∈ (synchronise c fuel peer w).events, Event.isBroadcast e = false := by
  have hin : ev ∈ (synchronise c fuel peer w).events := by
    rw [hev]
    simp
  cases peer with
  | none => simp [synchronise] at hin
  | some p =>
    by_cases h : p.td ≤ (localTd c w).1
    · rw [synchronise_behind c fuel p w h] at hev hin ⊢
      obtain ⟨g1, g2, g3, g4⟩ := fastCatchUp_fail c fuel p { w with env := (localTd c w).2 }
      refine ⟨g1 pre ev post hev hfail, ?_, by rw [g3], by rw [g3], fun hf => by rw [g3]; exact hf,
        g4⟩
      by_contra hr
      have := g2 (by simpa using hr) ev hin
      rw [this] at hfail
      exact absurd hfail (by simp)
    · rw [synchronise_ahead c fuel p w (not_le.mp h)] at hev hin ⊢
      have hsel := selectMode_pm c (localHead c w) { w with env := (localTd c w).2 }
      obtain ⟨hret, g | g | g⟩ := snailSync_cases c p (localHead c w)
        { w with env := (localTd c w).2 }
      · rw [g.1] at hin
        simp at hin
      · have hpost : post = [] := by
          rw [g.1] at hev
          exact FailLast_single _ pre ev post hev hfail
        refine ⟨hpost, hret, by rw [g.2]; exact hsel.1, by rw [g.2]; exact hsel.2.1, fun hf => ?_,
          fun e he => ?_⟩
        · rw [g.2]
          cases hm : (selectMode c (localHead c w) { w with env := (localTd c w).2 }).1
          · exact absurd hf (hsel.2.2.2 hm).2
          · exact hsel.2.2.1 hm
        · rw [g.1] at he
          rw [List.mem_singleton.mp he]; rfl
      · obtain ⟨bs, hbs, hb⟩ := g.2.2.2
        rw [hbs] at hin
        rcases List.mem_cons.mp hin with rfl | hin
        · simp [Event.failed] at hfail
        · have := hb ev hin
          cases ev <;> simp_all [Event.isBroadcast, Event.failed]

/-- Witness of C10: the fast downloader fails on its first window. -/
theorem failure_ends_attempt_witness :
    ([] : List Event) = [] ∧
    (synchronise scripted 5 (some ⟨7, 99, 5⟩) ⟨⟨1, 0, 0⟩, script [400, 400] [true]⟩).returned = true ∧
    (synchronise scripted 5 (some ⟨7, 99, 5⟩) ⟨⟨1, 0, 0⟩, script [400, 400] [true]⟩).pm.acceptTxs = 0 :=
  have h := failure_ends_attempt scripted 5 (some ⟨7, 99, 5⟩) ⟨⟨1, 0, 0⟩, script [400, 400] [true]⟩
    [Event.fetchHeight 7 0 false (some 1000), Event.blockNumber 400, Event.blockNumber 400] []
    (Event.fastSynchronise 7 0 0 SyncMode.FullSync 400 600 true) (by decide) (by decide)
  ⟨h.1, h.2.1, h.2.2.1⟩

/-- C5: for every peer and local chain state in which the peer's total
difficulty is at most the local one and the fast height fetched from the peer is
at most the local fast height, the attempt consists of the `FetchHeight` call
and one measurement of the local height: no `Synchronise` call on either
downloader, no broadcast, and the three flags unchanged. -/
theorem caught_up_is_noop {σ : Type} (c : Collab σ) (fuel : Nat) (p : Peer) (w : World σ)
    (n : Nat)
    (htd : p.td ≤ (localTd c w).1)
    (hfetch : (fetched c p w).1 = (false, some n))
    (hle : u64 n ≤ gateHeight c p w) :
    (synchronise c fuel (some p) w).events =
      [Event.fetchHeight p.id 0 false (some n), Event.blockNumber (gateHeight c p w)] ∧
    (∀ e ∈ (synchronise c fuel (some p) w).events,
      Event.isFastSync e = false ∧ Event.isSnailSync e = false ∧ Event.isBroadcast e = false) ∧
    (synchronise c fuel (some p) w).pm = w.pm ∧
    (synchronise c fuel (some p) w).returned = true := by
  have h1 : (c.fetchHeight p.id 0 (localTd c w).2).1.1 = false := by
    have := congrArg Prod.fst hfetch
    exact this
  have h2 : (c.fetchHeight p.id 0 (localTd c w).2).1.2 = some n := by
    have := congrArg Prod.snd hfetch
    exact this
  have h3 : ¬ (u64 n > u64 (c.fastGetBlockNumber (c.fetchHeight p.id 0 (localTd c w).2).2).1) :=
    not_lt.mpr hle
  have hev : (synchronise c fuel (some p) w).events =
      [Event.fetchHeight p.id 0 false (some n), Event.blockNumber (gateHeight c p w)] := by
    rw [synchronise_behind c fuel p w htd]
    simp only [fastCatchUp, h1, h2, h3, Bool.false_eq_true, if_false]
    rfl
  refine ⟨hev, ?_, ?_, ?_⟩
  · intro e he
    rw [hev] at he
    rcases List.mem_cons.mp he with rfl | he
    · exact ⟨rfl, rfl, rfl⟩
    · rw [List.mem_singleton.mp he]
      exact ⟨rfl, rfl, rfl⟩
  · rw [synchronise_behind c fuel p w htd]
    simp only [fastCatchUp, h1, h2, h3, Bool.false_eq_true, if_false]
  · rw [synchronise_behind c fuel p w htd]
    simp only [fastCatchUp, h1, h2, h3, Bool.false_eq_true, if_false]

/-- Witness of C5: the peer's fast height 1000 against a local fast height of 1200. -/
theorem caught_up_is_noop_witness :
    (synchronise scripted 5 (some ⟨7, 99, 5⟩) ⟨⟨1, 0, 0⟩, script [1200] []⟩).events =
      [Event.fetchHeight 7 0 false (some 1000), Event.blockNumber 1200] ∧
    (synchronise scripted 5 (some ⟨7, 99, 5⟩) ⟨⟨1, 0, 0⟩, script [1200] []⟩).pm = ⟨1, 0, 0⟩ :=
  have h := caught_up_is_noop scripted 5 ⟨7, 99, 5⟩ ⟨⟨1, 0, 0⟩, script [1200] []⟩ 1000
    (by decide) (by decide) (by decide)
  ⟨h.1, h.2.2.1⟩

/-- C7, as stated, fails: against the ideal fast downloader, from local fast
height 400 to a peer at 1000 with `maxheight = 600`, one windowed `Synchronise`
call is made, not two: the 600 missing blocks fit in one window. -/
theorem one_window_suffices :
    ((synchronise ideal 5 (some ⟨7, 99, 5⟩) ⟨⟨0, 0, 0⟩, ⟨⟨1, 10⟩, 5, 1000, 400⟩⟩).events.filter
        Event.isFastSync) = [Event.fastSynchronise 7 0 0 SyncMode.FullSync 400 600 false] ∧
    ¬ ((synchronise ideal 5 (some ⟨7, 99, 5⟩) ⟨⟨0, 0, 0⟩, ⟨⟨1, 10⟩, 5, 1000, 400⟩⟩).events.filter
        Event.isFastSync).length = 2 := by
  decide

/-- C7, amended: against the ideal fast downloader, with `maxheight = 600`, a
local fast height of 400 and a peer that is not ahead in total difficulty and
advertises the fast height 1000, the attempt returns (given fuel for two loop
levels) after exactly one windowed `Synchronise` call, for the window
`[400, 1000)` of 600 blocks, with the local fast height at 1000 and the flags
unchanged. -/
theorem ideal_catch_up_one_window (fuel : Nat) (p : Peer) (pm : ProtocolManager) (s : Ideal)
    (hfuel : 2 ≤ fuel) (htd : p.td ≤ s.snailTd)
    (hlocal : s.fastHeight = 400) (hpeer : s.peerFastHeight = 1000) :
    (synchronise ideal fuel (some p) ⟨pm, s⟩).returned = true ∧
    (synchronise ideal fuel (some p) ⟨pm, s⟩).events =
      [Event.fetchHeight p.id 0 false (some 1000), Event.blockNumber 400, Event.blockNumber 400,
        Event.fastSynchronise p.id 0 0 SyncMode.FullSync 400 600 false, Event.blockNumber 1000,
        Event.blockNumber 1000] ∧
    (synchronise ideal fuel (some p) ⟨pm, s⟩).events.filter Event.isFastSync =
      [Event.fastSynchronise p.id 0 0 SyncMode.FullSync 400 600 false] ∧
    (synchronise ideal fuel (some p) ⟨pm, s⟩).env.fastHeight = 1000 ∧
    (synchronise ideal fuel (some p) ⟨pm, s⟩).pm = pm := by
  obtain ⟨k, rfl⟩ : ∃ k, fuel = k + 2 := ⟨fuel - 2, by omega⟩
  have h1 : u64 1000 = 1000 := by decide
  have h2 : u64 400 = 400 := by decide
  have h3 : sub64 1000 400 = 600 := by decide
  have h4 : capHeight 600 = 600 := by decide
  have h5 : add64 400 600 = 1000 := by decide
  have h6 : sub64 1000 1000 = 0 := by decide
  have hb : synchronise ideal (k + 2) (some p) ⟨pm, s⟩ =
      fastCatchUp ideal (k + 2) p ⟨pm, s⟩ := by
    rw [synchronise_behind ideal (k + 2) p ⟨pm, s⟩ (by simpa [localTd, localHead, ideal] using htd)]
    rfl
  rw [hb]
  simp [fastCatchUp, catchUpLoop, windowLoop, ideal, hlocal, hpeer, h1, h2, h3, h4, h5, h6,
    Event.isFastSync]

/-- Witness of C7, amended. -/
theorem ideal_catch_up_one_window_witness :
    (synchronise ideal 2 (some ⟨7, 99, 5⟩) ⟨⟨0, 0, 0⟩, ⟨⟨1, 10⟩, 5, 1000, 400⟩⟩).returned = true ∧
    (synchronise ideal 2 (some ⟨7, 99, 5⟩) ⟨⟨0, 0, 0⟩, ⟨⟨1, 10⟩, 5, 1000, 400⟩⟩).env.fastHeight =
      1000 :=
  have h := ideal_catch_up_one_window 2 ⟨7, 99, 5⟩ ⟨0, 0, 0⟩ ⟨⟨1, 10⟩, 5, 1000, 400⟩
    (by decide) (by decide) rfl rfl
  ⟨h.1, h.2.2.2.1⟩

/-! ### Further claims on the miner -/

theorem Start_frame (m : Miner) (a : Address) :
    (Start m a).canStart = m.canStart ∧ (Start m a).commitFlag = m.commitFlag := by
  unfold Start SetEtherbase
  simp only
  split <;> exact ⟨rfl, rfl⟩

theorem loopEvent_canStart (el : CommitteeElection) (m : Miner) (ev : ElectionEvent) :
    (loopEvent el m ev).canStart = m.canStart := by
  unfold loopEvent
  split
  · split
    · by_cases hmi : Mining m = true <;> simp [hmi, Stop]
    · exact (Start_frame _ _).1
  · exact (Start_frame _ _).1
  · rfl

theorem step_closed (el : CommitteeElection) (s : MinerSys) (a : Action)
    (hl : s.listening = false) (hc : s.miner.canStart = 1) :
    (step el s a).listening = false ∧ (step el s a).miner.canStart = 1 := by
  cases a with
  | start c => exact ⟨hl, by simp only [step]; rw [(Start_frame _ _).1]; exact hc⟩
  | stop => exact ⟨hl, hc⟩
  | mux ev => simp [step, hl, hc]
  | elect ev =>
    simp only [step]
    split
    · exact ⟨hl, hc⟩
    · exact ⟨hl, by rw [loopEvent_canStart]; exact hc⟩

theorem step_mux_closed (el : CommitteeElection) (s : MinerSys) (ev : MuxEvent)
    (hl : s.listening = false) : step el s (Action.mux ev) = s := by
  simp [step, hl]

theorem run_closed (el : CommitteeElection) (s : MinerSys) (acts : List Action)
    (hl : s.listening = false) (hc : s.miner.canStart = 1) :
    (run el s acts).listening = false ∧ (run el s acts).miner.canStart = 1 := by
  induction acts generalizing s with
  | nil => exact ⟨hl, hc⟩
  | cons a rest ih =>
    have h := step_closed el s a hl hc
    exact ih (step el s a) h.1 h.2

/-- C11, as stated, fails: a miner blocked by the committee (`commitFlag = 0`)
with `shouldStart = 1` handles a `DoneEvent` and ends with `canStart = 1` but
`mining = 0`. -/
theorem done_event_leaves_blocked_miner_idle :
    blockedMiner.shouldStart = 1 ∧ blockedMiner.commitFlag = 0 ∧
    (updateEvent blockedMiner MuxEvent.DoneEvent).1.canStart = 1 ∧
    (updateEvent blockedMiner MuxEvent.DoneEvent).1.mining = 0 ∧
    ¬ (updateEvent blockedMiner MuxEvent.DoneEvent).1.mining = 1 := by
  decide

/-- C11, amended: for every miner state with `canStart = 0`, `Start a` records
`shouldStart = 1` and leaves `mining` as it was; for every miner state with
`shouldStart = 1` and `commitFlag = 1`, handling a `DoneEvent` or a `FailedEvent`
in the update listener ends with `canStart = 1` and `mining = 1`; with
`shouldStart = 1` and `commitFlag = 0` it ends with `canStart = 1`,
`shouldStart = 1` and `mining` as it was. -/
theorem start_deferred_until_done (s : Miner) (a : Address) (ev : MuxEvent)
    (hev : ev = MuxEvent.DoneEvent ∨ ev = MuxEvent.FailedEvent) :
    (s.canStart = 0 → (Start s a).shouldStart = 1 ∧ (Start s a).mining = s.mining) ∧
    (s.shouldStart = 1 → s.commitFlag = 1 →
      (updateEvent s ev).1.canStart = 1 ∧ (updateEvent s ev).1.mining = 1) ∧
    (s.shouldStart = 1 → s.commitFlag = 0 →
      (updateEvent s ev).1.canStart = 1 ∧ (updateEvent s ev).1.shouldStart = 1 ∧
      (updateEvent s ev).1.mining = s.mining) := by
  refine ⟨fun hc => ?_, fun hs hf => ?_, fun hs hf => ?_⟩
  · simp [Start, SetEtherbase, hc]
  · rcases hev with rfl | rfl <;> simp [updateEvent, Start, SetEtherbase, hs, hf]
  · rcases hev with rfl | rfl <;> simp [updateEvent, Start, SetEtherbase, hs, hf]

/-- Witness of C11, amended: `Start` on a fresh miner whose sync has begun, then
`DoneEvent`. -/
theorem start_deferred_until_done_witness :
    (Start (updateEvent (New false false) MuxEvent.StartEvent).1 ⟨7⟩).mining = 0 ∧
    (updateEvent (Start (updateEvent (New false false) MuxEvent.StartEvent).1 ⟨7⟩)
      MuxEvent.DoneEvent).1.mining = 1 :=
  ⟨((start_deferred_until_done (updateEvent (New false false) MuxEvent.StartEvent).1 ⟨7⟩
      MuxEvent.DoneEvent (Or.inl rfl)).1 rfl).2,
    ((start_deferred_until_done (Start (updateEvent (New false false) MuxEvent.StartEvent).1 ⟨7⟩)
      ⟨7⟩ MuxEvent.DoneEvent (Or.inl rfl)).2.1 rfl rfl).2⟩

/-- C12: for every miner state in which the node is mining and the invariant
of the flag machine holds (it holds in every state the package reaches, and
`SetElection` keeps it), whatever public key the node has: handling a
`CommitteeStart` whose committee contains the local node leaves `mining = 0` and
`commitFlag = 0` (the worker is stopped), and handling a `CommitteeStop` right
after it ends with `commitFlag = 1`, `shouldStart = 1` and `mining = 1`, the
worker having received `Start`'s calls after the stop. -/
theorem committee_round_resumes_mining (election : CommitteeElection) (m : Miner)
    (hinv : MinerInv m) (hmining : Mining m = true) (members others : List Nat)
    (hmember : election.IsCommitteeMember members m.publickey = true) :
    (loopEvent election m ⟨ElectionOption.CommitteeStart, members⟩).mining = 0 ∧
    (loopEvent election m ⟨ElectionOption.CommitteeStart, members⟩).commitFlag = 0 ∧
    (loopEvent election (loopEvent election m ⟨ElectionOption.CommitteeStart, members⟩)
      ⟨ElectionOption.CommitteeStop, others⟩).commitFlag = 1 ∧
    (loopEvent election (loopEvent election m ⟨ElectionOption.CommitteeStart, members⟩)
      ⟨ElectionOption.CommitteeStop, others⟩).shouldStart = 1 ∧
    (loopEvent election (loopEvent election m ⟨ElectionOption.CommitteeStart, members⟩)
      ⟨ElectionOption.CommitteeStop, others⟩).mining = 1 ∧
    (loopEvent election (loopEvent election m ⟨ElectionOption.CommitteeStart, members⟩)
      ⟨ElectionOption.CommitteeStop, others⟩).worker =
      m.worker ++ [WorkerCall.stop] ++
        [WorkerCall.setEtherbase m.coinbase, WorkerCall.start, WorkerCall.commitNewWork] := by
  obtain ⟨hm, _, _, _, hg⟩ := hinv
  have h1 : m.mining = 1 := by
    rcases hm with h0 | h1
    · simp [Mining, h0] at hmining
    · exact h1
  have hc : m.canStart = 1 := (hg h1).1
  simp [loopEvent, hmember, hmining, Stop, Start, SetEtherbase, hc]

/-- Witness of C12: a fresh miner that was started and given the public key 5 by
`SetElection`, with that key in the committee. -/
theorem committee_round_resumes_mining_witness :
    (SetElection (Start (New false false) ⟨7⟩) true [5]).publickey = [5] ∧
    (loopEvent listElection
      (loopEvent listElection (SetElection (Start (New false false) ⟨7⟩) true [5])
        ⟨ElectionOption.CommitteeStart, [5]⟩)
      ⟨ElectionOption.CommitteeStop, []⟩).mining = 1 :=
  ⟨rfl, (committee_round_resumes_mining listElection
    (SetElection (Start (New false false) ⟨7⟩) true [5])
    (SetElection_inv _ true [5] (Start_inv _ _ (New_inv false false))) (by decide) [5] []
    (by decide)).2.2.2.2.1⟩

/-- C13: once the update listener has handled its first `DoneEvent` or
`FailedEvent` it has left its loop with `canStart = 1`; whatever happens
afterwards (calls of `Start` and `Stop`, election events, further downloader
events), the listener stays out, `canStart` stays 1, and a downloader event
changes nothing: no later `StartEvent` sets `canStart` to 0 or stops mining. -/
theorem update_is_one_shot (election : CommitteeElection) (s : MinerSys) (ev : MuxEvent)
    (hev : ev = MuxEvent.DoneEvent ∨ ev = MuxEvent.FailedEvent) (hl : s.listening = true) :
    (step election s (Action.mux ev)).listening = false ∧
    (step election s (Action.mux ev)).miner.canStart = 1 ∧
    ∀ acts : List Action,
      (run election (step election s (Action.mux ev)) acts).listening = false ∧
      (run election (step election s (Action.mux ev)) acts).miner.canStart = 1 ∧
      ∀ later : MuxEvent,
        step election (run election (step election s (Action.mux ev)) acts) (Action.mux later) =
          run election (step election s (Action.mux ev)) acts := by
  have h0 : (step election s (Action.mux ev)).listening = false ∧
      (step election s (Action.mux ev)).miner.canStart = 1 := by
    rcases hev with rfl | rfl
    · simp only [step, hl, if_true, updateEvent]
      split
      · exact ⟨rfl, (Start_frame _ _).1⟩
      · exact ⟨rfl, rfl⟩
    · simp only [step, hl, if_true, updateEvent]
      split
      · exact ⟨rfl, (Start_frame _ _).1⟩
      · exact ⟨rfl, rfl⟩
  refine ⟨h0.1, h0.2, fun acts => ?_⟩
  have h := run_closed election _ acts h0.1 h0.2
  exact ⟨h.1, h.2, fun later => step_mux_closed election _ later h.1⟩

/-- Witness of C13: a `StartEvent` after the `DoneEvent` of a fresh miner. -/
theorem update_is_one_shot_witness :
    (run listElection (step listElection (initSys false false) (Action.mux MuxEvent.DoneEvent))
      [Action.mux MuxEvent.StartEvent]).miner.canStart = 1 :=
  ((update_is_one_shot listElection (initSys false false) MuxEvent.DoneEvent (Or.inl rfl) rfl).2.2
    [Action.mux MuxEvent.StartEvent]).2.1

/-- C14: for every miner state, `Stop` calls `worker.stop`, leaves `mining = 0`
and `shouldStart = 0`, and does not modify `canStart`, `commitFlag` or the
coinbase. -/
theorem Stop_contract (s : Miner) :
    (Stop s).worker = s.worker ++ [WorkerCall.stop] ∧
    (Stop s).mining = 0 ∧ (Stop s).shouldStart = 0 ∧
    (Stop s).canStart = s.canStart ∧ (Stop s).commitFlag = s.commitFlag ∧
    (Stop s).coinbase = s.coinbase :=
  ⟨rfl, rfl, rfl, rfl, rfl, rfl⟩

/-- C15: for every miner state whose `mining` flag holds 0 or 1, handling a
downloader `StartEvent` in the update listener leaves `canStart = 0` and
`mining = 0` and the listener in its loop; `shouldStart` ends as 1 if the miner
was mining before the event (the worker is then stopped) and keeps its value
otherwise; `commitFlag` is unchanged. -/
theorem StartEvent_contract (s : Miner) (hm : isFlag s.mining) :
    (updateEvent s MuxEvent.StartEvent).2 = true ∧
    (updateEvent s MuxEvent.StartEvent).1.canStart = 0 ∧
    (updateEvent s MuxEvent.StartEvent).1.mining = 0 ∧
    (updateEvent s MuxEvent.StartEvent).1.commitFlag = s.commitFlag ∧
    (Mining s = true →
      (updateEvent s MuxEvent.StartEvent).1.shouldStart = 1 ∧
      (updateEvent s MuxEvent.StartEvent).1.worker = s.worker ++ [WorkerCall.stop]) ∧
    (Mining s = false →
      (updateEvent s MuxEvent.StartEvent).1.shouldStart = s.shouldStart ∧
      (updateEvent s MuxEvent.StartEvent).1.worker = s.worker) := by
  rcases hm with h0 | h1
  · simp [updateEvent, Mining, Stop, h0]
  · simp [updateEvent, Mining, Stop, h1]

/-- Witness of C15: a mining miner. -/
theorem StartEvent_contract_witness :
    (updateEvent (Start (New false false) ⟨7⟩) MuxEvent.StartEvent).1.canStart = 0 ∧
    (updateEvent (Start (New false false) ⟨7⟩) MuxEvent.StartEvent).1.mining = 0 ∧
    (updateEvent (Start (New false false) ⟨7⟩) MuxEvent.StartEvent).1.shouldStart = 1 :=
  have h := StartEvent_contract (Start (New false false) ⟨7⟩) (Or.inr rfl)
  ⟨h.2.1, h.2.2.1, (h.2.2.2.2.1 (by decide)).1⟩

/-! ### Lemmas on the relay loops -/

theorem mem_removePeer {α : Type} (id : Nat) (m : List (Nat × List α)) (e : Nat × List α) :
    e ∈ removePeer id m ↔ e ∈ m ∧ e.1 ≠ id := by
  simp [removePeer, List.mem_filter]

theorem mem_putPeer {α : Type} (id : Nat) (q : List α) (m : List (Nat × List α))
    (e : Nat × List α) :
    e ∈ putPeer id q m ↔ (e ∈ m ∧ e.1 ≠ id) ∨ e = (id, q) := by
  simp [putPeer, mem_removePeer]

theorem relayPick_mem {α : Type} (r : Nat) (m : List (Nat × List α)) (e : Nat × List α)
    (h : relayPick r m = some e) : e ∈ m := by
  unfold relayPick at h
  split at h
  · exact absurd h (by simp)
  · exact List.get?_mem h

theorem packsTo_snoc {α : Type} (id k : Nat) (p : List α) (log : List (Nat × List α)) :
    packsTo id (log ++ [(k, p)]) = if k = id then packsTo id log ++ [p] else packsTo id log := by
  unfold packsTo
  by_cases h : k = id <;> simp [List.filter_append, h]

theorem mem_relaySend_pending {α : Type} (sz : α → Nat) (cap : Nat) (st : Relay α) (k : Nat)
    (q : List α) (e : Nat × List α) :
    e ∈ (relaySend sz cap st k q).pending ↔
      (e ∈ st.pending ∧ e.1 ≠ k) ∨ (sendRest sz cap q ≠ [] ∧ e = (k, sendRest sz cap q)) := by
  unfold relaySend
  simp only
  split
  · rename_i h
    have hnil : sendRest sz cap q = [] := List.length_eq_zero.mp h
    simp [mem_removePeer, hnil]
  · rename_i h
    have hne : sendRest sz cap q ≠ [] := fun hnil => h (by simp [hnil])
    simp [mem_putPeer, hne]

theorem relaySend_dispatched {α : Type} (sz : α → Nat) (cap : Nat) (st : Relay α) (k : Nat)
    (q : List α) :
    (relaySend sz cap st k q).dispatched = st.dispatched ++ [(k, sendPack sz cap q)] := rfl

theorem sendPack_ne_nil {α : Type} (sz : α → Nat) (cap : Nat) (q : List α) (hcap : 0 < cap)
    (hq : q ≠ []) : sendPack sz cap q ≠ [] :=
  fillPack_ne_nil sz cap q 0 hq hcap

/-- A send to another peer leaves what is recorded for `id` alone. -/
theorem relaySend_other {α : Type} (sz : α → Nat) (cap : Nat) (st : Relay α) (id k : Nat)
    (q : List α) (hk : k ≠ id) :
    packsTo id (relaySend sz cap st k q).dispatched = packsTo id st.dispatched ∧
    ∀ x, (id, x) ∈ (relaySend sz cap st k q).pending ↔ (id, x) ∈ st.pending := by
  refine ⟨by rw [relaySend_dispatched, packsTo_snoc, if_neg hk], fun x => ?_⟩
  rw [mem_relaySend_pending]
  constructor
  · rintro (h | h)
    · exact h.1
    · exact absurd (congrArg Prod.fst h.2).symm hk
  · intro h
    exact Or.inl ⟨h, fun heq => hk heq.symm⟩

theorem relaySend_absent {α : Type} (sz : α → Nat) (cap : Nat) (st : Relay α) (id k : Nat)
    (q : List α) (hk : k ≠ id) (h : Absent id st) :
    Absent id (relaySend sz cap st k q) ∧
    packsTo id (relaySend sz cap st k q).dispatched = packsTo id st.dispatched := by
  have ho := relaySend_other sz cap st id k q hk
  exact ⟨fun x hx => h x ((ho.2 x).mp hx), ho.1⟩

theorem afterResult_frame {α : Type} (st : Relay α) (err : Bool) :
    (afterResult st err).sending = false ∧
    (afterResult st err).outstanding = st.outstanding - 1 ∧
    (afterResult st err).dispatched = st.dispatched ∧
    ∀ e ∈ (afterResult st err).pending, e ∈ st.pending := by
  unfold afterResult
  simp only
  split
  · split
    · exact ⟨rfl, rfl, rfl, fun e he => ((mem_removePeer _ _ e).mp he).1⟩
    · exact ⟨rfl, rfl, rfl, fun e he => he⟩
  · exact ⟨rfl, rfl, rfl, fun e he => he⟩

theorem scheduleNext_absent {α : Type} (sz : α → Nat) (cap : Nat) (st : Relay α) (id r : Nat)
    (h : Absent id st) :
    Absent id (scheduleNext sz cap st r) ∧
    packsTo id (scheduleNext sz cap st r).dispatched = packsTo id st.dispatched := by
  unfold scheduleNext
  cases hp : relayPick r st.pending with
  | none => exact ⟨h, rfl⟩
  | some s =>
    have hin := relayPick_mem r st.pending s hp
    have hk : s.1 ≠ id := by
      intro heq
      apply h s.2
      rw [← heq]
      exact hin
    exact relaySend_absent sz cap st id s.1 s.2 hk h

theorem relayStep_absent {α : Type} (sz : α → Nat) (cap : Nat) (st : Relay α) (id : Nat)
    (ev : RelayEvent α) (hsp : RelayEvent.spares id ev) (h : Absent id st) :
    Absent id (relayStep sz cap st ev) ∧
    packsTo id (relayStep sz cap st ev).dispatched = packsTo id st.dispatched := by
  cases ev with
  | newPeer k txs =>
    have hk : k ≠ id := hsp
    have h1 : Absent id { st with pending := putPeer k txs st.pending } := by
      intro x hx
      rcases (mem_putPeer k txs st.pending (id, x)).mp hx with hm | hm
      · exact h x hm.1
      · exact hk (congrArg Prod.fst hm).symm
    simp only [relayStep, onNewPeer]
    split
    · exact ⟨h1, rfl⟩
    · exact relaySend_absent sz cap _ id k txs hk h1
  | done err r =>
    have hf := afterResult_frame st err
    have ha : Absent id (afterResult st err) := fun x hx => h x (hf.2.2.2 _ hx)
    have hs := scheduleNext_absent sz cap (afterResult st err) id r ha
    exact ⟨hs.1, by rw [← hf.2.2.1]; exact hs.2⟩

theorem relayRun_absent {α : Type} (sz : α → Nat) (cap : Nat) (st : Relay α) (id : Nat)
    (evs : List (RelayEvent α)) (hsp : ∀ e ∈ evs, RelayEvent.spares id e) (h : Absent id st) :
    Absent id (relayRun sz cap st evs) ∧
    packsTo id (relayRun sz cap st evs).dispatched = packsTo id st.dispatched := by
  induction evs generalizing st with
  | nil => exact ⟨h, rfl⟩
  | cons e rest ih =>
    have h1 := relayStep_absent sz cap st id e (hsp e (List.mem_cons_self _ _)) h
    have h2 := ih (relayStep sz cap st e) (fun x hx => hsp x (List.mem_cons_of_mem _ hx)) h1.1
    exact ⟨h2.1, by rw [← h1.2]; exact h2.2⟩

theorem onDone_error_absent {α : Type} (sz : α → Nat) (cap : Nat) (st : Relay α) (r id : Nat)
    (hp : st.packPeer = some id) :
    Absent id (onDone sz cap st true r) ∧
    packsTo id (onDone sz cap st true r).dispatched = packsTo id st.dispatched := by
  have ha : Absent id (afterResult st true) := by
    intro x hx
    simp only [afterResult, hp, if_true] at hx
    exact ((mem_removePeer id st.pending (id, x)).mp hx).2 rfl
  have hs := scheduleNext_absent sz cap (afterResult st true) id r ha
  exact ⟨hs.1, by rw [← (afterResult_frame st true).2.2.1]; exact hs.2⟩

theorem scheduleNext_flight {α : Type} (sz : α → Nat) (cap : Nat) (st : Relay α) (r : Nat)
    (hs : st.sending = false) (ho : st.outstanding = 0) :
    (scheduleNext sz cap st r).outstanding ≤ 1 ∧
    ((scheduleNext sz cap st r).sending = true ↔ (scheduleNext sz cap st r).outstanding = 1) ∧
    (scheduleNext sz cap st r).dispatched.length ≤ st.dispatched.length + 1 := by
  unfold scheduleNext
  cases relayPick r st.pending with
  | none => simp [hs, ho]
  | some s => simp [relaySend, ho]

/-! ### Claims on the relay loops -/

/-- C16: for every state of a relay loop (either loop: any item type, size
function and pack size) whose in-flight pack went to peer `id`, when the send
completes with an error the handler ends with no entry for `id` in the pending
map; the pack it dispatches next, if any, goes to another peer; and as long as
`id` is not enqueued again, no pack is dispatched to `id` and `id` stays out of
the map. -/
theorem send_failure_evicts_peer {α : Type} (sz : α → Nat) (cap : Nat) (st : Relay α)
    (r id : Nat) (hp : st.packPeer = some id)
    (evs : List (RelayEvent α)) (hsp : ∀ e ∈ evs, RelayEvent.spares id e) :
    Absent id (onDone sz cap st true r) ∧
    packsTo id (onDone sz cap st true r).dispatched = packsTo id st.dispatched ∧
    Absent id (relayRun sz cap (onDone sz cap st true r) evs) ∧
    packsTo id (relayRun sz cap (onDone sz cap st true r) evs).dispatched =
      packsTo id st.dispatched := by
  have h1 := onDone_error_absent sz cap st r id hp
  have h2 := relayRun_absent sz cap _ id evs hsp h1.1
  exact ⟨h1.1, h1.2, h2.1, by rw [h2.2, h1.2]⟩

/-- Witness of C16: peer 1 fails after its first pack while peer 2 waits. -/
theorem send_failure_evicts_peer_witness :
    packsTo 1 (relayRun id 100
        (onDone id 100 (relayRun id 100 Relay.init
          [RelayEvent.newPeer 1 [60, 60, 60], RelayEvent.newPeer 2 [10, 200, 5]]) true 0)
        [RelayEvent.done false 0, RelayEvent.done false 0]).dispatched =
      packsTo 1 (relayRun id 100 Relay.init
          [RelayEvent.newPeer 1 [60, 60, 60], RelayEvent.newPeer 2 [10, 200, 5]]).dispatched :=
  (send_failure_evicts_peer id 100
    (relayRun id 100 Relay.init
      [RelayEvent.newPeer 1 [60, 60, 60], RelayEvent.newPeer 2 [10, 200, 5]]) 0 1 rfl
    [RelayEvent.done false 0, RelayEvent.done false 0]
    (by
      intro e he
      simp at he
      rcases he with rfl | rfl
      all_goals trivial)).2.2.2

theorem relay_inv {α : Type} (sz : α → Nat) (cap : Nat) (st : Relay α)
    (h : RelayReachable sz cap st) :
    st.outstanding ≤ 1 ∧ (st.sending = true ↔ st.outstanding = 1) := by
  induction h with
  | init => simp [Relay.init]
  | @newPeer st0 k txs _ _ ih =>
    simp only [onNewPeer]
    by_cases hs : st0.sending = true
    · simpa [hs] using ih
    · simp only [hs]
      have h0 : st0.outstanding = 0 := by
        have h1 := ih.1
        by_contra hne
        exact hs (ih.2.mpr (by omega))
      simp [relaySend, h0]
  | @done st0 err r _ hpos ih =>
    have hf := afterResult_frame st0 err
    have h1 := ih.1
    have hfl := scheduleNext_flight sz cap (afterResult st0 err) r hf.1 (by rw [hf.2.1]; omega)
    exact ⟨hfl.1, hfl.2.1⟩

/-- C17: in every reachable state of a relay loop at most one send is
outstanding, and the `sending` flag is true exactly when one is.  A new-peer
event arriving while `sending` is true only enqueues; one arriving while it is
false enqueues and dispatches one pack; a completion clears the flag and
dispatches at most one pack.  So `send` runs only with the flag false and no
send outstanding. -/
theorem relay_single_flight {α : Type} (sz : α → Nat) (cap : Nat) (st : Relay α)
    (h : RelayReachable sz cap st) :
    st.outstanding ≤ 1 ∧ (st.sending = true ↔ st.outstanding = 1) ∧
    (∀ (k : Nat) (txs : List α), st.sending = true →
      onNewPeer sz cap st k txs = { st with pending := putPeer k txs st.pending }) ∧
    (∀ (k : Nat) (txs : List α), st.sending = false →
      onNewPeer sz cap st k txs =
        relaySend sz cap { st with pending := putPeer k txs st.pending } k txs ∧
      st.outstanding = 0) ∧
    (∀ (err : Bool) (r : Nat), 0 < st.outstanding →
      (onDone sz cap st err r).outstanding ≤ 1 ∧
      ((onDone sz cap st err r).sending = true ↔ (onDone sz cap st err r).outstanding = 1) ∧
      (onDone sz cap st err r).dispatched.length ≤ st.dispatched.length + 1) := by
  have hi := relay_inv sz cap st h
  refine ⟨hi.1, hi.2, fun k txs hs => ?_, fun k txs hs => ⟨?_, ?_⟩, fun err r hpos => ?_⟩
  · simp [onNewPeer, hs]
  · simp [onNewPeer, hs]
  · have := hi.1
    by_contra hne
    have h1 : st.outstanding = 1 := by omega
    rw [hi.2.mpr h1] at hs
    exact absurd hs (by simp)
  · have hf := afterResult_frame st err
    have hfl := scheduleNext_flight sz cap (afterResult st err) r hf.1 (by rw [hf.2.1]; omega)
    exact ⟨hfl.1, hfl.2.1, by rw [← hf.2.2.1]; exact hfl.2.2⟩

/-- Witness of C17: the loop after two peers have joined. -/
theorem relay_single_flight_witness :
    (relayRun id 100 Relay.init
      [RelayEvent.newPeer 1 [60, 60, 60], RelayEvent.newPeer 2 [10, 200, 5]]).outstanding ≤ 1 :=
  (relay_single_flight id 100 _
    (RelayReachable.newPeer 2 [10, 200, 5]
      (RelayReachable.newPeer 1 [60, 60, 60] RelayReachable.init (by simp)) (by simp))).1

/-- C19: for every queue `q` handled by one send step (either loop, the pack
size being positive): the pack is an initial part of `q`, the queue left is the
rest in the original order (`pack ++ rest = q`), the pack is non-empty whenever
`q` is, the pack is the one dispatched, and the peer has no entry in the pending
map afterwards exactly when the rest is empty; when it is not, its one entry is
the rest. -/
theorem send_step_splits_queue {α : Type} (sz : α → Nat) (cap : Nat) (hcap : 0 < cap)
    (st : Relay α) (k : Nat) (q : List α) :
    sendPack sz cap q <+: q ∧
    sendPack sz cap q ++ sendRest sz cap q = q ∧
    (q ≠ [] → sendPack sz cap q ≠ []) ∧
    (relaySend sz cap st k q).packItems = sendPack sz cap q ∧
    (relaySend sz cap st k q).dispatched = st.dispatched ++ [(k, sendPack sz cap q)] ∧
    (Absent k (relaySend sz cap st k q) ↔ sendRest sz cap q = []) ∧
    (sendRest sz cap q ≠ [] →
      ∀ x, (k, x) ∈ (relaySend sz cap st k q).pending ↔ x = sendRest sz cap q) := by
  have hmem : ∀ x, (k, x) ∈ (relaySend sz cap st k q).pending ↔
      (sendRest sz cap q ≠ [] ∧ x = sendRest sz cap q) := by
    intro x
    rw [mem_relaySend_pending]
    constructor
    · rintro (h | h)
      · exact absurd rfl h.2
      · exact ⟨h.1, by simpa using h.2⟩
    · rintro ⟨h1, h2⟩
      exact Or.inr ⟨h1, by rw [h2]⟩
  refine ⟨fillPack_initial sz cap q 0, sendPack_append_rest sz cap q,
    sendPack_ne_nil sz cap q hcap, rfl, rfl, ?_, ?_⟩
  · constructor
    · intro ha
      by_contra hne
      exact ha _ ((hmem _).mpr ⟨hne, rfl⟩)
    · intro hnil x hx
      exact ((hmem x).mp hx).1 hnil
  · intro hne x
    rw [hmem]
    exact ⟨fun hx => hx.2, fun hx => ⟨hne, hx⟩⟩

/-- Witness of C19: the pack sizes of the two loops are positive. -/
theorem send_step_splits_queue_witness :
    sendPack id txsyncPackSize [61440, 61440, 61440] ++
        sendRest id txsyncPackSize [61440, 61440, 61440] = [61440, 61440, 61440] ∧
    sendPack id fruitsyncPackSize [7] ++ sendRest id fruitsyncPackSize [7] = [7] :=
  ⟨(send_step_splits_queue id txsyncPackSize (by decide) Relay.init 1 [61440, 61440, 61440]).2.1,
    (send_step_splits_queue id fruitsyncPackSize (by decide) Relay.init 1 [7]).2.1⟩

/-! ### Lemmas on the order of the packs sent to a peer -/

theorem length_le_flatten {α : Type} (packs : List (List α)) (h : ∀ p ∈ packs, p ≠ []) :
    packs.length ≤ packs.flatten.length := by
  induction packs with
  | nil => simp
  | cons p rest ih =>
    have hp : 0 < p.length := List.length_pos.mpr (h p (List.mem_cons_self _ _))
    have hr := ih (fun x hx => h x (List.mem_cons_of_mem _ hx))
    simp only [List.length_cons, List.flatten_cons, List.length_append]
    omega

/-- A send to another peer, or to `id` with a queue the map holds for it, keeps
the packs of `id` in step with its snapshot. -/
theorem relaySend_tracks {α : Type} (sz : α → Nat) (cap : Nat) (hcap : 0 < cap) (st : Relay α)
    (id k : Nat) (q snap : List α) (h : Tracks id snap st)
    (hq : k = id → (id, q) ∈ st.pending) : Tracks id snap (relaySend sz cap st k q) := by
  by_cases hk : k = id
  · subst hk
    obtain ⟨_, hne, hmem⟩ := h
    obtain ⟨hsnap, hqne⟩ := hmem q (hq rfl)
    have hsplit := sendPack_append_rest sz cap q
    have hflat : (packsTo k (relaySend sz cap st k q).dispatched).flatten =
        (packsTo k st.dispatched).flatten ++ sendPack sz cap q := by
      rw [relaySend_dispatched, packsTo_snoc, if_pos rfl]
      simp [List.flatten_append]
    have hall : (packsTo k st.dispatched).flatten ++ sendPack sz cap q ++ sendRest sz cap q = snap := by
      rw [List.append_assoc, hsplit]
      exact hsnap
    refine ⟨?_, ?_, ?_⟩
    · rw [hflat]
      exact ⟨sendRest sz cap q, hall⟩
    · intro p hp
      rw [relaySend_dispatched, packsTo_snoc, if_pos rfl] at hp
      rcases List.mem_append.mp hp with hp | hp
      · exact hne p hp
      · rw [List.mem_singleton.mp hp]
        exact sendPack_ne_nil sz cap q hcap hqne
    · intro x hx
      rcases (mem_relaySend_pending sz cap st k q (k, x)).mp hx with hx | hx
      · exact absurd rfl hx.2
      · have hxe : x = sendRest sz cap q := by simpa using hx.2
        rw [hflat, hxe]
        exact ⟨hall, hx.1⟩
  · have ho := relaySend_other sz cap st id k q hk
    obtain ⟨hpre, hne, hmem⟩ := h
    refine ⟨by rw [ho.1]; exact hpre, by rw [ho.1]; exact hne, fun x hx => ?_⟩
    rw [ho.1]
    exact hmem x ((ho.2 x).mp hx)

theorem relayStep_tracks {α : Type} (sz : α → Nat) (cap : Nat) (hcap : 0 < cap) (st : Relay α)
    (id : Nat) (snap : List α) (ev : RelayEvent α) (hsp : RelayEvent.spares id ev)
    (h : Tracks id snap st) : Tracks id snap (relayStep sz cap st ev) := by
  cases ev with
  | newPeer k txs =>
    have hk : k ≠ id := hsp
    have h1 : Tracks id snap { st with pending := putPeer k txs st.pending } := by
      refine ⟨h.1, h.2.1, fun x hx => ?_⟩
      rcases (mem_putPeer k txs st.pending (id, x)).mp hx with hm | hm
      · exact h.2.2 x hm.1
      · exact absurd (congrArg Prod.fst hm).symm hk
    simp only [relayStep, onNewPeer]
    split
    · exact h1
    · exact relaySend_tracks sz cap hcap _ id k txs snap h1 (fun heq => absurd heq hk)
  | done err r =>
    have hf := afterResult_frame st err
    have h1 : Tracks id snap (afterResult st err) := by
      refine ⟨by rw [hf.2.2.1]; exact h.1, by rw [hf.2.2.1]; exact h.2.1, fun x hx => ?_⟩
      rw [hf.2.2.1]
      exact h.2.2 x (hf.2.2.2 _ hx)
    simp only [relayStep, onDone, scheduleNext]
    cases hp : relayPick r (afterResult st err).pending with
    | none => exact h1
    | some s =>
      have hin := relayPick_mem r _ s hp
      apply relaySend_tracks sz cap hcap _ id s.1 s.2 snap h1
      intro heq
      rw [← heq]
      exact hin

theorem relayRun_tracks {α : Type} (sz : α → Nat) (cap : Nat) (hcap : 0 < cap) (st : Relay α)
    (id : Nat) (snap : List α) (evs : List (RelayEvent α))
    (hsp : ∀ e ∈ evs, RelayEvent.spares id e) (h : Tracks id snap st) :
    Tracks id snap (relayRun sz cap st evs) := by
  induction evs generalizing st with
  | nil => exact h
  | cons e rest ih =>
    exact ih (relayStep sz cap st e) (fun x hx => hsp x (List.mem_cons_of_mem _ hx))
      (relayStep_tracks sz cap hcap st id snap e (hsp e (List.mem_cons_self _ _)) h)

theorem onNewPeer_tracks {α : Type} (sz : α → Nat) (cap : Nat) (hcap : 0 < cap) (st : Relay α)
    (id : Nat) (snap : List α) (hsnap : snap ≠ []) (hfresh : packsTo id st.dispatched = []) :
    Tracks id snap (onNewPeer sz cap st id snap) := by
  have h1 : Tracks id snap { st with pending := putPeer id snap st.pending } := by
    refine ⟨by simp [hfresh], by simp [hfresh], fun x hx => ?_⟩
    rcases (mem_putPeer id snap st.pending (id, x)).mp hx with hm | hm
    · exact absurd rfl hm.2
    · have hxe : x = snap := by simpa using hm
      simp [hfresh, hxe, hsnap]
  have hin : (id, snap) ∈ putPeer id snap st.pending :=
    (mem_putPeer id snap st.pending (id, snap)).mpr (Or.inr rfl)
  simp only [onNewPeer]
  split
  · exact h1
  · exact relaySend_tracks sz cap hcap _ id id snap snap h1 (fun _ => hin)

theorem relayRun_append {α : Type} (sz : α → Nat) (cap : Nat) (st : Relay α)
    (xs ys : List (RelayEvent α)) :
    relayRun sz cap st (xs ++ ys) = relayRun sz cap (relayRun sz cap st xs) ys := by
  simp [relayRun, List.foldl_append]

/-- C18: for every run of a relay loop from its start in which peer `id` is
enqueued once, with the non-empty snapshot `snap` (the events before and after
do not enqueue `id`; the pack size is positive): at the end of the run, the
packs dispatched to `id`, concatenated in send order, are an initial part of
`snap`; any queue the pending map holds for `id` is non-empty and is exactly the
rest of `snap`; every pack sent to `id` is non-empty, so that at most
`len(snap)` packs are sent to it. -/
theorem relay_sends_in_order {α : Type} (sz : α → Nat) (cap : Nat) (hcap : 0 < cap)
    (id : Nat) (snap : List α) (hsnap : snap ≠ [])
    (before after : List (RelayEvent α))
    (hb : ∀ e ∈ before, RelayEvent.spares id e) (ha : ∀ e ∈ after, RelayEvent.spares id e) :
    (packsTo id (relayRun sz cap Relay.init
        (before ++ RelayEvent.newPeer id snap :: after)).dispatched).flatten <+: snap ∧
    (∀ q, (id, q) ∈ (relayRun sz cap Relay.init
        (before ++ RelayEvent.newPeer id snap :: after)).pending →
      (packsTo id (relayRun sz cap Relay.init
        (before ++ RelayEvent.newPeer id snap :: after)).dispatched).flatten ++ q = snap ∧
      q ≠ []) ∧
    (∀ p ∈ packsTo id (relayRun sz cap Relay.init
        (before ++ RelayEvent.newPeer id snap :: after)).dispatched, p ≠ []) ∧
    (packsTo id (relayRun sz cap Relay.init
        (before ++ RelayEvent.newPeer id snap :: after)).dispatched).length ≤ snap.length := by
  have h0 : Absent id (Relay.init : Relay α) := by
    intro q hq
    simp [Relay.init] at hq
  have h1 := relayRun_absent sz cap Relay.init id before hb h0
  have hfresh : packsTo id (relayRun sz cap Relay.init before).dispatched = [] := by
    rw [h1.2]
    rfl
  have h2 := onNewPeer_tracks sz cap hcap (relayRun sz cap Relay.init before) id snap hsnap hfresh
  have h3 := relayRun_tracks sz cap hcap _ id snap after ha h2
  have hrun : relayRun sz cap Relay.init (before ++ RelayEvent.newPeer id snap :: after) =
      relayRun sz cap (onNewPeer sz cap (relayRun sz cap Relay.init before) id snap) after := by
    rw [relayRun_append]
    rfl
  rw [hrun]
  refine ⟨h3.1, h3.2.2, h3.2.1, ?_⟩
  exact le_trans (length_le_flatten _ h3.2.1) h3.1.length_le

/-- Witness of C18: peer 1 joins with three items while peer 2 is being served. -/
theorem relay_sends_in_order_witness :
    (packsTo 1 (relayRun id 100 Relay.init
        ([RelayEvent.newPeer 2 [10, 200, 5]] ++ RelayEvent.newPeer 1 [60, 60, 60] ::
          [RelayEvent.done false 1, RelayEvent.done false 0])).dispatched).length ≤ 3 :=
  (relay_sends_in_order id 100 (by decide) 1 [60, 60, 60] (by simp)
    [RelayEvent.newPeer 2 [10, 200, 5]] [RelayEvent.done false 1, RelayEvent.done false 0]
    (by
      intro e he
      simp at he
      subst he
      show (2 : Nat) ≠ 1
      decide)
    (by
      intro e he
      simp at he
      rcases he with rfl | rfl
      all_goals trivial)).2.2.2

/-! ### Claims on the hash cache of a block -/

/-- C20, evaluated where the code departs from it: a block built from header `h`
whose hash has been read, and into which a block with header `eb.Header` is then
decoded, has `eb.Header` as its header but still answers `Hash()` with the hash
of the copy of `h`: `DecodeRLP` stores the new size and leaves the hash cache as
it was.  Whenever the two headers hash differently, `Hash()` is not the hash of
the block's current header. -/
theorem hash_stale_after_DecodeRLP (rlpHash : Header → Nat) (h : Header) (eb : ExtBlock)
    (listSize : Nat) :
    Block.header (Block.DecodeRLP (Block.Hash rlpHash (NewBlockWithHeader h)).2
      (some (eb, listSize))).1 = eb.Header ∧
    (Block.DecodeRLP (Block.Hash rlpHash (NewBlockWithHeader h)).2
      (some (eb, listSize))).2 = false ∧
    Block.sizeCache (Block.DecodeRLP (Block.Hash rlpHash (NewBlockWithHeader h)).2
      (some (eb, listSize))).1 = some listSize ∧
    (Block.Hash rlpHash (Block.DecodeRLP (Block.Hash rlpHash (NewBlockWithHeader h)).2
      (some (eb, listSize))).1).1 = rlpHash (CopyHeader h) ∧
    (rlpHash (CopyHeader h) ≠ rlpHash eb.Header →
      (Block.Hash rlpHash (Block.DecodeRLP (Block.Hash rlpHash (NewBlockWithHeader h)).2
        (some (eb, listSize))).1).1 ≠
      rlpHash (Block.header (Block.DecodeRLP (Block.Hash rlpHash (NewBlockWithHeader h)).2
        (some (eb, listSize))).1)) :=
  ⟨rfl, rfl, rfl, rfl, fun hne => hne⟩

/-! ### Claims on blocks built from blocks -/

theorem CopyHeader_of_bigsSet (h : Header) (hs : Header.bigsSet h) : CopyHeader h = h := by
  obtain ⟨h1, h2, h3, h4⟩ := hs
  cases h with
  | mk ph pt fh rh rn fr uh cb rt th rch bl df nb gl gu tm ex md nc =>
    simp only [Header.bigsSet] at h1 h2 h3 h4
    cases rn <;> cases df <;> cases nb <;> cases tm <;> simp_all [CopyHeader]

/-- C21: for every block `b`, whatever its caches hold, every header `h` and
every lists of transactions and uncles: the blocks returned by `b.WithSeal(h)`
and `b.WithBody(txs, uncles)` have empty hash and size caches; `Hash()` of the
first is the hash of `h`; `Hash()` of the second is the hash of the copy that
`CopyHeader` makes of `b`'s header, which is the hash of `b`'s header when its
four big integers are set (the copy then equals it), and whenever the hash does
not tell a nil big integer from zero. -/
theorem fresh_caches_after_WithSeal_WithBody (rlpHash : Header → Nat) (b : Block) (h : Header)
    (txs : List Nat) (uncles : List Header) :
    Block.hashCache (Block.WithSeal b h) = none ∧ Block.sizeCache (Block.WithSeal b h) = none ∧
    Block.hashCache (Block.WithBody b txs uncles) = none ∧
    Block.sizeCache (Block.WithBody b txs uncles) = none ∧
    (Block.Hash rlpHash (Block.WithSeal b h)).1 = rlpHash h ∧
    (Block.Hash rlpHash (Block.WithBody b txs uncles)).1 = rlpHash (CopyHeader (Block.header b)) ∧
    (Header.bigsSet (Block.header b) →
      (Block.Hash rlpHash (Block.WithBody b txs uncles)).1 = rlpHash (Block.header b)) ∧
    (rlpHash (CopyHeader (Block.header b)) = rlpHash (Block.header b) →
      (Block.Hash rlpHash (Block.WithBody b txs uncles)).1 = rlpHash (Block.header b)) := by
  have hseal : Block.hashCache (Block.WithSeal b h) = none ∧
      Block.sizeCache (Block.WithSeal b h) = none ∧
      (Block.Hash rlpHash (Block.WithSeal b h)).1 = rlpHash h := by
    unfold Block.WithSeal
    split <;> exact ⟨rfl, rfl, rfl⟩
  refine ⟨hseal.1, hseal.2.1, rfl, rfl, hseal.2.2, rfl, fun hs => ?_, fun he => ?_⟩
  · show rlpHash (CopyHeader (Block.header b)) = rlpHash (Block.header b)
    rw [CopyHeader_of_bigsSet _ hs]
  · exact he

/-- C22: for every block `b` and header `h`, the header of `b.WithSeal(h)`
equals `h`; when `h.Fruit` is true the new block carries `b`'s transactions, no
fruits and no uncles; when `h.Fruit` is false it carries `b`'s fruits and uncles
and no transactions. -/
theorem WithSeal_contract (b : Block) (h : Header) :
    Block.header (Block.WithSeal b h) = h ∧
    (h.Fruit = true →
      Block.transactions (Block.WithSeal b h) = Block.transactions b ∧
      Block.fruits (Block.WithSeal b h) = [] ∧ Block.uncles (Block.WithSeal b h) = []) ∧
    (h.Fruit = false →
      Block.fruits (Block.WithSeal b h) = Block.fruits b ∧
      Block.uncles (Block.WithSeal b h) = Block.uncles b ∧
      Block.transactions (Block.WithSeal b h) = []) := by
  unfold Block.WithSeal
  cases hf : h.Fruit <;> simp [Block.header, Block.transactions, Block.fruits, Block.uncles]

/-- C25, evaluated where the code departs from it: with an empty list of
receipts, `NewBlock` sets `ReceiptHash` to `EmptyRootHash` and leaves `Bloom` as
the input header has it, so two input headers that differ only in `Bloom` give
blocks whose headers differ.  `TxHash`, `UncleHash` and `ReceiptHash` are the
derived values, and with receipts `Bloom` is `CreateBloom(receipts)`. -/
theorem NewBlock_keeps_Bloom_without_receipts (k : Roots) (h : Header) (txs : List Nat)
    (uncles : List Header) (receipts : List Nat) (fruits : List Block) (bloom : Nat) :
    (Block.header (NewBlock k h txs uncles [] fruits)).Bloom = h.Bloom ∧
    (bloom ≠ h.Bloom →
      Block.header (NewBlock k { h with Bloom := bloom } txs uncles [] fruits) ≠
        Block.header (NewBlock k h txs uncles [] fruits)) ∧
    (Block.header (NewBlock k h txs uncles receipts fruits)).TxHash =
      k.DeriveSha (txs.map k.txRlp) ∧
    (Block.header (NewBlock k h txs uncles receipts fruits)).UncleHash = k.CalcUncleHash uncles ∧
    (Block.header (NewBlock k h txs uncles receipts fruits)).ReceiptHash =
      k.DeriveSha (receipts.map k.receiptRlp) ∧
    (receipts ≠ [] →
      (Block.header (NewBlock k h txs uncles receipts fruits)).Bloom = k.CreateBloom receipts) := by
  have hb : ∀ h' : Header, (Block.header (NewBlock k h' txs uncles [] fruits)).Bloom = h'.Bloom := by
    intro h'
    simp only [NewBlock, Block.header, List.length_nil, if_true]
    split_ifs <;> rfl
  refine ⟨hb h, fun hne heq => ?_, ?_, ?_, ?_, fun hr => ?_⟩
  · have h1 := hb { h with Bloom := bloom }
    rw [heq, hb h] at h1
    exact hne h1.symm
  · simp only [NewBlock, Block.header]
    cases txs <;> split_ifs <;> simp_all [EmptyRootHash]
  · simp only [NewBlock, Block.header]
    cases uncles <;> split_ifs <;> simp_all [EmptyUncleHash]
  · simp only [NewBlock, Block.header]
    cases receipts <;> split_ifs <;> simp_all [EmptyRootHash]
  · simp only [NewBlock, Block.header]
    cases receipts with
    | nil => exact absurd rfl hr
    | cons r rs => split_ifs <;> simp_all

/-- C26: for every byte string `e`, `SetExtra(e)` returns an error exactly when
`len(e)` exceeds `params.MaximumExtraDataSize`; on error the miner and its
worker are left as they were (no call reaches the worker), and otherwise
`worker.setExtra(e)` is called and nil is returned. -/
theorem SetExtra_contract (maximumExtraDataSize : Nat) (self : Miner) (e : List Nat) :
    ((SetExtra maximumExtraDataSize self e).2 = true ↔ e.length > maximumExtraDataSize) ∧
    (e.length > maximumExtraDataSize → (SetExtra maximumExtraDataSize self e).1 = self) ∧
    (¬ e.length > maximumExtraDataSize →
      (SetExtra maximumExtraDataSize self e).2 = false ∧
      (SetExtra maximumExtraDataSize self e).1.worker = self.worker ++ [WorkerCall.setExtra e]) := by
  unfold SetExtra
  by_cases h : e.length > maximumExtraDataSize <;> simp [h]

/-- C28: two headers that agree on the seventeen fields `HashNoNonce` lists have
the same `HashNoNonce`, whatever their `Nonce`, `MixDigest` and `Fruit` flag;
and `Block.HashNoNonce` is `HashNoNonce` of the block's header. -/
theorem HashNoNonce_ignores_seal (rlpHash : List RlpItem → Nat) (h1 h2 : Header) (b : Block)
    (hParent : h1.ParentHash = h2.ParentHash) (hPointer : h1.PointerHash = h2.PointerHash)
    (hFruits : h1.FruitsHash = h2.FruitsHash) (hRecord : h1.RecordHash = h2.RecordHash)
    (hRecordNumber : h1.RecordNumber = h2.RecordNumber) (hUncle : h1.UncleHash = h2.UncleHash)
    (hCoinbase : h1.Coinbase = h2.Coinbase) (hRoot : h1.Root = h2.Root)
    (hTx : h1.TxHash = h2.TxHash) (hReceipt : h1.ReceiptHash = h2.ReceiptHash)
    (hBloom : h1.Bloom = h2.Bloom) (hDifficulty : h1.Difficulty = h2.Difficulty)
    (hNumber : h1.Number = h2.Number) (hGasLimit : h1.GasLimit = h2.GasLimit)
    (hGasUsed : h1.GasUsed = h2.GasUsed) (hTime : h1.Time = h2.Time)
    (hExtra : h1.Extra = h2.Extra) :
    Header.HashNoNonce rlpHash h1 = Header.HashNoNonce rlpHash h2 ∧
    Block.HashNoNonce rlpHash b = Header.HashNoNonce rlpHash (Block.header b) := by
  refine ⟨?_, rfl⟩
  unfold Header.HashNoNonce
  rw [hParent, hPointer, hFruits, hRecord, hRecordNumber, hUncle, hCoinbase, hRoot, hTx, hReceipt,
    hBloom, hDifficulty, hNumber, hGasLimit, hGasUsed, hTime, hExtra]

/-- A header to try the hash functions on. -/
theorem HashNoNonce_ignores_seal_witness :
    Header.HashNoNonce (fun items => items.length)
        ⟨1, 2, 3, 4, some 5, false, 6, ⟨7⟩, 8, 9, 10, 11, some 12, some 13, 14, 15, some 16, [17],
          18, [0, 0, 0, 0, 0, 0, 0, 1]⟩ =
      Header.HashNoNonce (fun items => items.length)
        ⟨1, 2, 3, 4, some 5, true, 6, ⟨7⟩, 8, 9, 10, 11, some 12, some 13, 14, 15, some 16, [17],
          99, [0, 0, 0, 0, 0, 0, 0, 2]⟩ :=
  (HashNoNonce_ignores_seal (fun items => items.length)
    ⟨1, 2, 3, 4, some 5, false, 6, ⟨7⟩, 8, 9, 10, 11, some 12, some 13, 14, 15, some 16, [17],
      18, [0, 0, 0, 0, 0, 0, 0, 1]⟩
    ⟨1, 2, 3, 4, some 5, true, 6, ⟨7⟩, 8, 9, 10, 11, some 12, some 13, 14, 15, some 16, [17],
      99, [0, 0, 0, 0, 0, 0, 0, 2]⟩
    (NewBlockWithHeader ⟨1, 2, 3, 4, some 5, false, 6, ⟨7⟩, 8, 9, 10, 11, some 12, some 13, 14, 15,
      some 16, [17], 18, [0, 0, 0, 0, 0, 0, 0, 1]⟩)
    rfl rfl rfl rfl rfl rfl rfl rfl rfl rfl rfl rfl rfl rfl rfl rfl rfl).1

/-! ### Claims on the nonce, the ordering and the pack -/

theorem Uint64_EncodeNonce (i : Nat) (hi : i < 2 ^ 64) : BlockNonce.Uint64 (EncodeNonce i) = i := by
  simp only [EncodeNonce, BlockNonce.Uint64, List.foldl]
  omega

theorem EncodeNonce_Uint64 (n : List Nat) (hn : isBlockNonce n) :
    EncodeNonce (BlockNonce.Uint64 n) = n := by
  obtain ⟨hlen, hb⟩ := hn
  match n, hlen with
  | [b0, b1, b2, b3, b4, b5, b6, b7], _ =>
    have h0 := hb b0 (by simp)
    have h1 := hb b1 (by simp)
    have h2 := hb b2 (by simp)
    have h3 := hb b3 (by simp)
    have h4 := hb b4 (by simp)
    have h5 := hb b5 (by simp)
    have h6 := hb b6 (by simp)
    have h7 := hb b7 (by simp)
    simp only [EncodeNonce, BlockNonce.Uint64, List.foldl, List.cons.injEq, and_true]
    refine ⟨?_, ?_, ?_, ?_, ?_, ?_, ?_, ?_⟩ <;> omega

/-- C29: for every `uint64` `i`, `EncodeNonce(i).Uint64() = i`; `EncodeNonce(i)`
is a nonce of 8 bytes, the byte at index `k` being `i / 256 ^ (7 - k) % 256`
(big-endian); for every 8-byte nonce `n`, `EncodeNonce(n.Uint64()) = n`; and
`Block.Nonce()` is `Uint64()` of the nonce of the block's header. -/
theorem nonce_round_trip (i : Nat) (hi : i < 2 ^ 64) (n : List Nat) (hn : isBlockNonce n)
    (b : Block) :
    BlockNonce.Uint64 (EncodeNonce i) = i ∧
    isBlockNonce (EncodeNonce i) ∧
    (∀ k, k < 8 → (EncodeNonce i).get? k = some (i / 256 ^ (7 - k) % 256)) ∧
    EncodeNonce (BlockNonce.Uint64 n) = n ∧
    BlockNonce.Uint64 n < 2 ^ 64 ∧
    Block.Nonce b = BlockNonce.Uint64 (Block.header b).Nonce := by
  refine ⟨Uint64_EncodeNonce i hi, ⟨rfl, ?_⟩, ?_, EncodeNonce_Uint64 n hn, ?_, rfl⟩
  · intro x hx
    simp only [EncodeNonce, List.mem_cons, List.mem_singleton, List.not_mem_nil, or_false] at hx
    rcases hx with h | h | h | h | h | h | h | h <;> omega
  · intro k hk
    have hcases : k = 0 ∨ k = 1 ∨ k = 2 ∨ k = 3 ∨ k = 4 ∨ k = 5 ∨ k = 6 ∨ k = 7 := by omega
    rcases hcases with h | h | h | h | h | h | h | h <;> subst h <;> simp [EncodeNonce]
  · have := Uint64_EncodeNonce (BlockNonce.Uint64 n)
    obtain ⟨hlen, hb⟩ := hn
    match n, hlen with
    | [b0, b1, b2, b3, b4, b5, b6, b7], _ =>
      have h0 := hb b0 (by simp)
      have h1 := hb b1 (by simp)
      have h2 := hb b2 (by simp)
      have h3 := hb b3 (by simp)
      have h4 := hb b4 (by simp)
      have h5 := hb b5 (by simp)
      have h6 := hb b6 (by simp)
      have h7 := hb b7 (by simp)
      simp only [BlockNonce.Uint64, List.foldl]
      omega

/-- Witness of C29: the nonce of 258. -/
theorem nonce_round_trip_witness :
    BlockNonce.Uint64 (EncodeNonce 258) = 258 ∧
    EncodeNonce (BlockNonce.Uint64 [0, 0, 0, 0, 0, 0, 1, 2]) = [0, 0, 0, 0, 0, 0, 1, 2] :=
  have h := nonce_round_trip 258 (by decide) [0, 0, 0, 0, 0, 0, 1, 2]
    ⟨rfl, by decide⟩ (NewBlockWithHeader
      ⟨1, 2, 3, 4, some 5, false, 6, ⟨7⟩, 8, 9, 10, 11, some 12, some 13, 14, 15, some 16, [17],
        18, [0, 0, 0, 0, 0, 0, 0, 1]⟩)
  ⟨h.1, h.2.2.2.1⟩

theorem totalSize_append {α : Type} (sz : α → Nat) (xs ys : List α) :
    totalSize sz (xs ++ ys) = totalSize sz xs + totalSize sz ys := by
  simp [totalSize]

theorem fillPack_whole {α : Type} (sz : α → Nat) (cap : Nat) (q : List α) (acc : Nat)
    (h : acc + totalSize sz q < cap) : fillPack sz cap q acc = q := by
  induction q generalizing acc with
  | nil => rfl
  | cons x xs ih =>
    simp only [totalSize, List.map_cons, List.sum_cons] at h
    have hacc : acc < cap := by omega
    simp only [fillPack, hacc, if_true, List.cons.injEq, true_and]
    apply ih
    simp only [totalSize]
    omega

theorem sendPack_shortest {α : Type} (sz : α → Nat) (cap : Nat) (hcap : 0 < cap) (q : List α)
    (hq : q ≠ []) :
    sendPack sz cap q <+: q ∧ sendPack sz cap q ≠ [] ∧
    (∀ p, p <+: sendPack sz cap q → p ≠ sendPack sz cap q → totalSize sz p < cap) ∧
    (totalSize sz q < cap → sendPack sz cap q = q) ∧
    (cap ≤ totalSize sz q → cap ≤ totalSize sz (sendPack sz cap q)) ∧
    (∀ last, (sendPack sz cap q).getLast? = some last →
      totalSize sz (sendPack sz cap q) < cap + sz last) := by
  have hdrop : totalSize sz (sendPack sz cap q).dropLast < cap := by
    simpa using fillPack_dropLast_lt sz cap q 0 hcap
  refine ⟨fillPack_initial sz cap q 0, sendPack_ne_nil sz cap q hcap hq, ?_, ?_, ?_, ?_⟩
  · rintro p ⟨t, ht⟩ hne
    have htne : t ≠ [] := by
      rintro rfl
      exact hne (by simpa using ht)
    rw [← ht, List.dropLast_append_of_ne_nil _ htne, totalSize_append] at hdrop
    omega
  · intro hlt
    exact fillPack_whole sz cap q 0 (by omega)
  · intro hle
    simpa using fillPack_reaches sz cap q 0 (by omega)
  · intro last hlast
    have hsplit : sendPack sz cap q = (sendPack sz cap q).dropLast ++ [last] :=
      (List.dropLast_append_getLast? last hlast).symm
    have htot : totalSize sz (sendPack sz cap q) =
        totalSize sz (sendPack sz cap q).dropLast + sz last := by
      conv_lhs => rw [hsplit]
      rw [totalSize_append]
      simp [totalSize]
    omega

/-- C30: for every non-empty peer queue and the pack size of 100*1024 bytes of
either loop, the pack built by the send step is an initial part of the queue
that is not empty; every shorter initial part of the pack has a total size
below the pack size; the pack is the whole queue when the total size of the
queue is below the pack size, and reaches the pack size when the queue does; so
it is the shortest initial part of the queue that reaches the pack size, or the
whole queue, and its total size is less than the pack size plus the size of its
last item. -/
theorem pack_is_shortest_reaching_cap {α : Type} (sz : α → Nat) (q : List α) (hq : q ≠ []) :
    (sendPack sz txsyncPackSize q <+: q ∧ sendPack sz txsyncPackSize q ≠ [] ∧
      (∀ p, p <+: sendPack sz txsyncPackSize q → p ≠ sendPack sz txsyncPackSize q →
        totalSize sz p < txsyncPackSize) ∧
      (totalSize sz q < txsyncPackSize → sendPack sz txsyncPackSize q = q) ∧
      (txsyncPackSize ≤ totalSize sz q →
        txsyncPackSize ≤ totalSize sz (sendPack sz txsyncPackSize q)) ∧
      (∀ last, (sendPack sz txsyncPackSize q).getLast? = some last →
        totalSize sz (sendPack sz txsyncPackSize q) < txsyncPackSize + sz last)) ∧
    (sendPack sz fruitsyncPackSize q <+: q ∧ sendPack sz fruitsyncPackSize q ≠ [] ∧
      (∀ p, p <+: sendPack sz fruitsyncPackSize q → p ≠ sendPack sz fruitsyncPackSize q →
        totalSize sz p < fruitsyncPackSize) ∧
      (totalSize sz q < fruitsyncPackSize → sendPack sz fruitsyncPackSize q = q) ∧
      (fruitsyncPackSize ≤ totalSize sz q →
        fruitsyncPackSize ≤ totalSize sz (sendPack sz fruitsyncPackSize q)) ∧
      (∀ last, (sendPack sz fruitsyncPackSize q).getLast? = some last →
        totalSize sz (sendPack sz fruitsyncPackSize q) < fruitsyncPackSize + sz last)) :=
  ⟨sendPack_shortest sz txsyncPackSize (by decide) q hq,
    sendPack_shortest sz fruitsyncPackSize (by decide) q hq⟩

/-- Witness of C30: three items of 61440 bytes. -/
theorem pack_is_shortest_reaching_cap_witness :
    totalSize id (sendPack id txsyncPackSize [61440, 61440, 61440]) < txsyncPackSize + 61440 :=
  (pack_is_shortest_reaching_cap id [61440, 61440, 61440] (by simp)).1.2.2.2.2.2 61440
    (by decide)

theorem swap_head_perm {α : Type} (t : List α) (j : Nat) (a y : α) (h : t.get? j = some y) :
    (y :: t.set j a).Perm (a :: t) := by
  induction t generalizing j with
  | nil => simp at h
  | cons b rest ih =>
    cases j with
    | zero =>
      simp only [List.get?_cons_zero, Option.some.injEq] at h
      subst h
      exact List.Perm.swap _ _ _
    | succ k =>
      simp only [List.get?_cons_succ] at h
      have h1 : (y :: b :: rest.set k a).Perm (b :: y :: rest.set k a) := List.Perm.swap _ _ _
      have h2 : (b :: y :: rest.set k a).Perm (b :: a :: rest) := List.Perm.cons b (ih k h)
      have h3 : (b :: a :: rest).Perm (a :: b :: rest) := List.Perm.swap _ _ _
      exact (h1.trans h2).trans h3

theorem set_set_perm {α : Type} (l : List α) (i j : Nat) (x y : α)
    (hi : l.get? i = some x) (hj : l.get? j = some y) : ((l.set i y).set j x).Perm l := by
  induction l generalizing i j with
  | nil => simp at hi
  | cons a t ih =>
    cases i with
    | zero =>
      simp only [List.get?_cons_zero, Option.some.injEq] at hi
      subst hi
      cases j with
      | zero =>
        simp only [List.get?_cons_zero, Option.some.injEq] at hj
        subst hj
        exact List.Perm.refl _
      | succ k =>
        simp only [List.get?_cons_succ] at hj
        exact swap_head_perm t k a y hj
    | succ m =>
      simp only [List.get?_cons_succ] at hi
      cases j with
      | zero =>
        simp only [List.get?_cons_zero, Option.some.injEq] at hj
        subst hj
        exact swap_head_perm t m a x hi
      | succ k =>
        simp only [List.get?_cons_succ] at hj
        exact List.Perm.cons a (ih m k hi hj)

theorem Swap_perm (blocks : List Block) (i j : Nat) :
    (blockSorter.Swap blocks i j).Perm blocks := by
  unfold blockSorter.Swap
  split
  · rename_i x y hx hy
    exact set_set_perm blocks i j x y hx hy
  · exact List.Perm.refl _

theorem Number_some_true (a b : Block) :
    Number a b = some true ↔
      ∃ x y, (Block.header a).Number = some x ∧ (Block.header b).Number = some y ∧ x < y := by
  unfold Number
  cases ha : (Block.header a).Number <;> cases hb : (Block.header b).Number <;> simp

theorem Number_some_false (a b : Block) :
    Number a b = some false ↔
      ∃ x y, (Block.header a).Number = some x ∧ (Block.header b).Number = some y ∧ y ≤ x := by
  unfold Number
  cases ha : (Block.header a).Number <;> cases hb : (Block.header b).Number <;> simp

theorem Number_of_heights (a b : Block) (ha : (Block.header a).Number ≠ none)
    (hb : (Block.header b).Number ≠ none) :
    Number a b = some (decide (heightOf a < heightOf b)) := by
  unfold Number heightOf
  cases hx : (Block.header a).Number with
  | none => exact absurd hx ha
  | some x =>
    cases hy : (Block.header b).Number with
    | none => exact absurd hy hb
    | some y => rfl

theorem get?_at_length {α : Type} (p : List α) (y : α) (t : List α) :
    (p ++ y :: t).get? p.length = some y := by
  induction p with
  | nil => rfl
  | cons a p ih => simpa using ih

theorem get?_after_length {α : Type} (p : List α) (y x : α) (t : List α) :
    (p ++ y :: x :: t).get? (p.length + 1) = some x := by
  induction p with
  | nil => rfl
  | cons a p ih => simpa using ih

theorem set_at_length {α : Type} (p : List α) (y z : α) (t : List α) :
    (p ++ y :: t).set p.length z = p ++ z :: t := by
  induction p with
  | nil => rfl
  | cons a p ih => simp

theorem set_after_length {α : Type} (p : List α) (y x z : α) (t : List α) :
    (p ++ y :: x :: t).set (p.length + 1) z = p ++ y :: z :: t := by
  induction p with
  | nil => rfl
  | cons a p ih => simp

theorem Less_at (lessBy : Block → Block → Option Bool) (p : List Block) (y x : Block)
    (t : List Block) :
    blockSorter.Less lessBy (p ++ y :: x :: t) (p.length + 1) p.length = lessBy x y := by
  unfold blockSorter.Less
  rw [get?_after_length, get?_at_length]

theorem Swap_at (p : List Block) (y x : Block) (t : List Block) :
    blockSorter.Swap (p ++ y :: x :: t) (p.length + 1) p.length = p ++ x :: y :: t := by
  unfold blockSorter.Swap
  rw [get?_after_length, get?_at_length]
  simp only
  rw [set_after_length, set_at_length]

/-- The inner loop of the insertion sort, started on `x` at position `j` with
the elements `mid` already moved past it: it returns, and leaves the part up to
the end of `mid` ordered, a permutation of what it was. -/
theorem insertionInner_spec (j : Nat) :
    ∀ (pre : List Block) (x : Block) (mid rest : List Block), pre.length = j →
      (∀ b ∈ pre ++ x :: mid, (Block.header b).Number ≠ none) →
      (pre ++ mid).Pairwise (fun a b => heightOf a ≤ heightOf b) →
      (∀ y ∈ mid, heightOf x < heightOf y) →
      ∃ out, sort.insertionInner Number 0 j (pre ++ x :: (mid ++ rest)) = some (out ++ rest) ∧
        out.Pairwise (fun a b => heightOf a ≤ heightOf b) ∧ out.Perm (pre ++ x :: mid) := by
  induction j with
  | zero =>
    intro pre x mid rest hlen _ hsorted hmid
    have hpre : pre = [] := List.length_eq_zero.mp hlen
    subst hpre
    refine ⟨x :: mid, rfl, ?_, List.Perm.refl _⟩
    rw [List.pairwise_cons]
    exact ⟨fun y hy => le_of_lt (hmid y hy), hsorted⟩
  | succ j ih =>
    intro pre x mid rest hlen hnum hsorted hmid
    have hne : pre ≠ [] := by
      intro h
      rw [h] at hlen
      exact absurd hlen (by simp)
    obtain ⟨p, y, rfl⟩ : ∃ p y, pre = p ++ [y] :=
      ⟨pre.dropLast, pre.getLast hne, (List.dropLast_append_getLast hne).symm⟩
    have hpl : p.length = j := by
      simp only [List.length_append, List.length_singleton] at hlen
      omega
    have hx : (Block.header x).Number ≠ none := hnum x (by simp)
    have hy : (Block.header y).Number ≠ none := hnum y (by simp)
    have hform : p ++ [y] ++ x :: (mid ++ rest) = p ++ y :: x :: (mid ++ rest) := by simp
    have hless : blockSorter.Less Number (p ++ y :: x :: (mid ++ rest)) (j + 1) j =
        some (decide (heightOf x < heightOf y)) := by
      rw [← hpl, Less_at, Number_of_heights x y hx hy]
    rw [hform]
    simp only [sort.insertionInner, hless, Nat.zero_lt_succ, if_true, gt_iff_lt]
    by_cases hlt : heightOf x < heightOf y
    · simp only [hlt, decide_True]
      have hswap : blockSorter.Swap (p ++ y :: x :: (mid ++ rest)) (j + 1) j =
          p ++ x :: ((y :: mid) ++ rest) := by
        rw [← hpl, Swap_at]
        simp
      rw [hswap]
      have hnum2 : ∀ b ∈ p ++ x :: (y :: mid), (Block.header b).Number ≠ none := by
        intro b hb
        apply hnum b
        simp only [List.mem_append, List.mem_cons, List.mem_singleton] at hb ⊢
        tauto
      have hsorted2 : (p ++ (y :: mid)).Pairwise (fun a b => heightOf a ≤ heightOf b) := by
        have e : p ++ [y] ++ mid = p ++ (y :: mid) := by simp
        rw [← e]
        exact hsorted
      have hmid2 : ∀ z ∈ y :: mid, heightOf x < heightOf z := by
        intro z hz
        rcases List.mem_cons.mp hz with rfl | hz
        · exact hlt
        · exact hmid z hz
      obtain ⟨out, hout, hs, hp⟩ := ih p x (y :: mid) rest hpl hnum2 hsorted2 hmid2
      refine ⟨out, hout, hs, hp.trans ?_⟩
      have e : p ++ [y] ++ x :: mid = p ++ y :: x :: mid := by simp
      rw [e]
      exact List.Perm.append_left p (List.Perm.swap y x mid)
    · simp only [hlt, decide_False]
      refine ⟨p ++ [y] ++ x :: mid, by simp, ?_, List.Perm.refl _⟩
      have hle : heightOf y ≤ heightOf x := not_lt.mp hlt
      rw [List.pairwise_append] at hsorted ⊢
      obtain ⟨hs1, hs2, hs3⟩ := hsorted
      refine ⟨hs1, ?_, ?_⟩
      · rw [List.pairwise_cons]
        exact ⟨fun z hz => le_of_lt (hmid z hz), hs2⟩
      · intro a ha b hb
        rcases List.mem_cons.mp hb with rfl | hb
        · rw [List.pairwise_append] at hs1
          rcases List.mem_append.mp ha with hap | hay
          · exact le_trans (hs1.2.2 a hap y (by simp)) hle
          · rw [List.mem_singleton] at hay
            rw [hay]
            exact hle
        · exact hs3 a ha b hb

/-- The outer loop of the insertion sort, with the first `i` elements ordered
and one round left for each of the others: it returns the whole ordered, a
permutation of what it was. -/
theorem insertionOuter_spec (n : Nat) :
    ∀ (i : Nat) (pre rest : List Block), pre.length = i → rest.length = n →
      (∀ b ∈ pre ++ rest, (Block.header b).Number ≠ none) →
      pre.Pairwise (fun a b => heightOf a ≤ heightOf b) →
      ∃ out, sort.insertionOuter Number 0 n i (pre ++ rest) = some out ∧
        out.Pairwise (fun a b => heightOf a ≤ heightOf b) ∧ out.Perm (pre ++ rest) := by
  induction n with
  | zero =>
    intro i pre rest _ hrest _ hsorted
    have hnil : rest = [] := List.length_eq_zero.mp hrest
    subst hnil
    exact ⟨pre, by simp [sort.insertionOuter], hsorted, by simp⟩
  | succ n ih =>
    intro i pre rest hlen hrest hnum hsorted
    cases rest with
    | nil => exact absurd hrest (by simp)
    | cons x rest =>
      have hrest2 : rest.length = n := by
        simp only [List.length_cons] at hrest
        omega
      have hnum1 : ∀ b ∈ pre ++ x :: [], (Block.header b).Number ≠ none := by
        intro b hb
        apply hnum b
        simp only [List.mem_append, List.mem_cons, List.mem_singleton, List.not_mem_nil,
          or_false] at hb ⊢
        tauto
      obtain ⟨out1, hout1, hs1, hp1⟩ := insertionInner_spec i pre x [] rest hlen hnum1
        (by simpa using hsorted) (by simp)
      have hlen1 : out1.length = i + 1 := by
        rw [hp1.length_eq]
        simp [hlen]
      have hnum2 : ∀ b ∈ out1 ++ rest, (Block.header b).Number ≠ none := by
        intro b hb
        apply hnum b
        rcases List.mem_append.mp hb with h1 | h2
        · have := hp1.mem_iff.mp h1
          simp only [List.mem_append, List.mem_cons, List.mem_singleton, List.not_mem_nil,
            or_false] at this ⊢
          tauto
        · simp only [List.mem_append, List.mem_cons]
          tauto
      obtain ⟨out, hout, hs, hp⟩ := ih (i + 1) out1 rest hlen1 hrest2 hnum2 hs1
      refine ⟨out, ?_, hs, hp.trans ?_⟩
      · have e : pre ++ x :: rest = pre ++ x :: ([] ++ rest) := by simp
        rw [e]
        simp only [sort.insertionOuter, hout1, hout]
      · have e : pre ++ x :: rest = (pre ++ [x]) ++ rest := by simp
        rw [e]
        exact List.Perm.append_right rest hp1

/-- The sort of blocks whose numbers are set returns them ordered by height, a
permutation of the input. -/
theorem Sort_spec (blocks : List Block) (hnum : ∀ b ∈ blocks, (Block.header b).Number ≠ none) :
    ∃ out, BlockBy.Sort Number blocks = some out ∧
      out.Pairwise (fun a b => heightOf a ≤ heightOf b) ∧ out.Perm blocks := by
  cases blocks with
  | nil => exact ⟨[], rfl, List.Pairwise.nil, List.Perm.refl _⟩
  | cons x rest =>
    obtain ⟨out, hout, hs, hp⟩ := insertionOuter_spec rest.length 1 [x] rest rfl rfl
      (by simpa using hnum) (by simp)
    refine ⟨out, ?_, hs, by simpa using hp⟩
    simp only [BlockBy.Sort, sort.Sort, sort.insertionSort, blockSorter.Len, List.length_cons,
      Nat.zero_add, Nat.add_sub_cancel]
    simpa using hout

/-- C27: `Number` (one block before another when its header number is the
smaller) is irreflexive and transitive, and being neither before nor after is
transitive; and for every list of blocks with their numbers set,
`BlockBy(Number).Sort` returns and leaves the slice a permutation of its input
whose header numbers never decrease from one position to a later one. -/
theorem Number_sort_contract (blocks : List Block)
    (hnum : ∀ b ∈ blocks, (Block.header b).Number ≠ none) :
    (∀ a, Number a a ≠ some true) ∧
    (∀ a b c, Number a b = some true → Number b c = some true → Number a c = some true) ∧
    (∀ a b c, Number a b = some false → Number b a = some false →
      Number b c = some false → Number c b = some false →
      Number a c = some false ∧ Number c a = some false) ∧
    ∃ sorted, BlockBy.Sort Number blocks = some sorted ∧ sorted.Perm blocks ∧
      ∀ i j, i < j → j < sorted.length →
        ∃ bi bj x y, sorted.get? i = some bi ∧ sorted.get? j = some bj ∧
          (Block.header bi).Number = some x ∧ (Block.header bj).Number = some y ∧ x ≤ y := by
  refine ⟨fun a h => ?_, fun a b c hab hbc => ?_, fun a b c hab hba hbc hcb => ?_, ?_⟩
  · obtain ⟨x, y, hx, hy, hlt⟩ := (Number_some_true a a).mp h
    rw [hx] at hy
    simp only [Option.some.injEq] at hy
    omega
  · obtain ⟨x, y, hx, hy, hxy⟩ := (Number_some_true a b).mp hab
    obtain ⟨y2, z, hy2, hz, hyz⟩ := (Number_some_true b c).mp hbc
    rw [hy] at hy2
    simp only [Option.some.injEq] at hy2
    exact (Number_some_true a c).mpr ⟨x, z, hx, hz, by omega⟩
  · obtain ⟨x, y, hx, hy, h1⟩ := (Number_some_false a b).mp hab
    obtain ⟨y1, x1, hy1, hx1, h2⟩ := (Number_some_false b a).mp hba
    obtain ⟨y2, z, hy2, hz, h3⟩ := (Number_some_false b c).mp hbc
    obtain ⟨z1, y3, hz1, hy3, h4⟩ := (Number_some_false c b).mp hcb
    rw [hy] at hy1 hy2 hy3
    rw [hx] at hx1
    rw [hz] at hz1
    simp only [Option.some.injEq] at hy1 hy2 hy3 hx1 hz1
    exact ⟨(Number_some_false a c).mpr ⟨x, z, hx, hz, by omega⟩,
      (Number_some_false c a).mpr ⟨z, x, hz, hx, by omega⟩⟩
  · obtain ⟨out, hout, hs, hp⟩ := Sort_spec blocks hnum
    refine ⟨out, hout, hp, ?_⟩
    intro i j hij hj
    have hi : i < out.length := by omega
    have hle := List.pairwise_iff_getElem.mp hs i j hi hj hij
    have hbi : (Block.header out[i]).Number ≠ none :=
      hnum _ (hp.mem_iff.mp (List.getElem_mem hi))
    have hbj : (Block.header out[j]).Number ≠ none :=
      hnum _ (hp.mem_iff.mp (List.getElem_mem hj))
    cases hx : (Block.header out[i]).Number with
    | none => exact absurd hx hbi
    | some x =>
      cases hy : (Block.header out[j]).Number with
      | none => exact absurd hy hbj
      | some y =>
        refine ⟨out[i], out[j], x, y, ?_, ?_, hx, hy, ?_⟩
        · simp [List.getElem?_eq_getElem hi]
        · simp [List.getElem?_eq_getElem hj]
        · simpa [heightOf, hx, hy] using hle

/-- Witness of C27: the three blocks of `sampleBlocks`. -/
theorem Number_sort_contract_witness :
    (∃ sorted, BlockBy.Sort Number sampleBlocks = some sorted ∧ sorted.Perm sampleBlocks) ∧
    (BlockBy.Sort Number sampleBlocks).map (List.map (fun b => (Block.header b).Number)) =
      some [some 1, some 2, some 3] := by
  have hnum : ∀ b ∈ sampleBlocks, (Block.header b).Number ≠ none := by
    intro b hb
    simp only [sampleBlocks, List.mem_cons, List.mem_singleton, List.not_mem_nil, or_false] at hb
    rcases hb with rfl | rfl | rfl <;> simp [NewBlockWithHeader, Block.header, CopyHeader]
  obtain ⟨sorted, hs, hp, _⟩ := (Number_sort_contract sampleBlocks hnum).2.2.2
  exact ⟨⟨sorted, hs, hp⟩, by decide⟩

/-! ### Lemmas on the heap -/

theorem Heap.extends_refl (g : Heap) : Heap.extends g g :=
  ⟨List.prefix_refl _, List.prefix_refl _, List.prefix_refl _⟩

theorem Heap.extends_trans {g1 g2 g3 : Heap} (h12 : Heap.extends g1 g2) (h23 : Heap.extends g2 g3) :
    Heap.extends g1 g3 :=
  ⟨h12.1.trans h23.1, h12.2.1.trans h23.2.1, h12.2.2.trans h23.2.2⟩

theorem get?_of_initial {α : Type} (l1 l2 : List α) (a : Nat) (x : α) (hp : l1 <+: l2)
    (h : l1.get? a = some x) : l2.get? a = some x := by
  obtain ⟨t, rfl⟩ := hp
  have hlt : a < l1.length := by
    by_contra hn
    rw [List.get?_eq_none.mpr (by omega)] at h
    exact absurd h (by simp)
  simp only [List.get?_eq_getElem?] at h ⊢
  rw [List.getElem?_append_left hlt]
  exact h

theorem get?_initial_lt {α : Type} (l1 l2 : List α) (a : Nat) (hp : l1 <+: l2)
    (h : a < l1.length) : l2.get? a = l1.get? a := by
  obtain ⟨t, rfl⟩ := hp
  simp only [List.get?_eq_getElem?]
  exact List.getElem?_append_left h

theorem Heap.slice_extends {g1 g2 : Heap} (h : Heap.extends g1 g2) (a : Nat)
    (ha : a < g1.arrays.length) : g2.slice (some a) = g1.slice (some a) := by
  simp only [Heap.slice]
  rw [get?_initial_lt _ _ a h.2.1 ha]

theorem sameFresh_refl (base g : Heap) : SameFresh base g g :=
  ⟨fun _ _ => rfl, fun _ _ => rfl, fun _ _ => rfl, fun _ => rfl⟩

theorem sameFresh_trans {base g1 g2 g3 : Heap} (h12 : SameFresh base g1 g2)
    (h23 : SameFresh base g2 g3) : SameFresh base g1 g3 :=
  ⟨fun a ha => (h12.1 a ha).trans (h23.1 a ha), fun a ha => (h12.2.1 a ha).trans (h23.2.1 a ha),
    fun a ha => (h12.2.2.1 a ha).trans (h23.2.2.1 a ha),
    fun a => (h12.2.2.2 a).trans (h23.2.2.2 a)⟩

theorem sameOld_refl (base g : Heap) : SameOld base g g :=
  ⟨fun _ _ => rfl, fun _ _ => rfl, fun _ _ => rfl, fun _ => rfl⟩

theorem sameOld_trans {base g1 g2 g3 : Heap} (h12 : SameOld base g1 g2)
    (h23 : SameOld base g2 g3) : SameOld base g1 g3 :=
  ⟨fun a ha => (h12.1 a ha).trans (h23.1 a ha), fun a ha => (h12.2.1 a ha).trans (h23.2.1 a ha),
    fun a ha => (h12.2.2.1 a ha).trans (h23.2.2.1 a ha),
    fun a => (h12.2.2.2 a).trans (h23.2.2.2 a)⟩

/-- What a mutation of an array element does to the slices. -/
theorem slice_write_elem (g : Heap) (a i v b : Nat) :
    (g.write (Write.elem a i v)).slice (some b) =
      if b = a then (g.slice (some a)).set i v else g.slice (some b) := by
  simp only [Heap.write, Heap.slice, List.get?_eq_getElem?, List.getElem?_set]
  by_cases hb : b = a
  · subst hb
    by_cases hlt : b < g.arrays.length
    · simp [hlt]
    · have hn : g.arrays[b]? = none := List.getElem?_eq_none (by omega)
      simp [hlt, hn]
  · have hne : ¬ a = b := fun h => hb h.symm
    simp [hb, hne]

theorem slice_write_length (g : Heap) (w : Write) (b : Nat) :
    ((g.write w).slice (some b)).length = (g.slice (some b)).length := by
  cases w with
  | big a v => rfl
  | elem a i v =>
    rw [slice_write_elem]
    split
    · rename_i h
      subst h
      simp
    · rfl
  | header a hm => rfl

/-- A mutation of storage of `base` changes nothing outside `base`. -/
theorem write_old_sameFresh (base g : Heap) (w : Write) (h : Write.old base w) :
    SameFresh base g (g.write w) := by
  refine ⟨fun a ha => ?_, fun a ha => ?_, fun a ha => ?_, fun a => (slice_write_length g w a).symm⟩
  · cases w with
    | big b v =>
      have hb : b < base.bigs.length := h
      simp only [Heap.write, List.get?_eq_getElem?, List.getElem?_set]
      have hne : ¬ b = a := by omega
      simp [hne]
    | elem b i v => rfl
    | header b hm => rfl
  · cases w with
    | big b v => rfl
    | elem b i v =>
      have hb : b < base.arrays.length := h
      rw [slice_write_elem, if_neg (by omega)]
    | header b hm => rfl
  · cases w with
    | big b v => rfl
    | elem b i v => rfl
    | header b hm =>
      have hb : b < base.headers.length := h
      simp only [Heap.write, List.get?_eq_getElem?, List.getElem?_set]
      have hne : ¬ b = a := by omega
      simp [hne]

theorem writes_old_sameFresh (base g : Heap) (ws : List Write) (h : ∀ w ∈ ws, Write.old base w) :
    SameFresh base g (g.writes ws) := by
  induction ws generalizing g with
  | nil => exact sameFresh_refl base g
  | cons w rest ih =>
    exact sameFresh_trans (write_old_sameFresh base g w (h w (List.mem_cons_self _ _)))
      (ih (g.write w) (fun x hx => h x (List.mem_cons_of_mem _ hx)))

theorem big_sameFresh {base g1 g2 : Heap} (h : SameFresh base g1 g2) (p : Option Nat)
    (hp : isoBig base p) : g2.big p = g1.big p := by
  cases p with
  | none => rfl
  | some a => exact (h.1 a (hp a rfl)).symm

theorem slice_sameFresh {base g1 g2 : Heap} (h : SameFresh base g1 g2) (p : Option Nat)
    (hp : isoSlice base g1 p) : g2.slice p = g1.slice p := by
  cases p with
  | none => rfl
  | some a =>
    rcases hp a rfl with hlt | hnil
    · exact (h.2.1 a hlt).symm
    · have hlen := h.2.2.2 a
      rw [hnil] at hlen ⊢
      exact List.length_eq_zero.mp hlen.symm

theorem isoSlice_sameFresh {base g1 g2 : Heap} (h : SameFresh base g1 g2) (p : Option Nat)
    (hp : isoSlice base g1 p) : isoSlice base g2 p := by
  intro a ha
  rcases hp a ha with hlt | hnil
  · exact Or.inl hlt
  · right
    have := slice_sameFresh h (some a) (fun b hb => by
      have hba : b = a := (Option.some.inj hb).symm
      subst hba
      exact Or.inr hnil)
    rw [this, hnil]

/-- An isolated header reads the same in heaps that differ inside `base` only. -/
theorem readHeader_sameFresh {base g1 g2 : Heap} (h : SameFresh base g1 g2) (hm : HeaderMem)
    (hi : HeaderMem.isolated base g1 hm) : g2.readHeader hm = g1.readHeader hm := by
  obtain ⟨h1, h2, h3, h4, h5⟩ := hi
  simp only [Heap.readHeader, big_sameFresh h _ h1, big_sameFresh h _ h2, big_sameFresh h _ h3,
    big_sameFresh h _ h4, slice_sameFresh h _ h5]

theorem headerAt_sameFresh {base g1 g2 : Heap} (h : SameFresh base g1 g2) (a : Nat)
    (hi : isoHeader base g1 a) : g2.headerAt a = g1.headerAt a := by
  simp only [Heap.headerAt]
  rw [← h.2.2.1 a hi.1]
  cases hg : g1.headers.get? a with
  | none => rfl
  | some hm =>
    simp only [Option.map_some', Option.some.injEq]
    exact readHeader_sameFresh h hm (hi.2 hm hg)

/-- An isolated block reads the same in heaps that differ inside `base` only. -/
theorem readBlock_sameFresh {base g1 g2 : Heap} (h : SameFresh base g1 g2) (b : BlockMem)
    (hi : BlockMem.isolated base g1 b) : g2.readBlock b = g1.readBlock b := by
  obtain ⟨hh, hu, hus, hf, ht⟩ := hi
  simp only [Heap.readBlock, headerAt_sameFresh h _ hh, slice_sameFresh h _ hu,
    slice_sameFresh h _ hf, slice_sameFresh h _ ht, BlockView.mk.injEq, true_and, and_true]
  apply List.map_congr_left
  intro x hx
  exact headerAt_sameFresh h x (hus x hx)


theorem HeaderMem.live_mono {g1 g2 : Heap} (hm : HeaderMem) (hb : g1.bigs.length ≤ g2.bigs.length)
    (ha : g1.arrays.length ≤ g2.arrays.length) (h : HeaderMem.live g1 hm) :
    HeaderMem.live g2 hm :=
  ⟨fun a e => lt_of_lt_of_le (h.1 a e) hb, fun a e => lt_of_lt_of_le (h.2.1 a e) hb,
    fun a e => lt_of_lt_of_le (h.2.2.1 a e) hb, fun a e => lt_of_lt_of_le (h.2.2.2.1 a e) hb,
    fun a e => lt_of_lt_of_le (h.2.2.2.2 a e) ha⟩

theorem Heap.big_extends {g1 g2 : Heap} (h : Heap.extends g1 g2) (p : Option Nat)
    (hp : ∀ a, p = some a → a < g1.bigs.length) : g2.big p = g1.big p := by
  cases p with
  | none => rfl
  | some a => exact get?_initial_lt _ _ a h.1 (hp a rfl)

theorem Heap.slice_extends_live {g1 g2 : Heap} (h : Heap.extends g1 g2) (p : Option Nat)
    (hp : liveSlice g1 p) : g2.slice p = g1.slice p := by
  cases p with
  | none => rfl
  | some a => exact Heap.slice_extends h a (hp a rfl)

theorem readHeader_extends {g1 g2 : Heap} (h : Heap.extends g1 g2) (hm : HeaderMem)
    (hl : HeaderMem.live g1 hm) : g2.readHeader hm = g1.readHeader hm := by
  obtain ⟨h1, h2, h3, h4, h5⟩ := hl
  simp only [Heap.readHeader, Heap.big_extends h _ h1, Heap.big_extends h _ h2,
    Heap.big_extends h _ h3, Heap.big_extends h _ h4, Heap.slice_extends_live h _ h5]

theorem get?_mem_of_some {α : Type} (l : List α) (a : Nat) (x : α) (h : l.get? a = some x) :
    x ∈ l := List.get?_mem h

theorem headerAt_extends {g1 g2 : Heap} (h : Heap.extends g1 g2) (hwf : g1.wf) (a : Nat)
    (ha : a < g1.headers.length) : g2.headerAt a = g1.headerAt a := by
  simp only [Heap.headerAt]
  rw [get?_initial_lt _ _ a h.2.2 ha]
  cases hg : g1.headers.get? a with
  | none => rfl
  | some hm =>
    simp only [Option.map_some', Option.some.injEq]
    exact readHeader_extends h hm (hwf hm (get?_mem_of_some _ _ _ hg))

theorem extends_length {g1 g2 : Heap} (h : Heap.extends g1 g2) :
    g1.bigs.length ≤ g2.bigs.length ∧ g1.arrays.length ≤ g2.arrays.length ∧
      g1.headers.length ≤ g2.headers.length :=
  ⟨h.1.length_le, h.2.1.length_le, h.2.2.length_le⟩

theorem isolated_extends {base g1 g2 : Heap} (h : Heap.extends g1 g2) (hm : HeaderMem)
    (hl : HeaderMem.live g1 hm) (hi : HeaderMem.isolated base g1 hm) :
    HeaderMem.isolated base g2 hm := by
  refine ⟨hi.1, hi.2.1, hi.2.2.1, hi.2.2.2.1, ?_⟩
  intro a ha
  rcases hi.2.2.2.2 a ha with hlt | hnil
  · exact Or.inl hlt
  · right
    rw [Heap.slice_extends h a (hl.2.2.2.2 a ha)]
    exact hnil

theorem isolated_base {base base2 g : Heap} (h : Heap.extends base base2) (hm : HeaderMem)
    (hi : HeaderMem.isolated base2 g hm) : HeaderMem.isolated base g hm := by
  obtain ⟨hb, ha, _⟩ := extends_length h
  refine ⟨fun a e => le_trans hb (hi.1 a e), fun a e => le_trans hb (hi.2.1 a e),
    fun a e => le_trans hb (hi.2.2.1 a e), fun a e => le_trans hb (hi.2.2.2.1 a e), ?_⟩
  intro a e
  rcases hi.2.2.2.2 a e with hlt | hnil
  · exact Or.inl (le_trans ha hlt)
  · exact Or.inr hnil

theorem isoHeader_extends {base g1 g2 : Heap} (h : Heap.extends g1 g2) (hwf : g1.wf) (a : Nat)
    (ha : a < g1.headers.length) (hi : isoHeader base g1 a) : isoHeader base g2 a := by
  refine ⟨hi.1, ?_⟩
  intro hm hg
  rw [get?_initial_lt _ _ a h.2.2 ha] at hg
  exact isolated_extends h hm (hwf hm (get?_mem_of_some _ _ _ hg)) (hi.2 hm hg)

theorem isoHeader_base {base base2 g : Heap} (h : Heap.extends base base2) (a : Nat)
    (hi : isoHeader base2 g a) : isoHeader base g a :=
  ⟨le_trans (extends_length h).2.2 hi.1, fun hm hg => isolated_base h hm (hi.2 hm hg)⟩

theorem wf_extends {g1 g2 : Heap} (h : Heap.extends g1 g2) (hwf : g1.wf)
    (hnew : ∀ a hm, g1.headers.length ≤ a → g2.headers.get? a = some hm → HeaderMem.live g2 hm) :
    g2.wf := by
  intro hm hmem
  obtain ⟨a, ha⟩ := List.get?_of_mem hmem
  by_cases hlt : a < g1.headers.length
  · rw [get?_initial_lt _ _ a h.2.2 hlt] at ha
    exact HeaderMem.live_mono hm (extends_length h).1 (extends_length h).2.1
      (hwf hm (get?_mem_of_some _ _ _ ha))
  · exact hnew a hm (by omega) ha

/-- Allocating an array extends the heap and keeps it well formed. -/
theorem newArray_spec (g : Heap) (xs : List Nat) :
    (g.newArray xs).1 = g.arrays.length ∧ Heap.extends g (g.newArray xs).2 ∧
      (g.newArray xs).2.slice (some g.arrays.length) = xs ∧
      (g.newArray xs).2.headers = g.headers ∧
      (g.newArray xs).2.arrays.length = g.arrays.length + 1 := by
  refine ⟨rfl, ⟨List.prefix_refl _, List.prefix_append _ _, List.prefix_refl _⟩, ?_, rfl, ?_⟩
  · simp [Heap.newArray, Heap.slice]
  · simp [Heap.newArray]

theorem newArray_wf (g : Heap) (xs : List Nat) (hwf : g.wf) : (g.newArray xs).2.wf := by
  apply wf_extends (newArray_spec g xs).2.1 hwf
  intro a hm ha hg
  have hh : (g.newArray xs).2.headers = g.headers := rfl
  rw [hh, List.get?_eq_none.mpr ha] at hg
  exact absurd hg (by simp)


/-- What `CopyHeader` does on the heap: it returns, at a fresh address, a struct
whose big integers and non-empty `Extra` are fresh, which reads as `CopyHeader`
of what `h` reads as. -/
theorem CopyHeaderMem_spec (g : Heap) (h : Nat) (hm : HeaderMem)
    (hh : g.headers.get? h = some hm) (hl : HeaderMem.live g hm) :
    ∃ cm g2, CopyHeaderMem g h = some (g.headers.length, g2) ∧
      g2.headers = g.headers ++ [cm] ∧ Heap.extends g g2 ∧
      HeaderMem.live g2 cm ∧ HeaderMem.isolated g g2 cm ∧
      g2.readHeader cm = CopyHeader (g.readHeader hm) := by
  simp only [CopyHeaderMem, hh, Heap.newBig, Heap.newArray, Heap.newHeader]
  split
  · rename_i hpos
    refine ⟨_, _, rfl, rfl, ⟨?_, ?_, ?_⟩, ?_, ?_, ?_⟩
    · simp only [List.append_assoc]
      exact List.prefix_append _ _
    · exact List.prefix_append _ _
    · exact List.prefix_append _ _
    · refine ⟨?_, ?_, ?_, ?_, ?_⟩ <;>
      · intro a ha
        simp only [Option.some.injEq] at ha
        subst ha
        simp only [List.length_append, List.length_singleton]
        omega
    · refine ⟨?_, ?_, ?_, ?_, ?_⟩
      · intro a ha
        simp only [Option.some.injEq] at ha
        omega
      · intro a ha
        simp only [Option.some.injEq, List.length_append, List.length_singleton] at ha
        omega
      · intro a ha
        simp only [Option.some.injEq, List.length_append, List.length_singleton] at ha
        omega
      · intro a ha
        simp only [Option.some.injEq, List.length_append, List.length_singleton] at ha
        omega
      · intro a ha
        simp only [Option.some.injEq] at ha
        left
        omega
    · simp [Heap.readHeader, CopyHeader, Heap.big, Heap.slice, List.getElem?_append_right,
        List.getElem?_append_left, List.getElem_append_right]
  · rename_i hpos
    have hnil : g.slice hm.Extra = [] := List.length_eq_zero.mp (by omega)
    refine ⟨_, _, rfl, rfl, ⟨?_, ?_, ?_⟩, ?_, ?_, ?_⟩
    · simp only [List.append_assoc]
      exact List.prefix_append _ _
    · exact List.prefix_refl _
    · exact List.prefix_append _ _
    · refine ⟨?_, ?_, ?_, ?_, hl.2.2.2.2⟩ <;>
      · intro a ha
        simp only [Option.some.injEq] at ha
        subst ha
        simp only [List.length_append, List.length_singleton]
        omega
    · refine ⟨?_, ?_, ?_, ?_, ?_⟩
      · intro a ha
        simp only [Option.some.injEq] at ha
        omega
      · intro a ha
        simp only [Option.some.injEq, List.length_append, List.length_singleton] at ha
        omega
      · intro a ha
        simp only [Option.some.injEq, List.length_append, List.length_singleton] at ha
        omega
      · intro a ha
        simp only [Option.some.injEq, List.length_append, List.length_singleton] at ha
        omega
      · intro a ha
        right
        have hs := hnil
        simp only at ha
        rw [ha] at hs
        exact hs
    · simp [Heap.readHeader, CopyHeader, Heap.big, Heap.slice, List.getElem?_append_right,
        List.getElem?_append_left, List.getElem_append_right]


theorem get?_some_of_lt {α : Type} (l : List α) (a : Nat) (h : a < l.length) :
    ∃ x, l.get? a = some x := by
  cases hg : l.get? a with
  | none => exact absurd (List.get?_eq_none.mp hg) (by omega)
  | some x => exact ⟨x, rfl⟩

theorem get?_append_singleton {α : Type} (l : List α) (x y : α) (a : Nat) (ha : l.length ≤ a)
    (h : (l ++ [x]).get? a = some y) : a = l.length ∧ y = x := by
  simp only [List.get?_eq_getElem?] at h
  rw [List.getElem?_append_right ha] at h
  by_cases h0 : a - l.length = 0
  · rw [h0] at h
    simp only [List.getElem?_cons_zero, Option.some.injEq] at h
    exact ⟨by omega, h.symm⟩
  · have hn : [x][a - l.length]? = none := List.getElem?_eq_none (by simp; omega)
    rw [hn] at h
    exact absurd h (by simp)

/-- The copy of a live header of a well-formed heap: it exists, lies at a fresh
address, is isolated from the heap before, reads as `CopyHeader` of the
original, and the heap stays well formed. -/
theorem CopyHeaderMem_total (g : Heap) (hwf : g.wf) (u : Nat) (hu : u < g.headers.length) :
    ∃ g1, CopyHeaderMem g u = some (g.headers.length, g1) ∧ Heap.extends g g1 ∧ g1.wf ∧
      g1.headers.length = g.headers.length + 1 ∧ isoHeader g g1 g.headers.length ∧
      g1.headerAt g.headers.length = (g.headerAt u).map CopyHeader := by
  obtain ⟨hm, hg⟩ := get?_some_of_lt g.headers u hu
  obtain ⟨cm, g1, hc, hhead, hext, hlive1, hiso, hread⟩ :=
    CopyHeaderMem_spec g u hm hg (hwf hm (get?_mem_of_some _ _ _ hg))
  have hat : g1.headers.get? g.headers.length = some cm := by
    rw [hhead]
    simp
  refine ⟨g1, hc, hext, ?_, ?_, ⟨le_refl _, ?_⟩, ?_⟩
  · apply wf_extends hext hwf
    intro a hm2 ha hg2
    rw [hhead] at hg2
    rw [(get?_append_singleton _ _ _ _ ha hg2).2]
    exact hlive1
  · rw [hhead]
    simp
  · intro hm2 hg2
    rw [hat] at hg2
    rw [← Option.some.inj hg2]
    exact hiso
  · simp only [Heap.headerAt, hat, hg, Option.map_some', hread]

/-- The loop over the uncles: every copy is made, lies at a fresh address, is
isolated from the heap before the loop, and reads as `CopyHeader` of the uncle. -/
theorem copyHeaders_spec (us : List Nat) (g : Heap) (hwf : g.wf)
    (hlive : ∀ u ∈ us, u < g.headers.length) :
    ∃ cs g2, copyHeaders g us = some (cs, g2) ∧ Heap.extends g g2 ∧ g2.wf ∧
      (∀ x ∈ cs, x < g2.headers.length ∧ isoHeader g g2 x) ∧
      cs.map g2.headerAt = us.map (fun u => (g.headerAt u).map CopyHeader) := by
  induction us generalizing g with
  | nil => exact ⟨[], g, rfl, Heap.extends_refl g, hwf, by simp, rfl⟩
  | cons u us ih =>
    have hu := hlive u (List.mem_cons_self _ _)
    obtain ⟨g1, hc, hext, hwf1, hlen1, hiso1, hread1⟩ := CopyHeaderMem_total g hwf u hu
    have hlive1 : ∀ v ∈ us, v < g1.headers.length := fun v hv =>
      lt_of_lt_of_le (hlive v (List.mem_cons_of_mem _ hv)) (extends_length hext).2.2
    obtain ⟨cs, g2, hcs, hext2, hwf2, hall, hmap⟩ := ih g1 hwf1 hlive1
    have hclt : g.headers.length < g1.headers.length := by omega
    refine ⟨g.headers.length :: cs, g2, ?_, Heap.extends_trans hext hext2, hwf2, ?_, ?_⟩
    · simp only [copyHeaders, hc, hcs]
    · intro x hx
      rcases List.mem_cons.mp hx with rfl | hx
      · exact ⟨lt_of_lt_of_le hclt (extends_length hext2).2.2,
          isoHeader_extends hext2 hwf1 _ hclt hiso1⟩
      · exact ⟨(hall x hx).1, isoHeader_base hext x (hall x hx).2⟩
    · simp only [List.map_cons]
      rw [headerAt_extends hext2 hwf1 _ hclt, hread1, hmap]
      congr 1
      apply List.map_congr_left
      intro v hv
      rw [headerAt_extends hext hwf v (hlive v (List.mem_cons_of_mem _ hv))]


/-- What `WithBody` does on a well-formed heap with live arguments: the block
returned exists, is isolated from the heap before the call, and holds the copy
of the header of `b`, the copies of the uncles, no fruits, and the
transactions given. -/
theorem WithBodyMem_spec (g : Heap) (b : BlockMem) (txs us : Option Nat) (hwf : g.wf)
    (hb : b.header < g.headers.length) (htx : liveSlice g txs) (hus : liveSlice g us)
    (hu : ∀ u ∈ g.slice us, u < g.headers.length) :
    ∃ blk g4, WithBodyMem g b txs us = some (blk, g4) ∧ BlockMem.isolated g g4 blk ∧
      g4.readBlock blk =
        { header := (g.headerAt b.header).map CopyHeader
          uncles := (g.slice us).map (fun u => (g.headerAt u).map CopyHeader)
          fruits := []
          transactions := g.slice txs } := by
  obtain ⟨g1, hc, hext1, hwf1, hlen1, hiso1, hread1⟩ := CopyHeaderMem_total g hwf b.header hb
  have hxs : g1.slice txs = g.slice txs := Heap.slice_extends_live hext1 txs htx
  obtain ⟨_, hext12, hsl2, hhd2, hal2⟩ := newArray_spec g1 (g1.slice txs)
  have hwf2 := newArray_wf g1 (g1.slice txs) hwf1
  have hext02 := Heap.extends_trans hext1 hext12
  have hus2 : (g1.newArray (g1.slice txs)).2.slice us = g.slice us :=
    Heap.slice_extends_live hext02 us hus
  have hlive2 : ∀ u ∈ (g1.newArray (g1.slice txs)).2.slice us,
      u < (g1.newArray (g1.slice txs)).2.headers.length := by
    intro u hmem
    rw [hus2] at hmem
    exact lt_of_lt_of_le (hu u hmem) (extends_length hext02).2.2
  obtain ⟨cs, g3, hcs, hext23, hwf3, hall, hmap⟩ :=
    copyHeaders_spec _ (g1.newArray (g1.slice txs)).2 hwf2 hlive2
  obtain ⟨_, hext34, hsl4, hhd4, hal4⟩ := newArray_spec g3 cs
  have hext14 := Heap.extends_trans (Heap.extends_trans hext12 hext23) hext34
  have hext03 := Heap.extends_trans hext02 hext23
  have hclt : g.headers.length < g1.headers.length := by omega
  have hwf3b := hwf3
  refine ⟨{ header := g.headers.length, uncles := some g3.arrays.length, fruits := none,
            transactions := some g1.arrays.length, hash := none, size := none, td := none },
    (g3.newArray cs).2, ?_, ⟨?_, ?_, ?_, ?_, ?_⟩, ?_⟩
  · simp only [WithBodyMem, hc, hcs]
    rfl
  · exact isoHeader_extends hext14 hwf1 _ hclt hiso1
  · intro a ha
    left
    have : a = g3.arrays.length := (Option.some.inj ha).symm
    rw [this]
    exact (extends_length hext03).2.1
  · intro x hx
    have hx2 : x ∈ cs := by
      have e : (g3.newArray cs).2.slice (some g3.arrays.length) = cs := hsl4
      rw [e] at hx
      exact hx
    exact isoHeader_extends hext34 hwf3 x (hall x hx2).1 (isoHeader_base hext02 x (hall x hx2).2)
  · intro a ha
    cases ha
  · intro a ha
    left
    have : a = g1.arrays.length := (Option.some.inj ha).symm
    rw [this]
    exact (extends_length hext1).2.1
  · have e1 : (g3.newArray cs).2.headerAt g.headers.length =
        (g.headerAt b.header).map CopyHeader := by
      rw [headerAt_extends hext14 hwf1 _ hclt, hread1]
    have e2 : ((g3.newArray cs).2.slice (some g3.arrays.length)).map (g3.newArray cs).2.headerAt =
        (g.slice us).map (fun u => (g.headerAt u).map CopyHeader) := by
      rw [hsl4]
      have e3 : cs.map (g3.newArray cs).2.headerAt = cs.map g3.headerAt := by
        apply List.map_congr_left
        intro x hx
        exact headerAt_extends hext34 hwf3 x (hall x hx).1
      rw [e3, hmap, hus2]
      apply List.map_congr_left
      intro v hv
      rw [headerAt_extends hext02 hwf v (hu v hv)]
    have e4 : (g3.newArray cs).2.slice (some g1.arrays.length) = g.slice txs := by
      have hlt : g1.arrays.length < (g1.newArray (g1.slice txs)).2.arrays.length := by omega
      rw [Heap.slice_extends (Heap.extends_trans hext23 hext34) _ hlt, hsl2, hxs]
    simp only [Heap.readBlock, e1, e2, e4]
    rfl


theorem isolated_of_lengths {base g1 g2 : Heap} (hm : HeaderMem)
    (hlen : ∀ a, (g1.slice (some a)).length = (g2.slice (some a)).length)
    (hi : HeaderMem.isolated base g1 hm) : HeaderMem.isolated base g2 hm := by
  refine ⟨hi.1, hi.2.1, hi.2.2.1, hi.2.2.2.1, ?_⟩
  intro a ha
  rcases hi.2.2.2.2 a ha with hlt | hnil
  · exact Or.inl hlt
  · right
    have h := hlen a
    rw [hnil] at h
    exact List.length_eq_zero.mp h.symm

/-- A mutation of a big integer or of a byte of `Extra` of a header isolated
from `base` changes nothing in `base`. -/
theorem write_owned_sameOld (base g : Heap) (cm : HeaderMem) (hi : HeaderMem.isolated base g cm)
    (w : Write) (ho : HeaderMem.owns cm w) : SameOld base g (g.write w) := by
  refine ⟨fun a ha => ?_, fun a ha => ?_, fun a ha => ?_, fun a => (slice_write_length g w a).symm⟩
  · cases w with
    | big b v =>
      have hb : base.bigs.length ≤ b := by
        rcases ho with h | h | h | h
        · exact hi.1 b h
        · exact hi.2.1 b h
        · exact hi.2.2.1 b h
        · exact hi.2.2.2.1 b h
      simp only [Heap.write, List.get?_eq_getElem?, List.getElem?_set]
      have hne : ¬ b = a := by omega
      simp [hne]
    | elem b i v => rfl
    | header b hm => rfl
  · cases w with
    | big b v => rfl
    | elem b i v =>
      rw [slice_write_elem]
      split
      · rename_i hab
        subst hab
        rcases hi.2.2.2.2 a ho with hlt | hnil
        · omega
        · rw [hnil]
          rfl
      · rfl
    | header b hm => rfl
  · cases w with
    | big b v => rfl
    | elem b i v => rfl
    | header b hm => exact absurd ho (by simp [HeaderMem.owns])

theorem writes_owned_sameOld (base : Heap) (cm : HeaderMem) (ws : List Write) (g : Heap)
    (hi : HeaderMem.isolated base g cm) (ho : ∀ w ∈ ws, HeaderMem.owns cm w) :
    SameOld base g (g.writes ws) := by
  induction ws generalizing g with
  | nil => exact sameOld_refl base g
  | cons w rest ih =>
    have h1 := write_owned_sameOld base g cm hi w (ho w (List.mem_cons_self _ _))
    exact sameOld_trans h1 (ih (g.write w) (isolated_of_lengths cm h1.2.2.2 hi)
      (fun x hx => ho x (List.mem_cons_of_mem _ hx)))

theorem big_sameOld {base g1 g2 : Heap} (h : SameOld base g1 g2) (p : Option Nat)
    (hp : ∀ a, p = some a → a < base.bigs.length) : g2.big p = g1.big p := by
  cases p with
  | none => rfl
  | some a => exact (h.1 a (hp a rfl)).symm

theorem readHeader_sameOld {base g1 g2 : Heap} (h : SameOld base g1 g2) (hm : HeaderMem)
    (hl : HeaderMem.live base hm) : g2.readHeader hm = g1.readHeader hm := by
  obtain ⟨h1, h2, h3, h4, h5⟩ := hl
  have hs : g2.slice hm.Extra = g1.slice hm.Extra := by
    cases he : hm.Extra with
    | none => rfl
    | some a => exact (h.2.1 a (h5 a he)).symm
  simp only [Heap.readHeader, big_sameOld h _ h1, big_sameOld h _ h2, big_sameOld h _ h3,
    big_sameOld h _ h4, hs]

theorem owns_old (g : Heap) (hm : HeaderMem) (hl : HeaderMem.live g hm) (w : Write)
    (ho : HeaderMem.owns hm w) : Write.old g w := by
  cases w with
  | big b v =>
    rcases ho with h | h | h | h
    · exact hl.1 b h
    · exact hl.2.1 b h
    · exact hl.2.2.1 b h
    · exact hl.2.2.2.1 b h
  | elem b i v => exact hl.2.2.2.2 b ho
  | header b hm2 => exact absurd ho (by simp [HeaderMem.owns])

theorem sampleHeader_live : HeaderMem.live sampleHeap sampleHeader := by
  refine ⟨?_, ?_, ?_, ?_, ?_⟩ <;>
  · intro a ha
    simp only [sampleHeader, Option.some.injEq] at ha
    subst ha
    decide

theorem sampleHeap_wf : sampleHeap.wf := by
  intro hm hmem
  simp only [sampleHeap, List.mem_singleton] at hmem
  subst hmem
  exact sampleHeader_live

/-! ### Claims on aliasing -/

/-- C24: for every live header `h` of the heap, `CopyHeader(h)` returns a
header `c` that reads as the copy of `h` and leaves `h` as it was; after that,
mutating in place the big integers of `c` (Time, Difficulty, Number,
RecordNumber) or overwriting bytes of `c.Extra`, any number of times, changes no
field of `h`, and mutating those of `h` changes no field of `c`. -/
theorem CopyHeader_shares_nothing (g : Heap) (h : Nat) (hm : HeaderMem)
    (hh : g.headers.get? h = some hm) (hl : HeaderMem.live g hm) :
    ∃ c g2 cm, CopyHeaderMem g h = some (c, g2) ∧ g2.headers.get? c = some cm ∧
      g2.headerAt c = some (CopyHeader (g.readHeader hm)) ∧
      g2.headerAt h = some (g.readHeader hm) ∧
      (∀ ws, (∀ w ∈ ws, HeaderMem.owns cm w) → (g2.writes ws).headerAt h = g2.headerAt h) ∧
      (∀ ws, (∀ w ∈ ws, HeaderMem.owns hm w) → (g2.writes ws).headerAt c = g2.headerAt c) := by
  obtain ⟨cm, g2, hc, hhead, hext, hlive2, hiso, hread⟩ := CopyHeaderMem_spec g h hm hh hl
  have hat : g2.headers.get? g.headers.length = some cm := by
    rw [hhead]
    simp
  have hold : g2.headers.get? h = some hm := get?_of_initial _ _ h hm hext.2.2 hh
  have hlt : h < g.headers.length := by
    by_contra hn
    rw [List.get?_eq_none.mpr (by omega)] at hh
    exact absurd hh (by simp)
  refine ⟨g.headers.length, g2, cm, hc, hat, ?_, ?_, ?_, ?_⟩
  · simp only [Heap.headerAt, hat, Option.map_some', hread]
  · simp only [Heap.headerAt, hold, Option.map_some', readHeader_extends hext hm hl]
  · intro ws hws
    have hs := writes_owned_sameOld g cm ws g2 hiso hws
    have hg : (g2.writes ws).headers.get? h = some hm := by
      rw [← hs.2.2.1 h hlt]
      exact hold
    simp only [Heap.headerAt, hg, hold, Option.map_some', readHeader_sameOld hs hm hl]
  · intro ws hws
    have hs := writes_old_sameFresh g g2 ws (fun w hw => owns_old g hm hl w (hws w hw))
    apply headerAt_sameFresh hs
    refine ⟨le_refl _, ?_⟩
    intro hm2 hg2
    rw [hat] at hg2
    rw [← Option.some.inj hg2]
    exact hiso

/-- Witness of C24: the copy of `sampleHeader` in `sampleHeap`. -/
theorem CopyHeader_shares_nothing_witness :
    sampleHeap.headers.get? 0 = some sampleHeader ∧ HeaderMem.live sampleHeap sampleHeader ∧
    ∃ c g2 cm, CopyHeaderMem sampleHeap 0 = some (c, g2) ∧ g2.headers.get? c = some cm ∧
      g2.headerAt c = some (CopyHeader (sampleHeap.readHeader sampleHeader)) ∧
      g2.headerAt 0 = some (sampleHeap.readHeader sampleHeader) ∧
      (∀ ws, (∀ w ∈ ws, HeaderMem.owns cm w) → (g2.writes ws).headerAt 0 = g2.headerAt 0) ∧
      (∀ ws, (∀ w ∈ ws, HeaderMem.owns sampleHeader w) →
        (g2.writes ws).headerAt c = g2.headerAt c) :=
  ⟨rfl, sampleHeader_live, CopyHeader_shares_nothing sampleHeap 0 sampleHeader rfl sampleHeader_live⟩

/-- C23, as stated, fails: the block that `WithSeal` returns
on `sampleBlock` and header 0 of `sampleHeap` has the big integer at address 1
as its number, so setting that integer of the header passed in to 99 changes
the block returned. -/
theorem WithSeal_shares_Number :
    ∃ blk g2, WithSealMem sampleHeap sampleBlock 0 = some (blk, g2) ∧
      Write.old sampleHeap (Write.big 1 99) ∧ HeaderMem.owns sampleHeader (Write.big 1 99) ∧
      ((g2.readBlock blk).header.map Header.Number = some (some 5)) ∧
      (((g2.write (Write.big 1 99)).readBlock blk).header.map Header.Number = some (some 99)) :=
  ⟨_, _, rfl, (by decide : 1 < sampleHeap.bigs.length), Or.inr (Or.inr (Or.inl rfl)), rfl, rfl⟩

/-- C23, amended: in a well-formed heap with live arguments,
`b.WithBody(txs, us)` returns a block that holds the copy of the header of `b`,
the copies of the uncles and the transactions given, and no in-place mutation
of storage that existed before the call (big integers, array elements, header
structs) changes what the block holds.  `b.WithSeal(h)` returns a block whose
header struct is a new one with the fields of `*h`, the pointers to the big
integers and to `Extra` included, and whose slices are those of `b`; no
mutation of storage that existed before the call changes a field of that
struct. -/
theorem WithBody_isolated_WithSeal_shares (g : Heap) (b : BlockMem) (txs us : Option Nat)
    (h : Nat) (hm : HeaderMem) (hwf : g.wf) (hb : b.header < g.headers.length)
    (htx : liveSlice g txs) (hus : liveSlice g us)
    (hu : ∀ u ∈ g.slice us, u < g.headers.length) (hh : g.headers.get? h = some hm) :
    (∃ blk g2, WithBodyMem g b txs us = some (blk, g2) ∧
      g2.readBlock blk =
        { header := (g.headerAt b.header).map CopyHeader
          uncles := (g.slice us).map (fun u => (g.headerAt u).map CopyHeader)
          fruits := []
          transactions := g.slice txs } ∧
      ∀ ws, (∀ w ∈ ws, Write.old g w) → (g2.writes ws).readBlock blk = g2.readBlock blk) ∧
    (∃ blk g2, WithSealMem g b h = some (blk, g2) ∧ blk.header = g.headers.length ∧
      g2.headers.get? blk.header = some hm ∧
      blk.transactions = (if hm.Fruit then b.transactions else none) ∧
      blk.uncles = (if hm.Fruit then none else b.uncles) ∧
      blk.fruits = (if hm.Fruit then none else b.fruits) ∧
      ∀ ws, (∀ w ∈ ws, Write.old g w) → (g2.writes ws).headers.get? blk.header = some hm) := by
  constructor
  · obtain ⟨blk, g2, hw, hiso, hread⟩ := WithBodyMem_spec g b txs us hwf hb htx hus hu
    exact ⟨blk, g2, hw, hread, fun ws hws =>
      readBlock_sameFresh (writes_old_sameFresh g g2 ws hws) blk hiso⟩
  · have hat : (g.newHeader hm).2.headers.get? g.headers.length = some hm := by
      simp [Heap.newHeader]
    have hfr : ∀ ws, (∀ w ∈ ws, Write.old g w) →
        ((g.newHeader hm).2.writes ws).headers.get? g.headers.length = some hm := by
      intro ws hws
      rw [← (writes_old_sameFresh g (g.newHeader hm).2 ws hws).2.2.1 _ (le_refl _)]
      exact hat
    simp only [WithSealMem, hh]
    cases hf : hm.Fruit with
    | true => exact ⟨_, _, rfl, rfl, hat, rfl, rfl, rfl, hfr⟩
    | false => exact ⟨_, _, rfl, rfl, hat, rfl, rfl, rfl, hfr⟩

/-- Witness of C23, amended: the two operations on `sampleBlock` in `sampleHeap`. -/
theorem WithBody_isolated_WithSeal_shares_witness :
    sampleHeap.wf ∧ liveSlice sampleHeap (some 1) ∧ liveSlice sampleHeap (some 2) ∧
    (∃ blk g2, WithBodyMem sampleHeap sampleBlock (some 1) (some 2) = some (blk, g2) ∧
      ∀ ws, (∀ w ∈ ws, Write.old sampleHeap w) →
        (g2.writes ws).readBlock blk = g2.readBlock blk) ∧
    (∃ blk g2, WithSealMem sampleHeap sampleBlock 0 = some (blk, g2) ∧
      blk.uncles = sampleBlock.uncles ∧
      ∀ ws, (∀ w ∈ ws, Write.old sampleHeap w) →
        (g2.writes ws).headers.get? blk.header = some sampleHeader) := by
  have hl1 : liveSlice sampleHeap (some 1) := by
    intro a ha
    cases ha
    decide
  have hl2 : liveSlice sampleHeap (some 2) := by
    intro a ha
    cases ha
    decide
  have hu : ∀ u ∈ sampleHeap.slice (some 2), u < sampleHeap.headers.length := by
    intro u hmem
    have e : sampleHeap.slice (some 2) = [0] := rfl
    rw [e, List.mem_singleton] at hmem
    subst hmem
    decide
  have key := WithBody_isolated_WithSeal_shares sampleHeap sampleBlock (some 1) (some 2) 0
    sampleHeader sampleHeap_wf (by decide) hl1 hl2 hu rfl
  obtain ⟨⟨blk, g2, h1, _, h3⟩, ⟨blk2, g3, k1, _, _, _, k5, _, k7⟩⟩ := key
  exact ⟨sampleHeap_wf, hl1, hl2, ⟨blk, g2, h1, h3⟩, ⟨blk2, g3, k1, k5, k7⟩⟩

/-! ### Witnesses of the claims on the block constructors -/

/-- The header of `NewBlockWithHeader(h)` has its four big integers set. -/
theorem NewBlockWithHeader_bigsSet (h : Header) :
    Header.bigsSet (Block.header (NewBlockWithHeader h)) := by
  refine ⟨?_, ?_, ?_, ?_⟩ <;> simp [Block.header, NewBlockWithHeader, CopyHeader]

/-- Witness of C21: a block whose header has its big integers set, and a hash
that reads the number. -/
theorem fresh_caches_after_WithSeal_WithBody_witness :
    Header.bigsSet (Block.header (NewBlockWithHeader
      ⟨1, 2, 3, 4, some 5, false, 6, ⟨7⟩, 8, 9, 10, 11, some 12, some 13, 14, 15, some 16, [17],
        18, [0, 0, 0, 0, 0, 0, 0, 1]⟩)) ∧
    (Block.Hash (fun h => h.ParentHash + (h.Number.getD 0).toNat)
      (Block.WithBody (NewBlockWithHeader
        ⟨1, 2, 3, 4, some 5, false, 6, ⟨7⟩, 8, 9, 10, 11, some 12, some 13, 14, 15, some 16, [17],
          18, [0, 0, 0, 0, 0, 0, 0, 1]⟩) [1] [])).1 = 14 :=
  ⟨NewBlockWithHeader_bigsSet _,
    (fresh_caches_after_WithSeal_WithBody (fun h => h.ParentHash + (h.Number.getD 0).toNat)
      (NewBlockWithHeader
        ⟨1, 2, 3, 4, some 5, false, 6, ⟨7⟩, 8, 9, 10, 11, some 12, some 13, 14, 15, some 16, [17],
          18, [0, 0, 0, 0, 0, 0, 0, 1]⟩)
      ⟨1, 2, 3, 4, some 5, false, 6, ⟨7⟩, 8, 9, 10, 11, some 12, some 13, 14, 15, some 16, [17],
        18, [0, 0, 0, 0, 0, 0, 0, 1]⟩ [1] []).2.2.2.2.2.2.1 (NewBlockWithHeader_bigsSet _)⟩

/-- Witness of C22: a header that is not a fruit, on a block without body. -/
theorem WithSeal_contract_witness :
    Block.transactions (Block.WithSeal (NewBlockWithHeader
      ⟨1, 2, 3, 4, some 5, true, 6, ⟨7⟩, 8, 9, 10, 11, some 12, some 13, 14, 15, some 16, [17],
        18, [0, 0, 0, 0, 0, 0, 0, 1]⟩)
      ⟨1, 2, 3, 4, some 5, false, 6, ⟨7⟩, 8, 9, 10, 11, some 12, some 13, 14, 15, some 16, [17],
        99, [0, 0, 0, 0, 0, 0, 0, 2]⟩) = [] :=
  ((WithSeal_contract (NewBlockWithHeader
      ⟨1, 2, 3, 4, some 5, true, 6, ⟨7⟩, 8, 9, 10, 11, some 12, some 13, 14, 15, some 16, [17],
        18, [0, 0, 0, 0, 0, 0, 0, 1]⟩)
      ⟨1, 2, 3, 4, some 5, false, 6, ⟨7⟩, 8, 9, 10, 11, some 12, some 13, 14, 15, some 16, [17],
        99, [0, 0, 0, 0, 0, 0, 0, 2]⟩).2.2 rfl).2.2

/-- Witness of C26: three bytes with a limit of 32, and with a limit of 2, on a
fresh miner. -/
theorem SetExtra_contract_witness :
    (SetExtra 32 (New false false) [1, 2, 3]).1.worker =
      (New false false).worker ++ [WorkerCall.setExtra [1, 2, 3]] ∧
    (SetExtra 2 (New false false) [1, 2, 3]).1 = New false false :=
  ⟨((SetExtra_contract 32 (New false false) [1, 2, 3]).2.2 (by decide)).2,
    (SetExtra_contract 2 (New false false) [1, 2, 3]).2.1 (by decide)⟩

/-! ### Claim on the copy of a header -/

/-- C31: for every header `h`, `CopyHeader(h)` has the sixteen fields that are
not big integers as `h` has them, and each of `Time`, `Difficulty`, `Number` and
`RecordNumber` with the value `h` has, or zero where `h` has nil; so for a
header whose four big integers are set, `NewBlockWithHeader(h).Header()` is
`h`.  On the heap, the header that `CopyHeader` returns for a live header reads
as that copy. -/
theorem CopyHeader_keeps_fields (h : Header) :
    ((CopyHeader h).ParentHash = h.ParentHash ∧ (CopyHeader h).PointerHash = h.PointerHash ∧
      (CopyHeader h).FruitsHash = h.FruitsHash ∧ (CopyHeader h).RecordHash = h.RecordHash ∧
      (CopyHeader h).Fruit = h.Fruit ∧ (CopyHeader h).UncleHash = h.UncleHash ∧
      (CopyHeader h).Coinbase = h.Coinbase ∧ (CopyHeader h).Root = h.Root ∧
      (CopyHeader h).TxHash = h.TxHash ∧ (CopyHeader h).ReceiptHash = h.ReceiptHash ∧
      (CopyHeader h).Bloom = h.Bloom ∧ (CopyHeader h).GasLimit = h.GasLimit ∧
      (CopyHeader h).GasUsed = h.GasUsed ∧ (CopyHeader h).Extra = h.Extra ∧
      (CopyHeader h).MixDigest = h.MixDigest ∧ (CopyHeader h).Nonce = h.Nonce) ∧
    ((∀ v, h.Time = some v → (CopyHeader h).Time = some v) ∧
      (h.Time = none → (CopyHeader h).Time = some 0)) ∧
    ((∀ v, h.Difficulty = some v → (CopyHeader h).Difficulty = some v) ∧
      (h.Difficulty = none → (CopyHeader h).Difficulty = some 0)) ∧
    ((∀ v, h.Number = some v → (CopyHeader h).Number = some v) ∧
      (h.Number = none → (CopyHeader h).Number = some 0)) ∧
    ((∀ v, h.RecordNumber = some v → (CopyHeader h).RecordNumber = some v) ∧
      (h.RecordNumber = none → (CopyHeader h).RecordNumber = some 0)) ∧
    (Header.bigsSet h → Block.Header (NewBlockWithHeader h) = h) ∧
    (∀ (g : Heap) (a : Nat) (hm : HeaderMem), g.headers.get? a = some hm →
      HeaderMem.live g hm → g.readHeader hm = h →
      ∃ c g2, CopyHeaderMem g a = some (c, g2) ∧ g2.headerAt c = some (CopyHeader h)) := by
  refine ⟨⟨rfl, rfl, rfl, rfl, rfl, rfl, rfl, rfl, rfl, rfl, rfl, rfl, rfl, rfl, rfl, rfl⟩,
    ⟨?_, ?_⟩, ⟨?_, ?_⟩, ⟨?_, ?_⟩, ⟨?_, ?_⟩, ?_, ?_⟩
  · intro v hv
    simp [CopyHeader, hv]
  · intro hv
    simp [CopyHeader, hv]
  · intro v hv
    simp [CopyHeader, hv]
  · intro hv
    simp [CopyHeader, hv]
  · intro v hv
    simp [CopyHeader, hv]
  · intro hv
    simp [CopyHeader, hv]
  · intro v hv
    simp [CopyHeader, hv]
  · intro hv
    simp [CopyHeader, hv]
  · intro hs
    show CopyHeader (CopyHeader h) = h
    rw [CopyHeader_of_bigsSet h hs, CopyHeader_of_bigsSet h hs]
  · intro g a hm hg hl hr
    obtain ⟨cm, g2, hc, hhead, _, _, _, hread⟩ := CopyHeaderMem_spec g a hm hg hl
    refine ⟨g.headers.length, g2, hc, ?_⟩
    have hat : g2.headers.get? g.headers.length = some cm := by
      rw [hhead]
      simp
    simp only [Heap.headerAt, hat, Option.map_some', hread, hr]

/-- Witness of C31: a header with its big integers set, one with a nil number,
and the copy of `sampleHeader` in `sampleHeap`. -/
theorem CopyHeader_keeps_fields_witness :
    Block.Header (NewBlockWithHeader
      ⟨1, 2, 3, 4, some 5, false, 6, ⟨7⟩, 8, 9, 10, 11, some 12, some 13, 14, 15, some 16, [17],
        18, [0, 0, 0, 0, 0, 0, 0, 1]⟩) =
      ⟨1, 2, 3, 4, some 5, false, 6, ⟨7⟩, 8, 9, 10, 11, some 12, some 13, 14, 15, some 16, [17],
        18, [0, 0, 0, 0, 0, 0, 0, 1]⟩ ∧
    (CopyHeader
      ⟨1, 2, 3, 4, some 5, false, 6, ⟨7⟩, 8, 9, 10, 11, some 12, none, 14, 15, some 16, [17],
        18, [0, 0, 0, 0, 0, 0, 0, 1]⟩).Number = some 0 ∧
    ∃ c g2, CopyHeaderMem sampleHeap 0 = some (c, g2) ∧
      g2.headerAt c = some (CopyHeader (sampleHeap.readHeader sampleHeader)) :=
  ⟨(CopyHeader_keeps_fields
      ⟨1, 2, 3, 4, some 5, false, 6, ⟨7⟩, 8, 9, 10, 11, some 12, some 13, 14, 15, some 16, [17],
        18, [0, 0, 0, 0, 0, 0, 0, 1]⟩).2.2.2.2.2.1 ⟨by decide, by decide, by decide, by decide⟩,
    ((CopyHeader_keeps_fields
      ⟨1, 2, 3, 4, some 5, false, 6, ⟨7⟩, 8, 9, 10, 11, some 12, none, 14, 15, some 16, [17],
        18, [0, 0, 0, 0, 0, 0, 0, 1]⟩).2.2.2.1).2 rfl,
    (CopyHeader_keeps_fields (sampleHeap.readHeader sampleHeader)).2.2.2.2.2.2 sampleHeap 0
      sampleHeader rfl sampleHeader_live rfl⟩

end Truechain
